import Mathlib

/-!
# The LSH forest of `src/lshForest/lshForest.go`

A shallow embedding of the Go package `lshForest` and theorems about it.

Conventions of the embedding.

* A Go `string` holding raw bytes (a hashed signature) is a `List Nat` of byte values;
  item keys (Go `string`s that are only compared for equality) are Lean `String`s.
* A Go slice `[]uint` is a `List Nat`; its capacity is taken to be its length, so a slice
  expression past the length panics.
* A Go map is an association list; the order of its entries carries no meaning, and the
  code that ranges over a map is modelled for every order.
* Go's `int` and `uint` are 64 bits wide. Counts and lengths are `Nat`; `sigSize` is an
  `Int`, and the one product that could overflow, `l*k` in `optimise`, goes through `int64`.
* A run-time panic is `none`.
* `float64` values are `F64`; the float arithmetic of `integral`, `math.Pow` and of
  `+` is not embedded: `optimise` takes them as the parameter `FloatOps`.
-/

namespace lshForest

/-! ## Byte strings -/

/-- Go's `<` on strings: byte-wise lexicographic, a proper prefix is smaller. -/
def strLess : List Nat → List Nat → Bool
  | [], [] => false
  | [], _ :: _ => true
  | _ :: _, [] => false
  | a :: as, b :: bs => if a < b then true else if b < a then false else strLess as bs

/-- Go's string slice expression `s[:n]`; it panics when `n` exceeds the length. -/
def strPrefix (s : List Nat) (n : Nat) : Option (List Nat) :=
  if n ≤ s.length then some (s.take n) else none

/-- Go's slice expression `sig[lo:hi]` on a slice whose capacity is its length. -/
def sliceSig (sig : List Nat) (lo hi : Nat) : Option (List Nat) :=
  if lo ≤ hi ∧ hi ≤ sig.length then some ((sig.drop lo).take (hi - lo)) else none

/-! ## The types of the forest -/

/-- The Go type `graphKeys`: the stringified keys filed under one hashed signature. -/
abbrev graphKeys := List String

/-- The Go type `initialHashTable`, a `map[string]graphKeys`, as an association list. -/
abbrev initialHashTable := List (List Nat × graphKeys)

/-- The Go struct `band`. -/
structure band where
  HashedSignature : List Nat
  graphKeys : lshForest.graphKeys
  deriving DecidableEq

/-- The Go type `hashTables`, a sortable slice of bands. -/
abbrev hashTables := List band

/-- The Go type `hashedSignatureFunc`. -/
abbrev hashedSignatureFunc := List Nat → Option (List Nat)

/-- The Go type `KeyLookupMap`, a `map[string]seqio.Key`; the type `seqio.Key` of the
imported package is the parameter `K`. -/
abbrev KeyLookupMap (K : Type) := List (String × K)

/-- The Go struct `LSHforest`. -/
structure LSHforest (K : Type) where
  numHashFuncs : Nat
  numBands : Nat
  initialHashTables : List initialHashTable
  hashTables : List hashTables
  hashedSignatureFunc : lshForest.hashedSignatureFunc
  hashValueSize : Nat
  KeyLookup : KeyLookupMap K

/-! ## The hashed-signature function -/

/-- The eight bytes that `binary.LittleEndian.PutUint64(buf, uint64(v))` writes to `buf`. -/
def putUint64 (v : Nat) : List Nat :=
  (List.range 8).map (fun j => v % 2 ^ 64 / 256 ^ j % 256)

/-- The function returned by `hashedSignatureFuncGen(hashValueSize)`: for each value of the
signature in order, `buf[:hashValueSize]` is copied to the next `hashValueSize` bytes of the
result. `buf` has capacity 8, so `buf[:hashValueSize]` panics for a larger size. -/
def hashedSignatureFuncGen (hashValueSize : Nat) : hashedSignatureFunc
  | [] => some []
  | v :: sig =>
    if hashValueSize ≤ 8 then
      (hashedSignatureFuncGen hashValueSize sig).map
        (fun rest => (putUint64 v).take hashValueSize ++ rest)
    else none

/-! ## Go maps as association lists -/

/-- The map read `m[k]` with its `ok` flag. -/
def mapGet (m : initialHashTable) (k : List Nat) : Option graphKeys :=
  match m with
  | [] => none
  | (k', v) :: rest => if k' = k then some v else mapGet rest k

/-- The map write `m[k] = v`. -/
def mapSet (m : initialHashTable) (k : List Nat) (v : graphKeys) : initialHashTable :=
  match m with
  | [] => [(k, v)]
  | (k', v') :: rest => if k' = k then (k, v) :: rest else (k', v') :: mapSet rest k v

/-! ## Add -/

/-- The expression `self.hashedSignatureFunc(sig[i*self.numHashFuncs : (i+1)*self.numHashFuncs])`
of `Add` and `runQuery`: the hashed signature of band `i`. -/
def hashedBand {K : Type} (self : LSHforest K) (sig : List Nat) (i : Nat) : Option (List Nat) :=
  (sliceSig sig (i * self.numHashFuncs) ((i + 1) * self.numHashFuncs)).bind
    self.hashedSignatureFunc

/-- The first loop of `Add` and of `runQuery`: the hashed signatures of bands
`0 .. numBands-1`, computed in this order. -/
def hashSignature {K : Type} (self : LSHforest K) (sig : List Nat) :
    Option (List (List Nat)) :=
  (List.range self.numBands).mapM (hashedBand self sig)

/-- The body of the second loop of `Add` for one band: a fresh one-element bucket when the
hashed signature is not in the map, the key appended to the bucket otherwise. -/
def addToTable (table : initialHashTable) (hashed : List Nat) (key : String) :
    initialHashTable :=
  match mapGet table hashed with
  | none => mapSet table hashed [key]
  | some keys => mapSet table hashed (keys ++ [key])

/-- The second loop of `Add`, over `i < len(self.initialHashTables)`; `hashedSignature[i]`
panics when there are more tables than hashed signatures. -/
def addLoop (key : String) : List initialHashTable → List (List Nat) →
    Option (List initialHashTable)
  | [], _ => some []
  | _ :: _, [] => none
  | table :: tables, hashed :: rest =>
    (addLoop key tables rest).map (fun done => addToTable table hashed key :: done)

/-- The method `Add`. -/
def Add {K : Type} (self : LSHforest K) (key : String) (sig : List Nat) :
    Option (LSHforest K) :=
  (hashSignature self sig).bind fun hashedSignature =>
    (addLoop key self.initialHashTables hashedSignature).map fun tables =>
      { self with initialHashTables := tables }

/-- A sequence of `Add` calls, in order. -/
def addAll {K : Type} (self : LSHforest K) : List (String × List Nat) → Option (LSHforest K)
  | [] => some self
  | (key, sig) :: rest => (Add self key sig).bind fun next => addAll next rest

/-! ## Index -/

/-- The band literal `band{HashedSignature, keys}` built from one map entry. -/
def toBand (entry : List Nat × graphKeys) : band :=
  ⟨entry.1, entry.2⟩

/-- The order `sort.Sort` establishes: `!Less(j, i)` for all positions `i < j`. -/
def bandLe (a b : band) : Prop :=
  strLess b.HashedSignature a.HashedSignature = false

instance bandLeDecidable : DecidableRel bandLe :=
  fun a b => inferInstanceAs (Decidable (strLess b.HashedSignature a.HashedSignature = false))

/-- What `sort.Sort(h)` can leave in `h` when it held `input`: the same bands, rearranged
so that no band is `Less` than an earlier one. `sort.Sort` is not stable, so bands with
equal hashed signatures may come out in any order. -/
def SortOutcome (input output : hashTables) : Prop :=
  output.Perm input ∧ output.Pairwise bandLe

/-- The loop of `Index`, for every order in which Go may range over the maps and every
outcome of the sort: to each indexed table the entries of the map of the same band are
appended, the table is sorted, and the map is replaced by an empty one. -/
inductive IndexLoop : List hashTables → List initialHashTable →
    List hashTables → List initialHashTable → Prop
  | nil (tables : List initialHashTable) : IndexLoop [] tables [] tables
  | cons {h h' : hashTables} {table entries : initialHashTable}
      {hs hs' : List hashTables} {tables tables' : List initialHashTable} :
      entries.Perm table → SortOutcome (h ++ entries.map toBand) h' →
      IndexLoop hs tables hs' tables' →
      IndexLoop (h :: hs) (table :: tables) (h' :: hs') ([] :: tables')

/-- The states `Index` can leave a forest in. -/
def IndexRel {K : Type} (self after : LSHforest K) : Prop :=
  ∃ hs tables, IndexLoop self.hashTables self.initialHashTables hs tables ∧
    after = { self with hashTables := hs, initialHashTables := tables }

/-- The loop of `Index` run with the maps ranged over in list order and a stable sort;
`self.initialHashTables[i]` panics when there are fewer maps than indexed tables. -/
def indexLoop : List hashTables → List initialHashTable →
    Option (List hashTables × List initialHashTable)
  | [], tables => some ([], tables)
  | _ :: _, [] => none
  | h :: hs, table :: tables =>
    (indexLoop hs tables).map fun done =>
      ((h ++ table.map toBand).insertionSort bandLe :: done.1, [] :: done.2)

/-- The method `Index`, run as `indexLoop` does. -/
def Index {K : Type} (self : LSHforest K) : Option (LSHforest K) :=
  (indexLoop self.hashTables self.initialHashTables).map fun done =>
    { self with hashTables := done.1, initialHashTables := done.2 }

/-! ## Query -/

/-- The loop of `sort.Search(n, f)`: `for i < j { h := int(uint(i+j) >> 1); if !f(h)
{ i = h + 1 } else { j = h } }; return i`. Every turn shrinks `j - i`, so `fuel = j - i`
turns are enough; `none` is a panic of `f` (or no fuel left). -/
def searchLoop (f : Nat → Option Bool) : Nat → Nat → Nat → Option Nat
  | 0, i, j => if i < j then none else some i
  | fuel + 1, i, j =>
    if i < j then
      let h := (i + j) / 2
      (f h).bind fun b => if !b then searchLoop f fuel (h + 1) j else searchLoop f fuel i h
    else some i

/-- Go's `sort.Search(n, f)`. -/
def sortSearch (n : Nat) (f : Nat → Option Bool) : Option Nat :=
  searchLoop f n 0 n

/-- The test `band[x].HashedSignature[:prefixSize] >= queryChunk` handed to `sort.Search`. -/
def searchTest (prefixSize : Nat) (table : hashTables) (queryChunk : List Nat) (x : Nat) :
    Option Bool :=
  (table.get? x).bind fun b =>
    (strPrefix b.HashedSignature prefixSize).map fun p => !strLess p queryChunk

/-- The loop `for j := index; j < len(band) && band[j].HashedSignature[:prefixSize] ==
queryChunk; j++` of a probe, over the bands from `index` on: the keys sent to `keyChan`. -/
def emitLoop (prefixSize : Nat) (queryChunk : List Nat) : List band → Option (List String)
  | [] => some []
  | b :: rest =>
    (strPrefix b.HashedSignature prefixSize).bind fun p =>
      if p = queryChunk then
        (emitLoop prefixSize queryChunk rest).map fun keys => b.graphKeys ++ keys
      else some []

/-- One probe goroutine of `runQuery` when none of its slice expressions is out of range:
the keys it sends to `keyChan`, in order; `none` when the probe panics. The `done` channel
is closed only when `Query` returns, so the probe never stops early. -/
def probe (prefixSize : Nat) (table : hashTables) (queryChunk : List Nat) :
    Option (List String) :=
  (sortSearch table.length (searchTest prefixSize table queryChunk)).bind fun index =>
    match table.get? index with
    | none => some []
    | some b =>
      (strPrefix b.HashedSignature prefixSize).bind fun p =>
        if p = queryChunk then emitLoop prefixSize queryChunk (table.drop index)
        else some []

/-- The probes of `runQuery`, one per band `i < numBands`, each on `self.hashTables[i]` and
`hashedSignature[i]`: the list of keys each of them sends. It is `none` when a goroutine of
the call panics: the goroutine of `runQuery` at a slice expression of its hashing loop or
at `self.hashTables[i]`, or a probe at `HashedSignature[:prefixSize]`. -/
def runProbes {K : Type} (self : LSHforest K) (sig : List Nat) :
    Option (List (List String)) :=
  (hashSignature self sig).bind fun hashedSignature =>
    (List.range self.numBands).mapM fun i =>
      (self.hashTables.get? i).bind fun table =>
        (hashedSignature.get? i).bind fun queryChunk =>
          probe (self.hashValueSize * self.numHashFuncs) table queryChunk

/-- The loop of a probe as far as it gets: the keys sent to `keyChan` before the loop ends
or `HashedSignature[:prefixSize]` panics. -/
def emitSent (prefixSize : Nat) (queryChunk : List Nat) : List band → List String
  | [] => []
  | b :: rest =>
    match strPrefix b.HashedSignature prefixSize with
    | none => []
    | some p => if p = queryChunk then b.graphKeys ++ emitSent prefixSize queryChunk rest else []

/-- One probe goroutine of `runQuery` as far as it gets: the keys it sends to `keyChan`
before it returns or panics. Either way its deferred `wg.Done()` runs. -/
def probeSent (prefixSize : Nat) (table : hashTables) (queryChunk : List Nat) : List String :=
  match sortSearch table.length (searchTest prefixSize table queryChunk) with
  | none => []
  | some index =>
    match table.get? index with
    | none => []
    | some b =>
      match strPrefix b.HashedSignature prefixSize with
      | none => []
      | some p =>
        if p = queryChunk then emitSent prefixSize queryChunk (table.drop index) else []

/-- The goroutine of `runQuery` up to its consumer loop. It is `none` when that goroutine
panics itself, at a slice expression of the hashing loop or at `self.hashTables[i]`: its
deferred `close(queryResultChan)` then runs with nothing sent on that channel. Otherwise
the probes are started: for each, the keys it sends before it returns or panics. -/
def probesSent {K : Type} (self : LSHforest K) (sig : List Nat) :
    Option (List (List String)) :=
  (hashSignature self sig).bind fun hashedSignature =>
    (List.range self.numBands).mapM fun i =>
      (self.hashTables.get? i).bind fun table =>
        (hashedSignature.get? i).map fun queryChunk =>
          probeSent (self.hashValueSize * self.numHashFuncs) table queryChunk

/-- The consumer loop of `runQuery`: a key received from `keyChan` is passed on unless it is
in `seens`, and is then recorded in `seens`. -/
def consume (seens : List String) : List String → List String
  | [] => []
  | key :: rest =>
    if key ∈ seens then consume seens rest else key :: consume (key :: seens) rest

/-- The orders in which the consumer can receive what the probes send on the unbuffered
channel `keyChan`: each receive takes the next key of some probe, until every probe has
sent all its keys (then the channel is closed). -/
inductive Interleaving {α : Type} : List (List α) → List α → Prop
  | closed (ls : List (List α)) : (∀ l ∈ ls, l = []) → Interleaving ls []
  | receive (ls : List (List α)) (i : Nat) (x : α) (rest out : List α) :
      ls.get? i = some (x :: rest) → Interleaving (ls.set i rest) out →
      Interleaving ls (x :: out)

/-- The lists `Query` can return to its caller, over all schedules of the goroutines. `Query`
returns `result` when `queryResultChan` is closed, with the keys received until then. If
no goroutine panics, that is after the consumer has received every key of every probe. A
panic of a goroutine the call started ends the process, but the deferred calls of that
goroutine run first, and `Query` can return before the process is gone: the empty result
when the goroutine of `runQuery` panics (its deferred `close(queryResultChan)` runs before
any key was passed on), and, when a probe panics (its deferred `wg.Done()` runs), what the
consumer makes of the keys the probes sent. -/
def QueryResult {K : Type} (self : LSHforest K) (sig : List Nat) (result : List String) :
    Prop :=
  match probesSent self sig with
  | none => result = []
  | some sent => ∃ stream, Interleaving sent stream ∧ result = consume [] stream

/-- A goroutine that the call `Query(sig)` started panics, which ends the process (`Query`
itself holds no expression that can panic). -/
def QueryPanics {K : Type} (self : LSHforest K) (sig : List Nat) : Prop :=
  runProbes self sig = none

/-- The method `Query` under the schedule in which the probes send band after band. It is
`none` when a goroutine of the call panics, which ends the process; what `Query` can hand
to its caller before the process is gone is told by `QueryResult`. -/
def Query {K : Type} (self : LSHforest K) (sig : List Nat) : Option (List String) :=
  (runProbes self sig).map fun sent => consume [] sent.flatten

/-! ## optimise -/

/-- A `float64` value as far as `optimise` needs one: a finite value is a whole multiple
`n` of `2^-1074`, the smallest positive `float64`; the two zeros are one value. -/
inductive F64 where
  | nan
  | negInf
  | fin (n : Int)
  | posInf
  deriving DecidableEq

/-- Go's `>` on `float64`: false whenever an operand is NaN. -/
def F64.gt : F64 → F64 → Bool
  | .nan, _ => false
  | _, .nan => false
  | .negInf, _ => false
  | .fin _, .negInf => true
  | .fin a, .fin b => decide (b < a)
  | .fin _, .posInf => false
  | .posInf, .posInf => false
  | .posInf, _ => true

/-- The constant `math.MaxFloat64`, `(2^53 - 1) * 2^971`, in units of `2^-1074`. -/
def maxFloat64 : F64 := .fin (Int.ofNat ((2 ^ 53 - 1) <<< 2045))

/-- The literal `0.01` as a `float64`, `5764607523034235 * 2^-59`, in units of `2^-1074`. -/
def precision : F64 := .fin (Int.ofNat (5764607523034235 <<< 1015))

/-- The float computations `optimise` calls and that are not embedded: float addition, and
`probFalsePositive(l, k, t, precision)` and `probFalseNegative(l, k, t, precision)`, which
run `integral` over `math.Pow`. -/
structure FloatOps where
  add : F64 → F64 → F64
  probFalsePositive : Nat → Nat → F64 → F64 → F64
  probFalseNegative : Nat → Nat → F64 → F64 → F64

/-- A Go `int` (64 bits) result of an arithmetic operation whose exact value is `x`. -/
def int64 (x : Int) : Int :=
  (x + 2 ^ 63) % 2 ^ 64 - 2 ^ 63

/-- The local variables of `optimise`. -/
structure optimiseState where
  optimumNumHashFuncs : Nat
  optimumNumBands : Nat
  fp : F64
  fn : F64
  minError : F64

/-- The body of the inner loop of `optimise` after the `break` test. -/
def optimiseStep (ops : FloatOps) (jsThresh : F64) (l k : Nat) (st : optimiseState) :
    optimiseState :=
  let currFp := ops.probFalsePositive l k jsThresh precision
  let currFn := ops.probFalseNegative l k jsThresh precision
  let currErr := ops.add currFn currFp
  if F64.gt st.minError currErr then
    { optimumNumHashFuncs := k, optimumNumBands := l, fp := currFp, fn := currFn,
      minError := currErr }
  else st

/-- The inner loop `for k := 1; k <= sigSize; k++` of `optimise`, over the values of `k`
still to come, with its `break` on `l*k > sigSize`. -/
def optimiseInner (ops : FloatOps) (sigSize : Int) (jsThresh : F64) (l : Nat) :
    List Nat → optimiseState → optimiseState
  | [], st => st
  | k :: ks, st =>
    if int64 ((l : Int) * (k : Int)) > sigSize then st
    else optimiseInner ops sigSize jsThresh l ks (optimiseStep ops jsThresh l k st)

/-- The state `optimise` ends its loops in; both loops run over `1 .. sigSize`
(for `sigSize` below the largest `int`, where `l++` and `k++` do not wrap). -/
def optimiseScan (ops : FloatOps) (sigSize : Int) (jsThresh : F64) : optimiseState :=
  (List.range' 1 sigSize.toNat).foldl
    (fun st l => optimiseInner ops sigSize jsThresh l (List.range' 1 sigSize.toNat) st)
    { optimumNumHashFuncs := 0, optimumNumBands := 0, fp := .fin 0, fn := .fin 0,
      minError := maxFloat64 }

/-- The function `optimise`: `(optimumNumHashFuncs, optimumNumBands, fp, fn)`. -/
def optimise (ops : FloatOps) (sigSize : Int) (jsThresh : F64) : Nat × Nat × F64 × F64 :=
  let st := optimiseScan ops sigSize jsThresh
  (st.optimumNumHashFuncs, st.optimumNumBands, st.fp, st.fn)

/-! ## NewLSHforest -/

/-- The constructor `NewLSHforest`. -/
def NewLSHforest {K : Type} (ops : FloatOps) (sigSize : Int) (jsThresh : F64) : LSHforest K :=
  let numHashFuncs := (optimise ops sigSize jsThresh).1
  let numBands := (optimise ops sigSize jsThresh).2.1
  let hashValueSize := 4
  { numHashFuncs := numHashFuncs
    numBands := numBands
    hashValueSize := hashValueSize
    initialHashTables := List.replicate numBands []
    hashTables := List.replicate numBands []
    hashedSignatureFunc := hashedSignatureFuncGen hashValueSize
    KeyLookup := [] }

/-- The method `Settings`. -/
def Settings {K : Type} (self : LSHforest K) : Nat × Nat :=
  (self.numHashFuncs, self.numBands)

/-! ## Dump and Load -/

/-- What one `Encode` call appends to a gob stream and one `Decode` call reads from it: a
map value, as the sequence of its entries in the order the encoder ranged over the map.
Values are taken to survive the trip through gob unchanged. -/
inductive gobValue (K : Type) where
  | table (entries : initialHashTable)
  | keyLookup (entries : KeyLookupMap K)
  deriving DecidableEq

/-- The files that `os.Create` and `os.Open` see: the gob values each existing file holds,
and the paths at which `os.Create` succeeds. Writes to a created file succeed. -/
structure FileSystem (K : Type) where
  files : String → Option (List (gobValue K))
  creatable : String → Bool

/-- The file system after `os.Create(path)` and the `Encode` calls that wrote `values`. -/
def FileSystem.write {K : Type} (fs : FileSystem K) (path : String)
    (values : List (gobValue K)) : FileSystem K :=
  { fs with files := fun p => if p = path then some values else fs.files p }

/-- The errors `Dump` and `Load` return: the one `Dump` makes with `fmt.Errorf` ("cannot dump
the LSH Forest after running the indexing method"), an error of `os.Create` or `os.Open`,
and an error of `Decode`. -/
inductive goError where
  | afterIndexing
  | io
  | decode
  deriving DecidableEq

/-- The map write `m[k] = v` on a `KeyLookupMap`. -/
def lookupSet {K : Type} (m : KeyLookupMap K) (k : String) (v : K) : KeyLookupMap K :=
  match m with
  | [] => [(k, v)]
  | (k', v') :: rest => if k' = k then (k, v) :: rest else (k', v') :: lookupSet rest k v

/-- The map read `m[k]` on a `KeyLookupMap`, with its `ok` flag. -/
def lookupGet {K : Type} (m : KeyLookupMap K) (k : String) : Option K :=
  match m with
  | [] => none
  | (k', v) :: rest => if k' = k then some v else lookupGet rest k

/-- The method `Dump`, with every map encoded in list order: the returned error (`none` is
`nil`) and the file system it leaves. `self.hashTables[0]` panics in a forest without
bands. -/
def Dump {K : Type} (self : LSHforest K) (path : String) (fs : FileSystem K) :
    Option (Option goError × FileSystem K) :=
  match self.hashTables.get? 0 with
  | none => none
  | some first =>
    if first.length ≠ 0 then some (some goError.afterIndexing, fs)
    else if fs.creatable path then
      some (none, fs.write path
        (self.initialHashTables.map gobValue.table ++ [gobValue.keyLookup self.KeyLookup]))
    else some (some goError.io, fs)

/-- The outcomes of `Dump`, for every order in which the encoder may range over the maps. -/
inductive DumpRel {K : Type} (self : LSHforest K) (path : String) (fs : FileSystem K) :
    Option (Option goError × FileSystem K) → Prop
  | panic : self.hashTables.get? 0 = none → DumpRel self path fs none
  | refused (first : hashTables) : self.hashTables.get? 0 = some first → first.length ≠ 0 →
      DumpRel self path fs (some (some goError.afterIndexing, fs))
  | createFailed (first : hashTables) : self.hashTables.get? 0 = some first →
      first.length = 0 → fs.creatable path = false →
      DumpRel self path fs (some (some goError.io, fs))
  | written (first : hashTables) (tables : List initialHashTable) (lookup : KeyLookupMap K) :
      self.hashTables.get? 0 = some first → first.length = 0 → fs.creatable path = true →
      List.Forall₂ (fun entries table => entries.Perm table) tables self.initialHashTables →
      lookup.Perm self.KeyLookup →
      DumpRel self path fs (some (none, fs.write path
        (tables.map gobValue.table ++ [gobValue.keyLookup lookup])))

/-- `Decode` of a map value into a map that is not nil: each decoded entry is set in it. -/
def decodeTable (table entries : initialHashTable) : initialHashTable :=
  entries.foldl (fun m e => mapSet m e.1 e.2) table

/-- `Decode` of a map value into a `KeyLookupMap` that is not nil. -/
def decodeLookup {K : Type} (lookup entries : KeyLookupMap K) : KeyLookupMap K :=
  entries.foldl (fun m e => lookupSet m e.1 e.2) lookup

/-- The loop of `Load` over the maps of the forest: each `Decode(&bandContents)` reads the
next value of the stream into the map `bandContents` refers to. It stops with an error at
the end of the stream or at a value of another type. Returned: the error, the maps, and
the rest of the stream. -/
def loadLoop {K : Type} : List initialHashTable → List (gobValue K) →
    Option goError × List initialHashTable × List (gobValue K)
  | [], stream => (none, [], stream)
  | table :: tables, [] => (some goError.decode, table :: tables, [])
  | table :: tables, gobValue.keyLookup _ :: stream =>
    (some goError.decode, table :: tables, stream)
  | table :: tables, gobValue.table entries :: stream =>
    let done := loadLoop tables stream
    (done.1, decodeTable table entries :: done.2.1, done.2.2)

/-- The method `Load`: the returned error (`none` is `nil`) and the forest as it is left. -/
def Load {K : Type} (self : LSHforest K) (path : String) (fs : FileSystem K) :
    Option goError × LSHforest K :=
  match fs.files path with
  | none => (some goError.io, self)
  | some stream =>
    let done := loadLoop self.initialHashTables stream
    match done.1 with
    | some err => (some err, { self with initialHashTables := done.2.1 })
    | none =>
      match done.2.2 with
      | gobValue.keyLookup entries :: _ =>
        (none, { self with initialHashTables := done.2.1,
                           KeyLookup := decodeLookup self.KeyLookup entries })
      | _ => (some goError.decode, { self with initialHashTables := done.2.1 })

/-! ## The goroutines of `runQuery` -/

/-- Where the consumer loop `for key := range keyChan` of `runQuery` stands: waiting to
receive from `keyChan`, holding a key not seen before that it is sending on
`queryResultChan`, or past the loop (which closes `queryResultChan`). -/
inductive consumerState where
  | receiving
  | forwarding (key : String)
  | exited
  deriving DecidableEq

/-- The state of one call of `Query`. For each probe goroutine, the keys it has still to
send on `keyChan` (`none` once its deferred `wg.Done()` has run); the counter of the
wait group `wg`; whether `keyChan` is closed; the consumer with its map `seens`; the slice
`result` that `Query` has appended to so far; whether `Query` has returned (which closes
`done`); whether a goroutine has panicked. -/
structure queryState where
  probes : List (Option (List String))
  wg : Nat
  keyChanClosed : Bool
  consumer : consumerState
  seens : List String
  result : List String
  returned : Bool
  panicked : Bool

/-- The state after `wg.Add(self.numBands)` and the `go` statements, when the probes have
the lists `sent` of keys to send. -/
def queryState.init (sent : List (List String)) : queryState :=
  { probes := sent.map some
    wg := sent.length
    keyChanClosed := false
    consumer := consumerState.receiving
    seens := []
    result := []
    returned := false
    panicked := false }

/-- One step of some goroutine of a call of `Query`; any enabled step can come next. -/
inductive queryStep : queryState → queryState → Prop
  /-- A probe's `keyChan <- key` meets the consumer's receive; the consumer looks the key up
  in `seens` and goes on to the next receive if it is there. -/
  | send (st : queryState) (i : Nat) (x : String) (rest : List String) :
      st.panicked = false → st.probes.get? i = some (some (x :: rest)) →
      st.keyChanClosed = false → st.consumer = consumerState.receiving →
      queryStep st { st with
        probes := st.probes.set i (some rest)
        consumer := if x ∈ st.seens then consumerState.receiving
          else consumerState.forwarding x }
  /-- A probe's `keyChan <- key` finds `keyChan` closed: a panic. -/
  | sendClosed (st : queryState) (i : Nat) (x : String) (rest : List String) :
      st.panicked = false → st.probes.get? i = some (some (x :: rest)) →
      st.keyChanClosed = true → queryStep st { st with panicked := true }
  /-- A probe's `<-done` case: `done` is closed once `Query` has returned, and the probe
  returns without sending the rest. -/
  | abandon (st : queryState) (i : Nat) (x : String) (rest : List String) :
      st.panicked = false → st.probes.get? i = some (some (x :: rest)) →
      st.returned = true → queryStep st { st with probes := st.probes.set i (some []) }
  /-- A probe has nothing left to send and returns: its deferred `wg.Done()` runs. -/
  | done (st : queryState) (i : Nat) :
      st.panicked = false → st.probes.get? i = some (some []) → 0 < st.wg →
      queryStep st { st with probes := st.probes.set i none, wg := st.wg - 1 }
  /-- `wg.Done()` on a counter that is already zero: a panic. -/
  | doneNegative (st : queryState) (i : Nat) :
      st.panicked = false → st.probes.get? i = some (some []) → st.wg = 0 →
      queryStep st { st with panicked := true }
  /-- The goroutine `wg.Wait(); close(keyChan)`, once the counter is zero. -/
  | close (st : queryState) :
      st.panicked = false → st.wg = 0 → st.keyChanClosed = false →
      queryStep st { st with keyChanClosed := true }
  /-- The consumer's `queryResultChan <- key` meets the receive of `Query`, which appends
  the key to `result`; then `seens[key] = true`. -/
  | forward (st : queryState) (x : String) :
      st.panicked = false → st.consumer = consumerState.forwarding x →
      queryStep st { st with
        result := st.result ++ [x]
        seens := x :: st.seens
        consumer := consumerState.receiving }
  /-- The consumer's receive finds `keyChan` closed: the loop ends and the deferred
  `close(queryResultChan)` runs. -/
  | exit (st : queryState) :
      st.panicked = false → st.consumer = consumerState.receiving →
      st.keyChanClosed = true → queryStep st { st with consumer := consumerState.exited }
  /-- The loop of `Query` finds `queryResultChan` closed and `Query` returns `result`. -/
  | ret (st : queryState) :
      st.panicked = false → st.consumer = consumerState.exited → st.returned = false →
      queryStep st { st with returned := true }

/-- The states a call of `Query` can reach when the probes have the lists `sent` to send. -/
def queryReach (sent : List (List String)) (st : queryState) : Prop :=
  Relation.ReflTransGen queryStep (queryState.init sent) st

/-- The lists `Query` can return, over all runs of its goroutines, when no slice expression
of the call is out of range (`runProbes` returns the keys the probes send). -/
def QueryRun {K : Type} (self : LSHforest K) (sig : List Nat) (result : List String) :
    Prop :=
  ∃ sent st, runProbes self sig = some sent ∧ queryReach sent st ∧ st.returned = true ∧
    st.result = result

/-! ## Vocabulary of the statements -/

/-- The four low-order bytes of `v`, least significant first. -/
def lowBytes4 (v : Nat) : List Nat :=
  [v % 256, v / 256 % 256, v / 256 ^ 2 % 256, v / 256 ^ 3 % 256]

/-- The invariants `NewLSHforest` sets up and no method changes: the encoder is the one
generated for `hashValueSize`, and there is one map and one indexed table per band. -/
def Configured {K : Type} (self : LSHforest K) : Prop :=
  self.hashValueSize ≤ 8 ∧
    self.hashedSignatureFunc = hashedSignatureFuncGen self.hashValueSize ∧
    self.initialHashTables.length = self.numBands ∧
    self.hashTables.length = self.numBands

/-- The hashed signature of band `i` as a total function (for a configured forest). -/
def bandKey (w n : Nat) (sig : List Nat) (i : Nat) : List Nat :=
  ((sig.drop (i * n)).take n).flatMap fun v => (putUint64 v).take w

/-- The keys a probe should send: those of the bands whose hashed signature is the chunk. -/
def matching (table : hashTables) (queryChunk : List Nat) : List String :=
  (table.filter fun b => decide (b.HashedSignature = queryChunk)).flatMap fun b => b.graphKeys

/-- The item keys added with a signature whose band `i` hashes to `hashed`, in the order
of the `Add` calls. -/
def bucket (w n : Nat) (items : List (String × List Nat)) (i : Nat) (hashed : List Nat) :
    List String :=
  (items.filter fun p => decide (bandKey w n p.2 i = hashed)).map Prod.fst

/-- What the map of band `i` holds once `items` have been added to a fresh forest. -/
def TableHolds (w n : Nat) (items : List (String × List Nat)) (i : Nat)
    (table : initialHashTable) : Prop :=
  (table.map Prod.fst).Nodup ∧ (∀ e ∈ table, e.1.length = w * n) ∧
    ∀ hashed, mapGet table hashed =
      if bucket w n items i hashed = [] then none else some (bucket w n items i hashed)

/-- The state of a forest to which `items` have been added since `NewLSHforest`. -/
def Built {K : Type} (self : LSHforest K) (items : List (String × List Nat)) : Prop :=
  Configured self ∧ (∀ h ∈ self.hashTables, h = []) ∧
    ∀ i table, self.initialHashTables.get? i = some table →
      TableHolds self.hashValueSize self.numHashFuncs items i table

/-- The state of a forest indexed once after `items` were added: every indexed table is
sorted, holds hashed signatures of full width, and files under a hashed signature exactly
the keys added with it in that band. -/
def Indexed {K : Type} (self : LSHforest K) (items : List (String × List Nat)) : Prop :=
  Configured self ∧
    ∀ i table, self.hashTables.get? i = some table →
      table.Pairwise bandLe ∧
      (∀ e ∈ table, e.HashedSignature.length = self.hashValueSize * self.numHashFuncs) ∧
      ∀ q key, key ∈ matching table q ↔
        key ∈ bucket self.hashValueSize self.numHashFuncs items i q

/-- The `float64` value `1.0`, in units of `2^-1074`. -/
def F64.one : F64 := .fin (Int.ofNat (1 <<< 1074))

/-- A similarity threshold strictly between 0 and 1, by Go's comparisons. -/
def isThreshold (t : F64) : Prop :=
  F64.gt t (.fin 0) = true ∧ F64.gt F64.one t = true

/-- The error `currErr` that `optimise` computes for `l` bands of `k` rows. -/
def currErr (ops : FloatOps) (jsThresh : F64) (l k : Nat) : F64 :=
  ops.add (ops.probFalseNegative l k jsThresh precision)
    (ops.probFalsePositive l k jsThresh precision)

/-- The state of `optimise` once the pairs in `S` have been scanned: nothing selected and
no error below `math.MaxFloat64` so far, or the selected pair is in `S`, no pair of `S`
has a smaller error, and every pair of `S` with an equal error comes later in the scan
(more bands, or as many bands and at least as many rows). -/
def BestOf (ops : FloatOps) (jsThresh : F64) (S : Nat → Nat → Prop) (st : optimiseState) :
    Prop :=
  (st.minError = maxFloat64 ∧ st.optimumNumHashFuncs = 0 ∧ st.optimumNumBands = 0 ∧
      ∀ l k, S l k → F64.gt maxFloat64 (currErr ops jsThresh l k) = false) ∨
    (S st.optimumNumBands st.optimumNumHashFuncs ∧
      st.minError = currErr ops jsThresh st.optimumNumBands st.optimumNumHashFuncs ∧
      st.fp = ops.probFalsePositive st.optimumNumBands st.optimumNumHashFuncs jsThresh
        precision ∧
      st.fn = ops.probFalseNegative st.optimumNumBands st.optimumNumHashFuncs jsThresh
        precision ∧
      F64.gt maxFloat64 st.minError = true ∧
      ∀ l k, S l k → F64.gt st.minError (currErr ops jsThresh l k) = false ∧
        (F64.gt (currErr ops jsThresh l k) st.minError = false →
          st.optimumNumBands < l ∨ (st.optimumNumBands = l ∧ st.optimumNumHashFuncs ≤ k)))

/-- The pairs scanned before `(l0, k0)`: the admissible pairs that come earlier. -/
def Seen (L : Int) (l0 k0 : Nat) (l k : Nat) : Prop :=
  1 ≤ l ∧ 1 ≤ k ∧ (l : Int) * (k : Int) ≤ L ∧ (l < l0 ∨ (l = l0 ∧ k < k0))

/-- The admissible pairs: `l ≥ 1` bands of `k ≥ 1` rows with `l*k ≤ L`. -/
def Admissible (L : Int) (l k : Nat) : Prop :=
  1 ≤ l ∧ 1 ≤ k ∧ (l : Int) * (k : Int) ≤ L

/-- The forest states reachable from `NewLSHforest(sigSize, jsThresh)` by `Add` calls with
signatures of the configured length and `Index` calls (in any run of `Index`). -/
inductive Reachable {K : Type} (ops : FloatOps) (sigSize : Int) (jsThresh : F64) :
    LSHforest K → Prop
  | new : Reachable ops sigSize jsThresh (NewLSHforest ops sigSize jsThresh)
  | add (self after : LSHforest K) (key : String) (sig : List Nat) :
      Reachable ops sigSize jsThresh self →
      sig.length = self.numHashFuncs * self.numBands →
      Add self key sig = some after → Reachable ops sigSize jsThresh after
  | index (self after : LSHforest K) :
      Reachable ops sigSize jsThresh self → IndexRel self after →
      Reachable ops sigSize jsThresh after

/-- What holds in every reachable state: the forest is configured, the maps have distinct
keys of full width, the indexed tables are ordered and hold hashed signatures of full
width, and the maps are all empty or all non-empty, and so are the indexed tables. -/
def StateInv {K : Type} (self : LSHforest K) : Prop :=
  Configured self ∧
    (∀ table ∈ self.initialHashTables, (table.map Prod.fst).Nodup ∧
      ∀ e ∈ table, e.1.length = self.hashValueSize * self.numHashFuncs) ∧
    (∀ table ∈ self.hashTables, table.Pairwise bandLe ∧
      ∀ e ∈ table, e.HashedSignature.length = self.hashValueSize * self.numHashFuncs) ∧
    ((∀ table ∈ self.initialHashTables, table = []) ∨
      (∀ table ∈ self.initialHashTables, table ≠ [])) ∧
    ((∀ table ∈ self.hashTables, table = []) ∨ (∀ table ∈ self.hashTables, table ≠ []))

/-- Strictly ascending in Go's string order, band by band. -/
def bandLt (a b : band) : Prop :=
  strLess a.HashedSignature b.HashedSignature = true

/-- The number of probe goroutines whose `wg.Done()` has not run yet. -/
def running : List (Option (List String)) → Nat
  | [] => 0
  | none :: ps => running ps
  | some _ :: ps => running ps + 1

/-- The keys the probe goroutines have still to send. -/
def remaining (ps : List (Option (List String))) : List (List String) :=
  ps.map fun p => p.getD []

/-- How the consumer's variables stand to the keys `recv` received from `keyChan` so far. -/
def consumerOk (st : queryState) (recv : List String) : Prop :=
  match st.consumer with
  | consumerState.forwarding x =>
    ∃ recv', recv = recv' ++ [x] ∧ x ∉ recv' ∧ st.result = consume [] recv' ∧
      ∀ k, k ∈ st.seens ↔ k ∈ recv'
  | _ => st.result = consume [] recv ∧ ∀ k, k ∈ st.seens ↔ k ∈ recv

/-- What holds in every state of a call of `Query`: no goroutine has panicked, the counter
of `wg` is the number of probes still running, `keyChan` is closed only when every probe
has finished, the consumer leaves its loop only when `keyChan` is closed, `Query` returns
only when the consumer has left its loop, and the keys received so far, followed by any
order of receiving the keys still to send, are an order of receiving all keys. -/
def queryInv (sent : List (List String)) (st : queryState) : Prop :=
  st.panicked = false ∧ st.wg = running st.probes ∧
    (st.keyChanClosed = true → ∀ p ∈ st.probes, p = none) ∧
    (st.consumer = consumerState.exited → st.keyChanClosed = true) ∧
    (st.returned = true → st.consumer = consumerState.exited) ∧
    ∃ recv, (∀ out, Interleaving (remaining st.probes) out → Interleaving sent (recv ++ out)) ∧
      consumerOk st recv

/-- The number of keys the probe goroutines have still to send. -/
def keysLeft : List (Option (List String)) → Nat
  | [] => 0
  | p :: ps => (p.getD []).length + keysLeft ps

/-- The steps the consumer has still to take by itself. -/
def consumerWeight : consumerState → Nat
  | consumerState.receiving => 1
  | consumerState.forwarding _ => 2
  | consumerState.exited => 0

/-- A bound on the number of steps a call of `Query` can still take. -/
def queryMeasure (st : queryState) : Nat :=
  3 * keysLeft st.probes + running st.probes + (if st.keyChanClosed = true then 0 else 1) +
    consumerWeight st.consumer + (if st.returned = true then 0 else 1)

/-! ## Worked examples: the inputs -/

/-- The `float64` value `0.5`, in units of `2^-1074`. -/
def F64.half : F64 := .fin (Int.ofNat (1 <<< 1073))

/-- A float behaviour for the worked examples: finite values add exactly, the false-positive
estimate of `l` bands is `(l - 2)^2` units and the false-negative estimate is one unit for
fewer than two rows, none otherwise. Every pair of two bands and at least two rows has
the least error. -/
def exampleOps : FloatOps where
  add := fun a b =>
    match a, b with
    | .fin x, .fin y => .fin (x + y)
    | _, _ => .nan
  probFalsePositive := fun l _ _ _ => .fin (((l : Int) - 2) ^ 2)
  probFalseNegative := fun _ k _ _ => .fin (if k < 2 then 1 else 0)

/-- The forest `NewLSHforest(16, 0.5)` under `exampleOps`: two bands of two rows. -/
def exampleForest : LSHforest Unit := NewLSHforest exampleOps 16 F64.half

/-- The example forest after three `Add` calls, two of them alike, and `Index`. -/
def exampleIndexed : LSHforest Unit :=
  ((addAll exampleForest [("A", [1, 1, 1, 1]), ("A", [1, 1, 1, 1]), ("B", [1, 1, 2, 2])]).bind
    Index).getD exampleForest

/-- A file system without files in which every path can be created. -/
def exampleFS : FileSystem Unit where
  files := fun _ => none
  creatable := fun _ => true

/-- The example forest after `Add("A", [1,1,1,1])` and `Add("B", [1,1,2,2])`, not indexed. -/
def exampleBuilt : LSHforest Unit :=
  (addAll exampleForest [("A", [1, 1, 1, 1]), ("B", [1, 1, 2, 2])]).getD exampleForest

/-- The example forest indexed with nothing added. -/
def exampleEmptyIndexed : LSHforest Unit :=
  (Index exampleForest).getD exampleForest

/-- The indexed example forest after a further `Add("C", [1,1,1,1])` and a second `Index`. -/
def exampleReindexed : LSHforest Unit :=
  ((addAll exampleIndexed [("C", [1, 1, 1, 1])]).bind Index).getD exampleIndexed

/-! ## Lemmas: byte strings -/

theorem strLess_irrefl (a : List Nat) : strLess a a = false := by
  induction a with
  | nil => rfl
  | cons x xs ih => simp [strLess, ih]

theorem strLess_asymm : ∀ (a b : List Nat), strLess a b = true → strLess b a = false
  | [], [], _ => rfl
  | [], _ :: _, _ => rfl
  | _ :: _, [], h => by simp [strLess] at h
  | x :: xs, y :: ys, h => by
    simp only [strLess] at h ⊢
    split_ifs at h ⊢ with h1 h2 h3
    all_goals first | omega | rfl | exact strLess_asymm xs ys h

theorem strLess_connex : ∀ (a b : List Nat), strLess a b = false → strLess b a = false → a = b
  | [], [], _, _ => rfl
  | [], _ :: _, h, _ => by simp [strLess] at h
  | _ :: _, [], _, h => by simp [strLess] at h
  | x :: xs, y :: ys, h, h' => by
    simp only [strLess] at h h'
    split_ifs at h h' with h1 h2
    have hxy : x = y := by omega
    rw [hxy, strLess_connex xs ys h h']

theorem strLess_trans : ∀ (a b c : List Nat), strLess a b = true → strLess b c = true →
    strLess a c = true
  | [], _, [], _, h => by cases ‹List Nat› <;> simp [strLess] at h
  | [], _, _ :: _, _, _ => rfl
  | _ :: _, [], _, h, _ => by simp [strLess] at h
  | _ :: _, _ :: _, [], _, h => by simp [strLess] at h
  | x :: xs, y :: ys, z :: zs, h, h' => by
    simp only [strLess] at h h' ⊢
    split_ifs at h h' ⊢ with h1 h2 h3 h4 h5 h6
    all_goals first | omega | rfl | simp at h | simp at h' | exact strLess_trans xs ys zs h h'

/-- `a ≤ b ≤ c` gives `a ≤ c` for Go's string order. -/
theorem strLess_false_trans (a b c : List Nat) (hab : strLess b a = false)
    (hbc : strLess c b = false) : strLess c a = false := by
  by_contra hca
  have hca : strLess c a = true := by simpa using hca
  by_cases h : strLess a b = true
  · have := strLess_trans c a b hca h
    simp [this] at hbc
  · have hab' : strLess a b = false := by simpa using h
    have := strLess_connex a b hab' hab
    subst this
    simp [hca] at hbc

instance bandLeTotal : IsTotal band bandLe :=
  ⟨fun a b => by
    unfold bandLe
    by_cases h : strLess b.HashedSignature a.HashedSignature = true
    · exact Or.inr (strLess_asymm _ _ h)
    · exact Or.inl (by simpa using h)⟩

instance bandLeTrans : IsTrans band bandLe :=
  ⟨fun _ _ _ hab hbc => strLess_false_trans _ _ _ hab hbc⟩

theorem strPrefix_length (s : List Nat) : strPrefix s s.length = some s := by
  simp [strPrefix]

/-! ## Lemmas: the hashed-signature function -/

theorem putUint64_take4 (v : Nat) : (putUint64 v).take 4 = lowBytes4 v := by
  have h0 : v % 2 ^ 64 / 256 ^ 0 % 256 = v % 256 := by omega
  have h1 : v % 2 ^ 64 / 256 ^ 1 % 256 = v / 256 % 256 := by omega
  have h2 : v % 2 ^ 64 / 256 ^ 2 % 256 = v / 256 ^ 2 % 256 := by omega
  have h3 : v % 2 ^ 64 / 256 ^ 3 % 256 = v / 256 ^ 3 % 256 := by omega
  simp only [putUint64, lowBytes4, List.range, List.range.loop, List.map, List.take]
  rw [h0, h1, h2, h3]

theorem hashedSignatureFuncGen_four (sig : List Nat) :
    hashedSignatureFuncGen 4 sig = some (sig.flatMap lowBytes4) := by
  induction sig with
  | nil => rfl
  | cons v sig ih =>
    simp [hashedSignatureFuncGen, ih, putUint64_take4]

theorem flatMap_lowBytes4_length (sig : List Nat) :
    (sig.flatMap lowBytes4).length = 4 * sig.length := by
  induction sig with
  | nil => rfl
  | cons v sig ih =>
    simp only [List.flatMap_cons, List.length_append, ih, List.length_cons]
    simp [lowBytes4]; omega

theorem flatMap_lowBytes4_get (sig : List Nat) (i j : Nat) (hi : i < sig.length) (hj : j < 4) :
    (sig.flatMap lowBytes4).get? (i * 4 + j) = some (sig[i] / 256 ^ j % 256) := by
  induction sig generalizing i with
  | nil => simp at hi
  | cons v sig ih =>
    cases i with
    | zero =>
      have : j = 0 ∨ j = 1 ∨ j = 2 ∨ j = 3 := by omega
      rcases this with h | h | h | h <;> subst h <;> simp [lowBytes4]
    | succ i =>
      have hi' : i < sig.length := by simpa using hi
      have := ih i hi'
      simp only [List.flatMap_cons, List.get?_eq_getElem?] at this ⊢
      rw [List.getElem?_append_right (by simp [lowBytes4]; omega)]
      have e : (i + 1) * 4 + j - (lowBytes4 v).length = i * 4 + j := by
        simp [lowBytes4]; omega
      rw [e, this]
      simp

theorem lowBytes4_mod (v : Nat) : lowBytes4 (v % 2 ^ 32) = lowBytes4 v := by
  simp only [lowBytes4]
  norm_num
  refine ⟨?_, ?_, ?_⟩ <;> omega

theorem hashedSignatureFuncGen_length (sig bytes : List Nat)
    (h : hashedSignatureFuncGen 4 sig = some bytes) : bytes.length = 4 * sig.length := by
  rw [hashedSignatureFuncGen_four] at h
  cases h
  exact flatMap_lowBytes4_length sig

/-- C8. For every slice `sig` of unsigned integers, the segment encoder of width 4
(the function returned by `hashedSignatureFuncGen(4)`) returns a byte string of length
`4 * len(sig)` whose byte at position `i*4 + j` (`j < 4`) is `(sig[i] / 256^j) mod 256`:
it is the concatenation, in order, of the four low-order bytes of each integer, least
significant byte first. -/
theorem C8_encoder_bytes (sig : List Nat) :
    ∃ bytes, hashedSignatureFuncGen 4 sig = some bytes ∧
      bytes.length = 4 * sig.length ∧
      bytes = sig.flatMap (fun v => [v % 256, v / 256 % 256, v / 256 ^ 2 % 256,
        v / 256 ^ 3 % 256]) ∧
      ∀ (i j : Nat) (hi : i < sig.length), j < 4 →
        bytes.get? (i * 4 + j) = some (sig[i] / 256 ^ j % 256) :=
  ⟨sig.flatMap lowBytes4, hashedSignatureFuncGen_four sig, flatMap_lowBytes4_length sig, rfl,
    fun i j hi hj => flatMap_lowBytes4_get sig i j hi hj⟩

/-- C9. Two integer slices of equal length whose elements agree pairwise modulo `2^32`
(in their four low-order bytes) get byte-identical keys from the segment encoder of
width 4, also when the integers themselves differ. -/
theorem C9_encoder_collides (a b : List Nat)
    (h : List.Forall₂ (fun x y => x % 2 ^ 32 = y % 2 ^ 32) a b) :
    hashedSignatureFuncGen 4 a = hashedSignatureFuncGen 4 b ∧
      ∃ bytes, hashedSignatureFuncGen 4 a = some bytes := by
  refine ⟨?_, _, hashedSignatureFuncGen_four a⟩
  rw [hashedSignatureFuncGen_four, hashedSignatureFuncGen_four]
  congr 1
  induction h with
  | nil => rfl
  | @cons x y xs ys hxy _ ih =>
    simp only [List.flatMap_cons, ih]
    rw [← lowBytes4_mod x, hxy, lowBytes4_mod]

/-- C9 at the slices `[1, 7]` and `[2^32 + 1, 7]`: different integers, one key. -/
theorem C9_encoder_collides_witness :
    [1, 7] ≠ [2 ^ 32 + 1, 7] ∧
      (hashedSignatureFuncGen 4 [1, 7] = hashedSignatureFuncGen 4 [2 ^ 32 + 1, 7] ∧
        ∃ bytes, hashedSignatureFuncGen 4 [1, 7] = some bytes) :=
  ⟨by decide, C9_encoder_collides [1, 7] [2 ^ 32 + 1, 7]
    (List.Forall₂.cons (by decide) (List.Forall₂.cons rfl List.Forall₂.nil))⟩

/-! ## Lemmas: maps and `Add` -/

theorem mapGet_mapSet_same (m : initialHashTable) (k : List Nat) (v : graphKeys) :
    mapGet (mapSet m k v) k = some v := by
  induction m with
  | nil => simp [mapSet, mapGet]
  | cons e rest ih =>
    obtain ⟨k', v'⟩ := e
    by_cases h : k' = k <;> simp [mapSet, mapGet, h, ih]

theorem mapGet_mapSet_other (m : initialHashTable) (k k' : List Nat) (v : graphKeys)
    (hk : k' ≠ k) : mapGet (mapSet m k v) k' = mapGet m k' := by
  induction m with
  | nil => simp [mapSet, mapGet, Ne.symm hk]
  | cons e rest ih =>
    obtain ⟨k0, v0⟩ := e
    by_cases h : k0 = k
    · subst h
      simp [mapSet, mapGet, Ne.symm hk]
    · by_cases h' : k0 = k'
      · subst h'
        simp [mapSet, mapGet, h]
      · simp [mapSet, mapGet, h, h', ih]

theorem addToTable_same (table : initialHashTable) (hashed : List Nat) (key : String) :
    mapGet (addToTable table hashed key) hashed =
      some ((mapGet table hashed).getD [] ++ [key]) := by
  unfold addToTable
  cases h : mapGet table hashed <;> simp [mapGet_mapSet_same]

theorem addToTable_other (table : initialHashTable) (hashed other : List Nat) (key : String)
    (h : other ≠ hashed) : mapGet (addToTable table hashed key) other = mapGet table other := by
  unfold addToTable
  cases mapGet table hashed <;> simp [mapGet_mapSet_other _ _ _ _ h]

theorem mapM_some {α β : Type} (f : α → Option β) (g : α → β) (l : List α)
    (h : ∀ x ∈ l, f x = some (g x)) : l.mapM f = some (l.map g) := by
  induction l with
  | nil => rfl
  | cons a l ih =>
    have ha := h a (List.mem_cons_self _ _)
    have hl := ih (fun x hx => h x (List.mem_cons_of_mem _ hx))
    rw [List.mapM_cons, ha, hl]
    rfl

theorem mapM_none {α β : Type} (f : α → Option β) (l : List α)
    (h : ∃ x ∈ l, f x = none) : l.mapM f = none := by
  induction l with
  | nil => simp at h
  | cons a l ih =>
    obtain ⟨x, hx, hfx⟩ := h
    cases hfa : f a with
    | none =>
      rw [List.mapM_cons, hfa]
      rfl
    | some y =>
      have hxl : x ∈ l := by
        rcases List.mem_cons.mp hx with rfl | hxl
        · simp [hfa] at hfx
        · exact hxl
      rw [List.mapM_cons, hfa, ih ⟨x, hxl, hfx⟩]
      rfl

theorem mapM_congr {α β : Type} (f g : α → Option β) (l : List α)
    (h : ∀ x ∈ l, f x = g x) : l.mapM f = l.mapM g := by
  induction l with
  | nil => rfl
  | cons a l ih =>
    have ha := h a (List.mem_cons_self _ _)
    have hl := ih (fun x hx => h x (List.mem_cons_of_mem _ hx))
    rw [List.mapM_cons, List.mapM_cons, ha, hl]

/-- The encoder for a width of at most 8: the first `w` bytes of each value. -/
theorem hashedSignatureFuncGen_eq (w : Nat) (hw : w ≤ 8) (sig : List Nat) :
    hashedSignatureFuncGen w sig = some (sig.flatMap fun v => (putUint64 v).take w) := by
  induction sig with
  | nil => rfl
  | cons v sig ih => simp [hashedSignatureFuncGen, ih, hw]

theorem flatMap_take_length (w : Nat) (hw : w ≤ 8) (sig : List Nat) :
    (sig.flatMap fun v => (putUint64 v).take w).length = w * sig.length := by
  induction sig with
  | nil => rfl
  | cons v sig ih =>
    simp only [List.flatMap_cons, List.length_append, ih, List.length_cons, List.length_take]
    have : (putUint64 v).length = 8 := by simp [putUint64]
    rw [this, Nat.min_eq_left hw, Nat.mul_succ]
    omega

theorem hashedBand_eq {K : Type} (self : LSHforest K) (hc : Configured self) (sig : List Nat)
    (i : Nat) (hi : (i + 1) * self.numHashFuncs ≤ sig.length) :
    hashedBand self sig i = some (bandKey self.hashValueSize self.numHashFuncs sig i) := by
  have hle : i * self.numHashFuncs ≤ (i + 1) * self.numHashFuncs :=
    Nat.mul_le_mul_right _ (Nat.le_succ i)
  have hsub : (i + 1) * self.numHashFuncs - i * self.numHashFuncs = self.numHashFuncs := by
    rw [Nat.succ_mul]; omega
  simp [hashedBand, sliceSig, hle, hi, hsub, hc.2.1, hashedSignatureFuncGen_eq _ hc.1, bandKey]

theorem band_bound (n b i len : Nat) (hi : i < b) (h : n * b ≤ len) : (i + 1) * n ≤ len :=
  le_trans (by rw [Nat.mul_comm]; exact Nat.mul_le_mul_left n hi) h

theorem bandKey_length (w n : Nat) (hw : w ≤ 8) (sig : List Nat) (i : Nat)
    (hi : (i + 1) * n ≤ sig.length) : (bandKey w n sig i).length = w * n := by
  unfold bandKey
  rw [flatMap_take_length w hw]
  congr 1
  rw [List.length_take, List.length_drop, Nat.succ_mul] at *
  omega

theorem hashSignature_eq {K : Type} (self : LSHforest K) (hc : Configured self)
    (sig : List Nat) (hlen : self.numHashFuncs * self.numBands ≤ sig.length) :
    hashSignature self sig = some ((List.range self.numBands).map
      (bandKey self.hashValueSize self.numHashFuncs sig)) := by
  unfold hashSignature
  apply mapM_some
  intro i hi
  exact hashedBand_eq self hc sig i (band_bound _ _ _ _ (List.mem_range.mp hi) hlen)

theorem addLoop_eq (key : String) :
    ∀ (tables : List initialHashTable) (hashed : List (List Nat)),
      tables.length ≤ hashed.length →
      addLoop key tables hashed =
        some (List.zipWith (fun t h => addToTable t h key) tables hashed)
  | [], _, _ => rfl
  | _ :: _, [], h => by simp at h
  | t :: ts, h :: hs, hl => by
    have := addLoop_eq key ts hs (by simpa using hl)
    simp [addLoop, this]

theorem Add_eq {K : Type} (self : LSHforest K) (hc : Configured self) (key : String)
    (sig : List Nat) (hlen : self.numHashFuncs * self.numBands ≤ sig.length) :
    Add self key sig = some { self with initialHashTables :=
      (List.zipWith (fun t h => addToTable t h key) self.initialHashTables
        ((List.range self.numBands).map
          (bandKey self.hashValueSize self.numHashFuncs sig))) } := by
  unfold Add
  rw [hashSignature_eq self hc sig hlen]
  simp only [Option.some_bind]
  rw [addLoop_eq key _ _ (by simp [hc.2.2.1])]
  rfl

theorem zipWith_addToTable_get (key : String) (tables : List initialHashTable)
    (hashed : List (List Nat)) (i : Nat) (t : initialHashTable) (h : List Nat)
    (ht : tables.get? i = some t) (hh : hashed.get? i = some h) :
    (List.zipWith (fun t h => addToTable t h key) tables hashed).get? i =
      some (addToTable t h key) := by
  simp only [List.get?_eq_getElem?] at *
  simp [List.getElem?_zipWith, ht, hh]

theorem range_map_get (b : Nat) (g : Nat → List Nat) (i : Nat) (hi : i < b) :
    ((List.range b).map g).get? i = some (g i) := by
  simp [List.get?_eq_getElem?, List.getElem?_map, List.getElem?_range hi]

theorem Add_configured {K : Type} (self after : LSHforest K) (hc : Configured self)
    (key : String) (sig : List Nat) (hlen : self.numHashFuncs * self.numBands ≤ sig.length)
    (h : Add self key sig = some after) :
    Configured after ∧ after.numHashFuncs = self.numHashFuncs ∧
      after.numBands = self.numBands ∧ after.hashValueSize = self.hashValueSize ∧
      after.hashedSignatureFunc = self.hashedSignatureFunc ∧
      after.hashTables = self.hashTables ∧ after.KeyLookup = self.KeyLookup := by
  rw [Add_eq self hc key sig hlen] at h
  cases h
  refine ⟨⟨hc.1, hc.2.1, ?_, hc.2.2.2⟩, rfl, rfl, rfl, rfl, rfl, rfl⟩
  simp [hc.2.2.1]

theorem Add_get {K : Type} (self : LSHforest K) (hc : Configured self) (key : String)
    (sig : List Nat) (hlen : self.numHashFuncs * self.numBands ≤ sig.length) :
    ∃ after, Add self key sig = some after ∧ Configured after ∧
      after.numHashFuncs = self.numHashFuncs ∧ after.numBands = self.numBands ∧
      after.hashValueSize = self.hashValueSize ∧
      after.hashedSignatureFunc = self.hashedSignatureFunc ∧
      after.hashTables = self.hashTables ∧ after.KeyLookup = self.KeyLookup ∧
      after.initialHashTables.length = self.initialHashTables.length ∧
      ∀ i table, self.initialHashTables.get? i = some table →
        hashedBand self sig i = some (bandKey self.hashValueSize self.numHashFuncs sig i) ∧
        after.initialHashTables.get? i = some
          (addToTable table (bandKey self.hashValueSize self.numHashFuncs sig i) key) := by
  refine ⟨_, Add_eq self hc key sig hlen, ?_⟩
  obtain ⟨hcf, h1, h2, h3, h4, h5, h6⟩ :=
    Add_configured self _ hc key sig hlen (Add_eq self hc key sig hlen)
  refine ⟨hcf, h1, h2, h3, h4, h5, h6, ?_, ?_⟩
  · simp [hc.2.2.1]
  · intro i table hi
    have hib : i < self.numBands := by
      have := List.get?_eq_some.mp hi
      obtain ⟨hlt, _⟩ := this
      rw [hc.2.2.1] at hlt
      exact hlt
    refine ⟨hashedBand_eq self hc sig i (band_bound _ _ _ _ hib hlen), ?_⟩
    exact zipWith_addToTable_get key _ _ i table _ hi (range_map_get _ _ i hib)

theorem addAll_replicate {K : Type} (key : String) (sig : List Nat) (n : Nat) :
    ∀ (self : LSHforest K), Configured self →
      self.numHashFuncs * self.numBands ≤ sig.length →
      ∃ after, addAll self (List.replicate (n + 1) (key, sig)) = some after ∧
        ∀ i table, self.initialHashTables.get? i = some table →
          ∃ table', after.initialHashTables.get? i = some table' ∧
            mapGet table' (bandKey self.hashValueSize self.numHashFuncs sig i) =
              some ((mapGet table
                (bandKey self.hashValueSize self.numHashFuncs sig i)).getD [] ++
                List.replicate (n + 1) key) := by
  induction n with
  | zero =>
    intro self hc hlen
    obtain ⟨after, hadd, _, _, _, _, _, _, _, _, hget⟩ := Add_get self hc key sig hlen
    refine ⟨after, by simp [addAll, hadd], ?_⟩
    intro i table hi
    exact ⟨_, (hget i table hi).2, by simp [addToTable_same]⟩
  | succ n ih =>
    intro self hc hlen
    obtain ⟨mid, hadd, hcm, hn, hb, hw, _, _, _, _, hget⟩ := Add_get self hc key sig hlen
    obtain ⟨after, hall, hrest⟩ := ih mid hcm (by rw [hn, hb]; exact hlen)
    refine ⟨after, ?_, ?_⟩
    · rw [List.replicate_succ]
      simp only [addAll, hadd, Option.some_bind]
      exact hall
    · intro i table hi
      obtain ⟨table', hget', hmap⟩ := hrest i _ (hget i table hi).2
      refine ⟨table', hget', ?_⟩
      rw [hn, hw] at hmap
      rw [hmap, addToTable_same]
      simp [List.replicate_succ]

/-- C10. For a forest as `NewLSHforest` configures it, an item key and a signature of the
configured length, `Add` returns, and in each band it changes the buildable map at exactly
the hashed signature of that band's slice: an absent bucket becomes `[key]`, a present one
gets the key appended at its end (no deduplication), and every other bucket of the band
is as before; the indexed tables are untouched. Adding the same key and signature `n`
times appends `n` copies. -/
theorem C10_Add_buckets {K : Type} (self : LSHforest K) (key : String) (sig : List Nat)
    (hc : Configured self) (hlen : sig.length = self.numHashFuncs * self.numBands) :
    (∃ after, Add self key sig = some after ∧
      after.initialHashTables.length = self.initialHashTables.length ∧
      after.hashTables = self.hashTables ∧
      ∀ i table, self.initialHashTables.get? i = some table →
        ∃ hashed table', hashedBand self sig i = some hashed ∧
          after.initialHashTables.get? i = some table' ∧
          (mapGet table hashed = none → mapGet table' hashed = some [key]) ∧
          (∀ keys, mapGet table hashed = some keys →
            mapGet table' hashed = some (keys ++ [key])) ∧
          ∀ other, other ≠ hashed → mapGet table' other = mapGet table other) ∧
    ∀ n, 0 < n → ∃ after, addAll self (List.replicate n (key, sig)) = some after ∧
      ∀ i table, self.initialHashTables.get? i = some table →
        ∃ hashed table', hashedBand self sig i = some hashed ∧
          after.initialHashTables.get? i = some table' ∧
          mapGet table' hashed =
            some ((mapGet table hashed).getD [] ++ List.replicate n key) := by
  have hlen' : self.numHashFuncs * self.numBands ≤ sig.length := by omega
  constructor
  · obtain ⟨after, hadd, _, _, _, _, _, hht, _, hl, hget⟩ := Add_get self hc key sig hlen'
    refine ⟨after, hadd, hl, hht, ?_⟩
    intro i table hi
    obtain ⟨hb, hg⟩ := hget i table hi
    refine ⟨_, _, hb, hg, ?_, ?_, ?_⟩
    · intro hnone
      simp [addToTable_same, hnone]
    · intro keys hsome
      simp [addToTable_same, hsome]
    · intro other hne
      exact addToTable_other _ _ _ _ hne
  · intro n hn
    obtain ⟨m, rfl⟩ : ∃ m, n = m + 1 := ⟨n - 1, by omega⟩
    obtain ⟨after, hall, hrest⟩ := addAll_replicate key sig m self hc hlen'
    refine ⟨after, hall, ?_⟩
    intro i table hi
    obtain ⟨table', hg, hm⟩ := hrest i table hi
    have hib : i < self.numBands := by
      obtain ⟨hlt, _⟩ := List.get?_eq_some.mp hi
      rw [hc.2.2.1] at hlt
      exact hlt
    exact ⟨_, table', hashedBand_eq self hc sig i (band_bound _ _ _ _ hib hlen'), hg, hm⟩

/-! ## Lemmas: the consumer and the schedules of `runQuery` -/

theorem consume_mem (stream : List String) :
    ∀ (seens : List String) (key : String),
      key ∈ consume seens stream ↔ key ∈ stream ∧ key ∉ seens := by
  induction stream with
  | nil => intro seens key; simp [consume]
  | cons x rest ih =>
    intro seens key
    by_cases hx : x ∈ seens
    · simp only [consume, hx, if_true, ih, List.mem_cons]
      constructor
      · rintro ⟨h1, h2⟩
        exact ⟨Or.inr h1, h2⟩
      · rintro ⟨h1 | h1, h2⟩
        · subst h1; exact absurd hx h2
        · exact ⟨h1, h2⟩
    · simp only [consume, hx, if_false, List.mem_cons, ih]
      constructor
      · rintro (h | ⟨h1, h2⟩)
        · subst h; exact ⟨Or.inl rfl, hx⟩
        · exact ⟨Or.inr h1, fun h => h2 (Or.inr h)⟩
      · rintro ⟨h1 | h1, h2⟩
        · exact Or.inl h1
        · by_cases hk : key = x
          · exact Or.inl hk
          · exact Or.inr ⟨h1, fun h => by
              rcases h with h | h
              · exact hk h
              · exact h2 h⟩

theorem consume_nodup (stream : List String) :
    ∀ (seens : List String), (consume seens stream).Nodup := by
  induction stream with
  | nil => intro seens; simp [consume]
  | cons x rest ih =>
    intro seens
    by_cases hx : x ∈ seens
    · simp only [consume, hx, if_true]
      exact ih seens
    · simp only [consume, hx, if_false, List.nodup_cons]
      refine ⟨?_, ih _⟩
      intro h
      have := ((consume_mem rest (x :: seens) x).mp h).2
      exact this (List.mem_cons_self _ _)

theorem exists_mem_set {α : Type} (x : α) (rest : List α) :
    ∀ (ls : List (List α)) (i : Nat), ls.get? i = some (x :: rest) →
      ∀ y, (∃ l ∈ ls, y ∈ l) ↔ y = x ∨ ∃ l ∈ ls.set i rest, y ∈ l
  | [], i, h, _ => by simp at h
  | l0 :: ls, 0, h, y => by
    simp only [List.get?_cons_zero, Option.some.injEq] at h
    subst h
    simp only [List.set_cons_zero, List.mem_cons, exists_eq_or_imp]
    tauto
  | l0 :: ls, i + 1, h, y => by
    have ih := exists_mem_set x rest ls i (by simpa using h) y
    simp only [List.set_cons_succ, List.mem_cons, exists_eq_or_imp, ih]
    tauto

theorem Interleaving.mem_iff {α : Type} {ls : List (List α)} {out : List α}
    (h : Interleaving ls out) : ∀ y, y ∈ out ↔ ∃ l ∈ ls, y ∈ l := by
  induction h with
  | closed ls hempty =>
    intro y
    constructor
    · intro hy; simp at hy
    · rintro ⟨l, hl, hy⟩
      rw [hempty l hl] at hy
      simp at hy
  | receive ls i x rest out hget _ ih =>
    intro y
    rw [exists_mem_set x rest ls i hget y, List.mem_cons, ih y]

theorem Interleaving.cons_nil {α : Type} {ls : List (List α)} {out : List α}
    (h : Interleaving ls out) : Interleaving ([] :: ls) out := by
  induction h with
  | closed ls hempty =>
    exact Interleaving.closed _ (by
      intro l hl
      rcases List.mem_cons.mp hl with h | h
      · exact h
      · exact hempty l h)
  | receive ls i x rest out hget _ ih =>
    exact Interleaving.receive ([] :: ls) (i + 1) x rest out (by simpa using hget)
      (by simpa using ih)

theorem Interleaving.cons_head {α : Type} (l : List α) {ls : List (List α)} {out : List α}
    (h : Interleaving ls out) : Interleaving (l :: ls) (l ++ out) := by
  induction l with
  | nil => exact h.cons_nil
  | cons x rest ih =>
    exact Interleaving.receive (((x :: rest)) :: ls) 0 x rest (rest ++ out) rfl
      (by simpa using ih)

/-- Band after band is one of the schedules. -/
theorem Interleaving.flatten {α : Type} (ls : List (List α)) : Interleaving ls ls.flatten := by
  induction ls with
  | nil => exact Interleaving.closed [] (by simp)
  | cons l ls ih => simpa using Interleaving.cons_head l ih

theorem emitSent_of_emitLoop (prefixSize : Nat) (queryChunk : List Nat) :
    ∀ (bands : List band) (keys : List String),
      emitLoop prefixSize queryChunk bands = some keys →
      emitSent prefixSize queryChunk bands = keys
  | [], keys, h => by
    simp only [emitLoop, Option.some.injEq] at h
    rw [← h]
    rfl
  | b :: rest, keys, h => by
    simp only [emitLoop] at h
    simp only [emitSent]
    cases hp : strPrefix b.HashedSignature prefixSize with
    | none => rw [hp] at h; cases h
    | some p =>
      rw [hp, Option.some_bind] at h
      simp only
      by_cases hq : p = queryChunk
      · rw [if_pos hq] at h ⊢
        cases he : emitLoop prefixSize queryChunk rest with
        | none => rw [he] at h; cases h
        | some more =>
          rw [he, Option.map_some', Option.some.injEq] at h
          rw [emitSent_of_emitLoop prefixSize queryChunk rest more he, h]
      · rw [if_neg hq] at h ⊢
        cases h
        rfl

theorem probeSent_of_probe (prefixSize : Nat) (table : hashTables) (queryChunk : List Nat)
    (keys : List String) (h : probe prefixSize table queryChunk = some keys) :
    probeSent prefixSize table queryChunk = keys := by
  unfold probe at h
  unfold probeSent
  cases hs : sortSearch table.length (searchTest prefixSize table queryChunk) with
  | none => rw [hs] at h; cases h
  | some index =>
    rw [hs, Option.some_bind] at h
    simp only
    cases hg : table.get? index with
    | none =>
      rw [hg] at h
      simp only [Option.some.injEq] at h
      exact h
    | some b =>
      rw [hg] at h
      simp only at h ⊢
      cases hp : strPrefix b.HashedSignature prefixSize with
      | none => rw [hp] at h; cases h
      | some p =>
        rw [hp, Option.some_bind] at h
        simp only
        by_cases hq : p = queryChunk
        · rw [if_pos hq] at h ⊢
          exact emitSent_of_emitLoop prefixSize queryChunk _ keys h
        · rw [if_neg hq] at h ⊢
          cases h
          rfl

theorem mapM_some_imp {α β : Type} (f g : α → Option β) :
    ∀ (l : List α) (bs : List β), (∀ a ∈ l, ∀ b, f a = some b → g a = some b) →
      l.mapM f = some bs → l.mapM g = some bs
  | [], bs, _, h => h
  | a :: l, bs, himp, h => by
    rw [List.mapM_cons] at h ⊢
    cases hfa : f a with
    | none => rw [hfa] at h; cases h
    | some b =>
      rw [hfa] at h
      cases hl : l.mapM f with
      | none => rw [hl] at h; cases h
      | some rest =>
        rw [hl] at h
        rw [himp a (List.mem_cons_self _ _) b hfa,
          mapM_some_imp f g l rest (fun x hx => himp x (List.mem_cons_of_mem _ hx)) hl]
        exact h

/-- When no goroutine panics, what the probes send before they return or panic is what
they send. -/
theorem probesSent_of_runProbes {K : Type} (self : LSHforest K) (sig : List Nat)
    (sent : List (List String)) (h : runProbes self sig = some sent) :
    probesSent self sig = some sent := by
  unfold runProbes at h
  unfold probesSent
  cases hh : hashSignature self sig with
  | none => rw [hh] at h; cases h
  | some hashedSignature =>
    rw [hh] at h
    rw [Option.some_bind] at h ⊢
    refine mapM_some_imp _ _ _ sent ?_ h
    intro i _ keys hi
    cases ht : self.hashTables.get? i with
    | none => rw [ht] at hi; cases hi
    | some table =>
      rw [ht, Option.some_bind] at hi
      rw [Option.some_bind]
      cases hc : hashedSignature.get? i with
      | none => rw [hc] at hi; cases hi
      | some queryChunk =>
        rw [hc, Option.some_bind] at hi
        rw [Option.map_some', probeSent_of_probe _ _ _ keys hi]

/-- When no goroutine panics, `Query` returns what the consumer makes of some interleaving
of the keys the probes send. -/
theorem QueryResult_iff {K : Type} (self : LSHforest K) (sig : List Nat)
    (sent : List (List String)) (hs : runProbes self sig = some sent) (result : List String) :
    QueryResult self sig result ↔
      ∃ stream, Interleaving sent stream ∧ result = consume [] stream := by
  unfold QueryResult
  rw [probesSent_of_runProbes self sig sent hs]

/-- When the goroutine of `runQuery` panics in its hashing loop, the empty result is all
`Query` can return. -/
theorem QueryResult_unhashed {K : Type} (self : LSHforest K) (sig : List Nat)
    (h : hashSignature self sig = none) (result : List String) :
    QueryResult self sig result ↔ result = [] := by
  unfold QueryResult probesSent
  rw [h]
  rfl

theorem QueryResult_nodup {K : Type} (self : LSHforest K) (sig : List Nat)
    (result : List String) (h : QueryResult self sig result) : result.Nodup := by
  unfold QueryResult at h
  cases hp : probesSent self sig with
  | none =>
    rw [hp] at h
    simp only at h
    rw [h]
    exact List.nodup_nil
  | some sent =>
    rw [hp] at h
    obtain ⟨stream, _, hr⟩ := h
    rw [hr]
    exact consume_nodup stream []

theorem QueryResult_of_Query {K : Type} (self : LSHforest K) (sig : List Nat)
    (result : List String) (h : Query self sig = some result) :
    QueryResult self sig result := by
  unfold Query at h
  cases hp : runProbes self sig with
  | none => simp [hp] at h
  | some sent =>
    rw [hp, Option.map_some', Option.some.injEq] at h
    exact (QueryResult_iff self sig sent hp result).mpr
      ⟨sent.flatten, Interleaving.flatten sent, h.symm⟩

theorem QueryResult_mem {K : Type} (self : LSHforest K) (sig : List Nat)
    (sent : List (List String)) (hs : runProbes self sig = some sent)
    (result : List String) (h : QueryResult self sig result) (key : String) :
    key ∈ result ↔ ∃ l ∈ sent, key ∈ l := by
  obtain ⟨stream, hi, hr⟩ := (QueryResult_iff self sig sent hs result).mp h
  rw [hr, consume_mem, hi.mem_iff]
  simp

/-! ## Lemmas: the probe of one band -/

/-- On a test that is monotone over `[0, n)` and does not panic there, the loop of
`sort.Search` has fuel enough and returns the least position at which the test holds
(`n` when there is none). -/
theorem searchLoop_spec (f : Nat → Option Bool) (P : Nat → Bool) (n : Nat)
    (hf : ∀ x, x < n → f x = some (P x))
    (hmono : ∀ x y, x ≤ y → y < n → P x = true → P y = true) :
    ∀ (fuel i j : Nat), j - i ≤ fuel → i ≤ j → j ≤ n →
      (∀ x, x < i → P x = false) → (∀ x, j ≤ x → x < n → P x = true) →
      ∃ r, searchLoop f fuel i j = some r ∧ r ≤ n ∧
        (∀ x, x < r → P x = false) ∧ (∀ x, r ≤ x → x < n → P x = true) := by
  intro fuel
  induction fuel with
  | zero =>
    intro i j hfuel hij hjn hlo hhi
    have : i = j := by omega
    subst this
    exact ⟨i, by simp [searchLoop], hjn, hlo, hhi⟩
  | succ fuel ih =>
    intro i j hfuel hij hjn hlo hhi
    by_cases hlt : i < j
    · have hh : (i + j) / 2 < j := by omega
      have hh' : i ≤ (i + j) / 2 := by omega
      have hfh := hf ((i + j) / 2) (by omega)
      cases hP : P ((i + j) / 2) with
      | false =>
        obtain ⟨r, hr, hrest⟩ := ih ((i + j) / 2 + 1) j (by omega) (by omega) hjn
          (by
            intro x hx
            by_contra hxt
            have hxt : P x = true := by simpa using hxt
            have := hmono x ((i + j) / 2) (by omega) (by omega) hxt
            simp [hP] at this) hhi
        exact ⟨r, by simp [searchLoop, hlt, hfh, hP, hr], hrest⟩
      | true =>
        obtain ⟨r, hr, hrest⟩ := ih i ((i + j) / 2) (by omega) hh' (by omega) hlo
          (by
            intro x hx hxn
            exact hmono _ x hx hxn hP)
        exact ⟨r, by simp [searchLoop, hlt, hfh, hP, hr], hrest⟩
    · have : i = j := by omega
      subst this
      exact ⟨i, by simp [searchLoop], hjn, hlo, hhi⟩

theorem emitLoop_sorted (p : Nat) (q : List Nat) :
    ∀ (l : List band), l.Pairwise bandLe → (∀ e ∈ l, e.HashedSignature.length = p) →
      (∀ e ∈ l, strLess e.HashedSignature q = false) →
      emitLoop p q l = some (matching l q)
  | [], _, _, _ => rfl
  | b :: rest, hs, hlen, hge => by
    have hb := hlen b (List.mem_cons_self _ _)
    have hpre : strPrefix b.HashedSignature p = some b.HashedSignature := by
      rw [← hb]; exact strPrefix_length _
    rw [List.pairwise_cons] at hs
    have ih := emitLoop_sorted p q rest hs.2
      (fun e he => hlen e (List.mem_cons_of_mem _ he))
      (fun e he => hge e (List.mem_cons_of_mem _ he))
    by_cases hbq : b.HashedSignature = q
    · rw [hbq] at hpre
      simp [emitLoop, hpre, hbq, ih, matching, List.filter_cons]
    · have hnone : rest.filter (fun e => decide (e.HashedSignature = q)) = [] := by
        rw [List.filter_eq_nil_iff]
        intro e he
        simp only [decide_eq_true_eq]
        intro heq
        have h1 : strLess e.HashedSignature b.HashedSignature = false := hs.1 e he
        have h2 : strLess b.HashedSignature q = false := hge b (List.mem_cons_self _ _)
        rw [heq] at h1
        exact hbq (strLess_connex _ _ h2 h1)
      simp [emitLoop, hpre, hbq, matching, List.filter_cons, hnone]

theorem probe_eq (p : Nat) (q : List Nat) (table : hashTables)
    (hs : table.Pairwise bandLe) (hlen : ∀ e ∈ table, e.HashedSignature.length = p) :
    probe p table q = some (matching table q) := by
  let P : Nat → Bool := fun x =>
    match table[x]? with
    | some b => !strLess b.HashedSignature q
    | none => true
  have hf : ∀ x, x < table.length → searchTest p table q x = some (P x) := by
    intro x hx
    have hg : table[x]? = some table[x] := List.getElem?_eq_getElem hx
    have hl := hlen table[x] (List.getElem_mem hx)
    have hpre : strPrefix table[x].HashedSignature p = some table[x].HashedSignature := by
      rw [← hl]; exact strPrefix_length _
    simp [searchTest, P, hg, hpre]
  have hmono : ∀ x y, x ≤ y → y < table.length → P x = true → P y = true := by
    intro x y hxy hy hPx
    rcases Nat.eq_or_lt_of_le hxy with h | h
    · subst h; exact hPx
    · have hx : x < table.length := by omega
      have hgx : table[x]? = some table[x] := List.getElem?_eq_getElem hx
      have hgy : table[y]? = some table[y] := List.getElem?_eq_getElem hy
      have hle : bandLe table[x] table[y] := List.pairwise_iff_getElem.mp hs x y hx hy h
      simp only [P, hgx, hgy, Bool.not_eq_true'] at hPx ⊢
      exact strLess_false_trans _ _ _ hPx hle
  obtain ⟨r, hr, hrn, hlo, hhi⟩ := searchLoop_spec (searchTest p table q) P table.length hf hmono
    table.length 0 table.length (by omega) (by omega) (le_refl _) (by intro x hx; omega)
    (by intro x hx hxn; omega)
  have hsplit : table = table.take r ++ table.drop r := (List.take_append_drop r table).symm
  have hlow : (table.take r).filter (fun e => decide (e.HashedSignature = q)) = [] := by
    rw [List.filter_eq_nil_iff]
    intro e he
    simp only [decide_eq_true_eq]
    intro heq
    obtain ⟨x, hx, hex⟩ := List.getElem_of_mem he
    have hxr : x < r := by simpa using (by simpa using hx : x < (table.take r).length).trans_le (by simp)
    have hxn : x < table.length := by omega
    have hPx := hlo x hxr
    have hgx : table[x]? = some table[x] := List.getElem?_eq_getElem hxn
    have hte : table[x] = e := by rw [← hex, List.getElem_take]
    simp only [P, hgx, hte, heq, strLess_irrefl] at hPx
    simp at hPx
  have hhigh : ∀ e ∈ table.drop r, strLess e.HashedSignature q = false := by
    intro e he
    obtain ⟨x, hx, hex⟩ := List.getElem_of_mem he
    have hx' : r + x < table.length := by
      have : x < table.length - r := by simpa using hx
      omega
    have hPx := hhi (r + x) (by omega) hx'
    have hgx : table[r + x]? = some table[r + x] := List.getElem?_eq_getElem hx'
    have hte : table[r + x] = e := by rw [← hex, List.getElem_drop]
    simpa [P, hgx, hte] using hPx
  have hemit := emitLoop_sorted p q (table.drop r)
    (List.Pairwise.sublist (List.drop_sublist r table) hs)
    (fun e he => hlen e (List.mem_of_mem_drop he)) hhigh
  have hmatch : matching table q = matching (table.drop r) q := by
    have h1 : matching table q = matching (table.take r ++ table.drop r) q := by
      rw [List.take_append_drop]
    rw [h1]
    unfold matching
    rw [List.filter_append, hlow, List.nil_append]
  unfold probe sortSearch
  rw [hr, hmatch]
  simp only [Option.some_bind]
  cases hg : table.get? r with
  | none =>
    have : table.length ≤ r := by
      rw [List.get?_eq_getElem?] at hg
      exact List.getElem?_eq_none_iff.mp hg
    simp [matching, List.drop_eq_nil_of_le this]
  | some b =>
    have hrn' : r < table.length := (List.get?_eq_some.mp hg).1
    have hb : table[r] = b := (List.get?_eq_some.mp hg).2
    have hdrop : table.drop r = b :: table.drop (r + 1) := by
      rw [← hb]; exact List.drop_eq_getElem_cons hrn'
    have hl := hlen b (by rw [← hb]; exact List.getElem_mem hrn')
    have hpre : strPrefix b.HashedSignature p = some b.HashedSignature := by
      rw [← hl]; exact strPrefix_length _
    simp only [hpre, Option.some_bind]
    by_cases hbq : b.HashedSignature = q
    · simp only [hbq, if_true]
      exact hemit
    · simp only [hbq, if_false]
      rw [← hemit, hdrop]
      simp [emitLoop, hpre, hbq]

theorem mem_matching (table : hashTables) (q : List Nat) (key : String) :
    key ∈ matching table q ↔ ∃ e ∈ table, e.HashedSignature = q ∧ key ∈ e.graphKeys := by
  simp [matching, List.mem_flatMap, List.mem_filter, and_assoc]

/-! ## Lemmas: what the maps hold after a sequence of `Add` calls -/

theorem mapSet_keys (m : initialHashTable) (k : List Nat) (v : graphKeys) :
    (mapSet m k v).map Prod.fst =
      if k ∈ m.map Prod.fst then m.map Prod.fst else m.map Prod.fst ++ [k] := by
  induction m with
  | nil => simp [mapSet]
  | cons e rest ih =>
    obtain ⟨k', v'⟩ := e
    by_cases h : k' = k
    · subst h
      simp [mapSet]
    · have h' : ¬ k = k' := fun e => h e.symm
      by_cases hm : k ∈ rest.map Prod.fst
      · simp only [mapSet, h, if_false, List.map_cons, ih, hm, if_true, List.mem_cons, or_true]
      · simp only [mapSet, h, if_false, List.map_cons, ih, hm, List.mem_cons, h', or_self,
          List.cons_append]

theorem mapSet_nodup (m : initialHashTable) (k : List Nat) (v : graphKeys)
    (h : (m.map Prod.fst).Nodup) : ((mapSet m k v).map Prod.fst).Nodup := by
  rw [mapSet_keys]
  split_ifs with hk
  · exact h
  · exact List.Nodup.append h (List.nodup_singleton k) (by
      intro x hx hx'
      rw [List.mem_singleton] at hx'
      subst hx'
      exact hk hx)

theorem mapSet_key_mem (m : initialHashTable) (k : List Nat) (v : graphKeys)
    (e : List Nat × graphKeys) (he : e ∈ mapSet m k v) : e.1 = k ∨ e.1 ∈ m.map Prod.fst := by
  have : e.1 ∈ (mapSet m k v).map Prod.fst := List.mem_map_of_mem _ he
  rw [mapSet_keys] at this
  split_ifs at this with hk
  · exact Or.inr this
  · rcases List.mem_append.mp this with h | h
    · exact Or.inr h
    · exact Or.inl (List.mem_singleton.mp h)

theorem addToTable_nodup (table : initialHashTable) (hashed : List Nat) (key : String)
    (h : (table.map Prod.fst).Nodup) : ((addToTable table hashed key).map Prod.fst).Nodup := by
  unfold addToTable
  cases mapGet table hashed <;> exact mapSet_nodup _ _ _ h

theorem addToTable_key_mem (table : initialHashTable) (hashed : List Nat) (key : String)
    (e : List Nat × graphKeys) (he : e ∈ addToTable table hashed key) :
    e.1 = hashed ∨ e.1 ∈ table.map Prod.fst := by
  unfold addToTable at he
  cases h : mapGet table hashed <;> rw [h] at he <;> exact mapSet_key_mem _ _ _ e he

theorem mem_iff_mapGet (m : initialHashTable) (h : (m.map Prod.fst).Nodup) (k : List Nat)
    (v : graphKeys) : (k, v) ∈ m ↔ mapGet m k = some v := by
  induction m with
  | nil => simp [mapGet]
  | cons e rest ih =>
    obtain ⟨k', v'⟩ := e
    rw [List.map_cons, List.nodup_cons] at h
    by_cases hk : k' = k
    · subst hk
      simp only [mapGet, if_true, List.mem_cons, Prod.mk.injEq, true_and, Option.some.injEq]
      constructor
      · rintro (h1 | h1)
        · exact h1.symm
        · exact absurd (List.mem_map_of_mem Prod.fst h1) h.1
      · intro h1
        exact Or.inl h1.symm
    · have hk' : ¬ k = k' := fun e => hk e.symm
      simp only [mapGet, hk, if_false, List.mem_cons, Prod.mk.injEq, hk', false_and, false_or]
      exact ih h.2

theorem mem_bucket (w n : Nat) (items : List (String × List Nat)) (i : Nat)
    (hashed : List Nat) (key : String) :
    key ∈ bucket w n items i hashed ↔
      ∃ p ∈ items, p.1 = key ∧ bandKey w n p.2 i = hashed := by
  simp only [bucket, List.mem_map, List.mem_filter, decide_eq_true_eq]
  constructor
  · rintro ⟨p, ⟨hp, hb⟩, hk⟩
    exact ⟨p, hp, hk, hb⟩
  · rintro ⟨p, hp, hk, hb⟩
    exact ⟨p, ⟨hp, hb⟩, hk⟩

theorem NewLSHforest_configured {K : Type} (ops : FloatOps) (sigSize : Int) (jsThresh : F64) :
    Configured (NewLSHforest ops sigSize jsThresh : LSHforest K) :=
  ⟨by simp [NewLSHforest], rfl, by simp [NewLSHforest], by simp [NewLSHforest]⟩

theorem NewLSHforest_built {K : Type} (ops : FloatOps) (sigSize : Int) (jsThresh : F64) :
    Built (NewLSHforest ops sigSize jsThresh : LSHforest K) [] := by
  refine ⟨NewLSHforest_configured ops sigSize jsThresh, ?_, ?_⟩
  · intro h hh
    simp only [NewLSHforest] at hh
    exact (List.mem_replicate.mp hh).2
  · intro i table hi
    have hmem : table ∈ (NewLSHforest ops sigSize jsThresh : LSHforest K).initialHashTables :=
      List.get?_mem hi
    simp only [NewLSHforest] at hmem
    have : table = [] := (List.mem_replicate.mp hmem).2
    subst this
    exact ⟨by simp, by simp, by intro hashed; simp [mapGet, bucket]⟩

theorem addToTable_holds (w n : Nat) (items : List (String × List Nat)) (i : Nat)
    (table : initialHashTable) (key : String) (sig : List Nat)
    (hk : (bandKey w n sig i).length = w * n) (h : TableHolds w n items i table) :
    TableHolds w n (items ++ [(key, sig)]) i (addToTable table (bandKey w n sig i) key) := by
  obtain ⟨hnd, hlen, hget⟩ := h
  refine ⟨addToTable_nodup _ _ _ hnd, ?_, ?_⟩
  · intro e he
    rcases addToTable_key_mem _ _ _ e he with h1 | h1
    · rw [h1]; exact hk
    · obtain ⟨e', he', hfst⟩ := List.mem_map.mp h1
      rw [← hfst]; exact hlen e' he'
  · intro hashed
    by_cases hh : hashed = bandKey w n sig i
    · subst hh
      have hb : bucket w n (items ++ [(key, sig)]) i (bandKey w n sig i) =
          bucket w n items i (bandKey w n sig i) ++ [key] := by
        simp [bucket, List.filter_append]
      rw [addToTable_same, hget, hb]
      by_cases hem : bucket w n items i (bandKey w n sig i) = [] <;> simp [hem]
    · have hb : bucket w n (items ++ [(key, sig)]) i hashed = bucket w n items i hashed := by
        have : ¬ bandKey w n sig i = hashed := fun e => hh e.symm
        simp [bucket, List.filter_append, this]
      rw [addToTable_other _ _ _ _ hh, hget, hb]

theorem Add_built {K : Type} (self : LSHforest K) (items : List (String × List Nat))
    (hb : Built self items) (key : String) (sig : List Nat)
    (hlen : self.numHashFuncs * self.numBands ≤ sig.length) :
    ∃ after, Add self key sig = some after ∧ Built after (items ++ [(key, sig)]) ∧
      after.numHashFuncs = self.numHashFuncs ∧ after.numBands = self.numBands ∧
      after.hashValueSize = self.hashValueSize := by
  obtain ⟨hc, hht, htab⟩ := hb
  obtain ⟨after, hadd, hca, hn, hbn, hw, _, hht', _, hl, hget⟩ := Add_get self hc key sig hlen
  refine ⟨after, hadd, ⟨hca, by rw [hht']; exact hht, ?_⟩, hn, hbn, hw⟩
  intro i table' hi'
  have hil : i < self.initialHashTables.length := by
    rw [← hl]; exact (List.get?_eq_some.mp hi').1
  have hi : self.initialHashTables.get? i = some self.initialHashTables[i] := by
    simp [List.get?_eq_getElem?, hil]
  have hib : i < self.numBands := by rw [← hc.2.2.1]; exact hil
  have h2 := (hget i _ hi).2
  rw [hi'] at h2
  cases h2
  rw [hn, hw]
  exact addToTable_holds _ _ _ _ _ _ _
    (bandKey_length _ _ hc.1 sig i (band_bound _ _ _ _ hib hlen)) (htab i _ hi)

theorem addAll_built {K : Type} (more : List (String × List Nat)) :
    ∀ (self : LSHforest K) (items : List (String × List Nat)), Built self items →
      (∀ p ∈ more, self.numHashFuncs * self.numBands ≤ p.2.length) →
      ∃ after, addAll self more = some after ∧ Built after (items ++ more) ∧
        after.numHashFuncs = self.numHashFuncs ∧ after.numBands = self.numBands ∧
        after.hashValueSize = self.hashValueSize := by
  induction more with
  | nil =>
    intro self items hb _
    exact ⟨self, rfl, by simpa using hb, rfl, rfl, rfl⟩
  | cons p more ih =>
    intro self items hb hlen
    obtain ⟨key, sig⟩ := p
    obtain ⟨mid, hadd, hbm, hn, hbn, hw⟩ :=
      Add_built self items hb key sig (hlen (key, sig) (List.mem_cons_self _ _))
    obtain ⟨after, hall, hba, hn', hbn', hw'⟩ := ih mid (items ++ [(key, sig)]) hbm (by
      intro p hp
      rw [hn, hbn]
      exact hlen p (List.mem_cons_of_mem _ hp))
    refine ⟨after, by simp [addAll, hadd, hall], ?_, hn'.trans hn, hbn'.trans hbn,
      hw'.trans hw⟩
    simpa using hba

/-! ## Lemmas: `Index` -/

theorem IndexLoop_get {hs : List hashTables} {tables : List initialHashTable}
    {hs' : List hashTables} {tables' : List initialHashTable}
    (h : IndexLoop hs tables hs' tables') :
    hs'.length = hs.length ∧
      ∀ i table' , hs'.get? i = some table' →
        ∃ old table, hs.get? i = some old ∧ tables.get? i = some table ∧
          table'.Perm (old ++ table.map toBand) ∧ table'.Pairwise bandLe := by
  induction h with
  | nil tables => exact ⟨rfl, by intro i t hi; simp at hi⟩
  | @cons h h' table entries hs hs' tables tables' hperm hsort _ ih =>
    refine ⟨by simp [ih.1], ?_⟩
    intro i t hi
    cases i with
    | zero =>
      simp only [List.get?_cons_zero, Option.some.injEq] at hi
      subst hi
      refine ⟨h, table, rfl, rfl, ?_, hsort.2⟩
      exact hsort.1.trans (List.Perm.append_left h (hperm.map toBand))
    | succ i => exact ih.2 i t (by simpa using hi)

theorem indexLoop_some :
    ∀ (hs : List hashTables) (tables : List initialHashTable), hs.length ≤ tables.length →
      ∃ done, indexLoop hs tables = some done
  | [], tables, _ => ⟨_, rfl⟩
  | _ :: _, [], h => by simp at h
  | h :: hs, table :: tables, hl => by
    obtain ⟨done, hd⟩ := indexLoop_some hs tables (by simpa using hl)
    exact ⟨_, by rw [indexLoop, hd]; rfl⟩

theorem indexLoop_sound :
    ∀ (hs : List hashTables) (tables : List initialHashTable)
      (done : List hashTables × List initialHashTable),
      indexLoop hs tables = some done → IndexLoop hs tables done.1 done.2
  | [], tables, done, h => by
    simp only [indexLoop, Option.some.injEq] at h
    subst h
    exact IndexLoop.nil tables
  | _ :: _, [], done, h => by simp [indexLoop] at h
  | h :: hs, table :: tables, done, hd => by
    cases hrec : indexLoop hs tables with
    | none => simp [indexLoop, hrec] at hd
    | some d =>
      simp only [indexLoop, hrec, Option.map_some', Option.some.injEq] at hd
      subst hd
      exact IndexLoop.cons (List.Perm.refl table)
        ⟨List.perm_insertionSort bandLe _, List.sorted_insertionSort bandLe _⟩
        (indexLoop_sound hs tables d hrec)

/-- The run of `Index` that `Index` models is one of the runs `IndexRel` allows. -/
theorem Index_sound {K : Type} (self after : LSHforest K) (h : Index self = some after) :
    IndexRel self after := by
  unfold Index at h
  cases hd : indexLoop self.hashTables self.initialHashTables with
  | none => simp [hd] at h
  | some done =>
    rw [hd, Option.map_some', Option.some.injEq] at h
    exact ⟨done.1, done.2, indexLoop_sound _ _ _ hd, h.symm⟩

theorem Index_some {K : Type} (self : LSHforest K) (hc : Configured self) :
    ∃ after, Index self = some after := by
  obtain ⟨done, hd⟩ := indexLoop_some self.hashTables self.initialHashTables
    (by rw [hc.2.2.1, hc.2.2.2])
  exact ⟨_, by rw [Index, hd]; rfl⟩

theorem IndexRel_indexed {K : Type} (self after : LSHforest K)
    (items : List (String × List Nat)) (hb : Built self items) (h : IndexRel self after) :
    Indexed after items ∧ after.numHashFuncs = self.numHashFuncs ∧
      after.numBands = self.numBands ∧ after.hashValueSize = self.hashValueSize ∧
      after.hashedSignatureFunc = self.hashedSignatureFunc := by
  obtain ⟨hc, hht, htab⟩ := hb
  obtain ⟨hs, tables, hloop, rfl⟩ := h
  obtain ⟨hlen, hget⟩ := IndexLoop_get hloop
  refine ⟨⟨⟨hc.1, hc.2.1, ?_, ?_⟩, ?_⟩, rfl, rfl, rfl, rfl⟩
  · -- one map per band, as before
    clear hget htab hht
    have : ∀ {hs ts hs' ts'}, IndexLoop hs ts hs' ts' → ts'.length = ts.length := by
      intro hs ts hs' ts' hl
      induction hl with
      | nil _ => rfl
      | cons _ _ _ ih => simp [ih]
    exact (this hloop).trans hc.2.2.1
  · exact hlen.trans hc.2.2.2
  · intro i table' hi
    obtain ⟨old, table, hold, htable, hperm, hsorted⟩ := hget i table' hi
    have hnil : old = [] := hht old (List.get?_mem hold)
    subst hnil
    rw [List.nil_append] at hperm
    obtain ⟨hnd, hwidth, hmap⟩ := htab i table htable
    refine ⟨hsorted, ?_, ?_⟩
    · intro e he
      obtain ⟨entry, hentry, rfl⟩ := List.mem_map.mp (hperm.subset he)
      exact hwidth entry hentry
    · intro q key
      rw [mem_matching]
      constructor
      · rintro ⟨e, he, heq, hkey⟩
        obtain ⟨entry, hentry, rfl⟩ := List.mem_map.mp (hperm.subset he)
        obtain ⟨k, v⟩ := entry
        simp only [toBand] at heq hkey
        subst heq
        have := (mem_iff_mapGet table hnd k v).mp hentry
        rw [hmap k] at this
        split_ifs at this with hem
        cases this
        exact hkey
      · intro hkey
        have hne : bucket self.hashValueSize self.numHashFuncs items i q ≠ [] := by
          intro hem
          rw [hem] at hkey
          simp at hkey
        have hg := hmap q
        rw [if_neg hne] at hg
        have hentry := (mem_iff_mapGet table hnd q _).mpr hg
        exact ⟨toBand (q, _), hperm.symm.subset (List.mem_map_of_mem toBand hentry), rfl, hkey⟩

/-! ## Lemmas: `Query` on an indexed forest -/

theorem runProbes_indexed {K : Type} (self : LSHforest K) (items : List (String × List Nat))
    (hx : Indexed self items) (sig : List Nat)
    (hlen : self.numHashFuncs * self.numBands ≤ sig.length) :
    ∃ sent, runProbes self sig = some sent ∧
      ∀ key, (∃ l ∈ sent, key ∈ l) ↔
        ∃ p ∈ items, p.1 = key ∧ ∃ i, i < self.numBands ∧
          bandKey self.hashValueSize self.numHashFuncs p.2 i =
            bandKey self.hashValueSize self.numHashFuncs sig i := by
  obtain ⟨hc, htab⟩ := hx
  let g : Nat → List String := fun i =>
    matching (self.hashTables.getD i []) (bandKey self.hashValueSize self.numHashFuncs sig i)
  have hrun : runProbes self sig = some ((List.range self.numBands).map g) := by
    unfold runProbes
    rw [hashSignature_eq self hc sig hlen]
    simp only [Option.some_bind]
    apply mapM_some
    intro i hi
    have hib : i < self.numBands := List.mem_range.mp hi
    have hit : i < self.hashTables.length := by rw [hc.2.2.2]; exact hib
    have hgt : self.hashTables.get? i = some self.hashTables[i] := by
      simp [List.get?_eq_getElem?, hit]
    obtain ⟨hsorted, hwidth, _⟩ := htab i _ hgt
    rw [hgt, range_map_get _ _ i hib]
    simp only [Option.some_bind]
    rw [probe_eq _ _ _ hsorted hwidth]
    simp [g, List.getD_eq_getElem?_getD, hit]
  refine ⟨_, hrun, ?_⟩
  intro key
  constructor
  · rintro ⟨l, hl, hkey⟩
    obtain ⟨i, hi, rfl⟩ := List.mem_map.mp hl
    have hib : i < self.numBands := List.mem_range.mp hi
    have hit : i < self.hashTables.length := by rw [hc.2.2.2]; exact hib
    have hgt : self.hashTables.get? i = some self.hashTables[i] := by
      simp [List.get?_eq_getElem?, hit]
    obtain ⟨_, _, hmatch⟩ := htab i _ hgt
    have hkey' : key ∈ matching self.hashTables[i]
        (bandKey self.hashValueSize self.numHashFuncs sig i) := by
      simpa [g, List.getD_eq_getElem?_getD, hit] using hkey
    obtain ⟨p, hp, hpk, hpb⟩ := (mem_bucket _ _ _ _ _ _).mp ((hmatch _ _).mp hkey')
    exact ⟨p, hp, hpk, i, hib, hpb⟩
  · rintro ⟨p, hp, hpk, i, hib, hpb⟩
    have hit : i < self.hashTables.length := by rw [hc.2.2.2]; exact hib
    have hgt : self.hashTables.get? i = some self.hashTables[i] := by
      simp [List.get?_eq_getElem?, hit]
    obtain ⟨_, _, hmatch⟩ := htab i _ hgt
    refine ⟨g i, List.mem_map.mpr ⟨i, List.mem_range.mpr hib, rfl⟩, ?_⟩
    have := (hmatch (bandKey self.hashValueSize self.numHashFuncs sig i) key).mpr
      ((mem_bucket _ _ _ _ _ _).mpr ⟨p, hp, hpk, hpb⟩)
    simpa [g, List.getD_eq_getElem?_getD, hit] using this

/-- On a forest indexed once after `items` were added, `Query` returns under every
schedule, and a key is in the result exactly when it was added with a signature that
agrees with the query in the hashed signature of some band. -/
theorem Query_indexed {K : Type} (self : LSHforest K) (items : List (String × List Nat))
    (hx : Indexed self items) (sig : List Nat)
    (hlen : self.numHashFuncs * self.numBands ≤ sig.length) :
    (∃ result, Query self sig = some result) ∧
      ∀ result, QueryResult self sig result → ∀ key, key ∈ result ↔
        ∃ p ∈ items, p.1 = key ∧ ∃ i, i < self.numBands ∧
          bandKey self.hashValueSize self.numHashFuncs p.2 i =
            bandKey self.hashValueSize self.numHashFuncs sig i := by
  obtain ⟨sent, hsent, hmem⟩ := runProbes_indexed self items hx sig hlen
  refine ⟨⟨_, by rw [Query, hsent]; rfl⟩, ?_⟩
  intro result hres key
  rw [QueryResult_mem self sig sent hsent result hres key]
  exact hmem key

/-- From `NewLSHforest` through `Add` calls and one `Index` to `Query`. -/
theorem forest_query {K : Type} (ops : FloatOps) (sigSize : Int) (jsThresh : F64)
    (forest : LSHforest K) (hforest : forest = NewLSHforest ops sigSize jsThresh)
    (items : List (String × List Nat))
    (hitems : ∀ p ∈ items, forest.numHashFuncs * forest.numBands ≤ p.2.length) :
    ∃ built, addAll forest items = some built ∧ (∃ indexed, Index built = some indexed) ∧
      ∀ indexed, IndexRel built indexed → ∀ sig,
        forest.numHashFuncs * forest.numBands ≤ sig.length →
        (∃ result, Query indexed sig = some result) ∧
        ∀ result, QueryResult indexed sig result → ∀ key, key ∈ result ↔
          ∃ p ∈ items, p.1 = key ∧ ∃ i, i < forest.numBands ∧
            hashedBand forest p.2 i = hashedBand forest sig i := by
  have hb0 : Built forest [] := by rw [hforest]; exact NewLSHforest_built ops sigSize jsThresh
  obtain ⟨built, hall, hbuilt, hn, hbn, hw⟩ := addAll_built items forest [] hb0 hitems
  rw [List.nil_append] at hbuilt
  refine ⟨built, hall, Index_some built hbuilt.1, ?_⟩
  intro indexed hrel sig hlen
  obtain ⟨hx, hn', hbn', hw', _⟩ := IndexRel_indexed built indexed items hbuilt hrel
  have hq := Query_indexed indexed items hx sig (by rw [hn', hbn', hn, hbn]; exact hlen)
  refine ⟨hq.1, ?_⟩
  intro result hres key
  rw [hq.2 result hres key, hn', hbn', hw', hn, hbn, hw]
  constructor
  · rintro ⟨p, hp, hpk, i, hi, hk⟩
    refine ⟨p, hp, hpk, i, hi, ?_⟩
    rw [hashedBand_eq forest hb0.1 p.2 i (band_bound _ _ _ _ hi (hitems p hp)),
      hashedBand_eq forest hb0.1 sig i (band_bound _ _ _ _ hi hlen), hk]
  · rintro ⟨p, hp, hpk, i, hi, hk⟩
    refine ⟨p, hp, hpk, i, hi, ?_⟩
    rw [hashedBand_eq forest hb0.1 p.2 i (band_bound _ _ _ _ hi (hitems p hp)),
      hashedBand_eq forest hb0.1 sig i (band_bound _ _ _ _ hi hlen)] at hk
    exact Option.some.inj hk

/-! ## Lemmas: `optimise` -/

theorem int64_eq (x : Int) (h0 : 0 ≤ x) (h1 : x < 2 ^ 63) : int64 x = x := by
  unfold int64
  omega

theorem optimiseStep_cases (ops : FloatOps) (jsThresh : F64) (l k : Nat) (st : optimiseState) :
    optimiseStep ops jsThresh l k st = st ∨
      ((optimiseStep ops jsThresh l k st).optimumNumHashFuncs = k ∧
        (optimiseStep ops jsThresh l k st).optimumNumBands = l) := by
  unfold optimiseStep
  simp only
  split_ifs
  · exact Or.inr ⟨rfl, rfl⟩
  · exact Or.inl rfl

theorem optimiseInner_cons (ops : FloatOps) (sigSize : Int) (jsThresh : F64) (l k : Nat)
    (ks : List Nat) (st : optimiseState) :
    optimiseInner ops sigSize jsThresh l (k :: ks) st =
      if int64 ((l : Int) * (k : Int)) > sigSize then st
      else optimiseInner ops sigSize jsThresh l ks (optimiseStep ops jsThresh l k st) := rfl

/-- The product of the two optimum values as Go computes it fits the signature. -/
theorem optimiseInner_wrap (ops : FloatOps) (sigSize : Int) (jsThresh : F64) (l : Nat) :
    ∀ (ks : List Nat) (st : optimiseState),
      int64 ((st.optimumNumHashFuncs : Int) * (st.optimumNumBands : Int)) ≤ sigSize →
      int64 (((optimiseInner ops sigSize jsThresh l ks st).optimumNumHashFuncs : Int) *
        ((optimiseInner ops sigSize jsThresh l ks st).optimumNumBands : Int)) ≤ sigSize
  | [], st, h => h
  | k :: ks, st, h => by
    rw [optimiseInner_cons]
    split_ifs with hbreak
    · exact h
    · apply optimiseInner_wrap ops sigSize jsThresh l ks
      rcases optimiseStep_cases ops jsThresh l k st with hs | ⟨hk, hl⟩
      · rw [hs]; exact h
      · rw [hk, hl, Int.mul_comm]
        omega

theorem foldl_invariant {α β : Type} (P : β → Prop) (f : β → α → β) :
    ∀ (l : List α) (b : β), P b → (∀ b a, P b → P (f b a)) → P (l.foldl f b)
  | [], _, hb, _ => hb
  | a :: l, b, hb, hstep => foldl_invariant P f l (f b a) (hstep b a hb) hstep

theorem optimiseScan_wrap (ops : FloatOps) (sigSize : Int) (jsThresh : F64)
    (h : 0 ≤ sigSize) :
    int64 (((optimiseScan ops sigSize jsThresh).optimumNumHashFuncs : Int) *
      ((optimiseScan ops sigSize jsThresh).optimumNumBands : Int)) ≤ sigSize := by
  unfold optimiseScan
  apply foldl_invariant (fun st : optimiseState =>
    int64 ((st.optimumNumHashFuncs : Int) * (st.optimumNumBands : Int)) ≤ sigSize)
  · simpa [int64] using h
  · intro st l hst
    exact optimiseInner_wrap ops sigSize jsThresh l _ st hst

/-- Below `2^62` no product `l*k` that `optimise` forms overflows, and the product of the
two optimum values is at most the signature length. -/
theorem optimiseInner_exact (ops : FloatOps) (sigSize : Int) (jsThresh : F64) (l : Nat)
    (hsmall : sigSize < 2 ^ 62) (hl : (l : Int) ≤ sigSize) :
    ∀ (m k0 : Nat) (st : optimiseState),
      (l : Int) * ((k0 : Int) - 1) ≤ sigSize → 1 ≤ k0 →
      (st.optimumNumHashFuncs : Int) * (st.optimumNumBands : Int) ≤ sigSize →
      ((optimiseInner ops sigSize jsThresh l (List.range' k0 m) st).optimumNumHashFuncs : Int) *
        ((optimiseInner ops sigSize jsThresh l (List.range' k0 m) st).optimumNumBands : Int)
        ≤ sigSize
  | 0, _, _, _, _, h => h
  | m + 1, k0, st, hprev, hk0, h => by
    rw [List.range'_succ, optimiseInner_cons]
    split_ifs with hbreak
    · exact h
    · have hexp : (l : Int) * (k0 : Int) = (l : Int) * ((k0 : Int) - 1) + l := by ring
      have hnn : (0 : Int) ≤ (l : Int) * (k0 : Int) :=
        Int.mul_nonneg (Int.ofNat_nonneg l) (Int.ofNat_nonneg k0)
      have hid : int64 ((l : Int) * (k0 : Int)) = (l : Int) * (k0 : Int) :=
        int64_eq _ hnn (by omega)
      rw [hid] at hbreak
      apply optimiseInner_exact ops sigSize jsThresh l hsmall hl m (k0 + 1)
      · push_cast
        have : (l : Int) * ((k0 : Int) + 1 - 1) = (l : Int) * (k0 : Int) := by ring
        rw [this]; omega
      · omega
      · rcases optimiseStep_cases ops jsThresh l k0 st with hs | ⟨hk, hl'⟩
        · rw [hs]; exact h
        · rw [hk, hl', Int.mul_comm]
          omega

theorem foldl_range_invariant {β : Type} (P : β → Prop) (f : β → Nat → β) :
    ∀ (m s : Nat) (b : β), P b → (∀ b a, s ≤ a → a < s + m → P b → P (f b a)) →
      P ((List.range' s m).foldl f b)
  | 0, _, _, hb, _ => hb
  | m + 1, s, b, hb, hstep => by
    rw [List.range'_succ, List.foldl_cons]
    exact foldl_range_invariant P f m (s + 1) (f b s)
      (hstep b s (le_refl _) (by omega) hb)
      (fun b a h1 h2 hb => hstep b a (by omega) (by omega) hb)

theorem optimiseScan_exact (ops : FloatOps) (sigSize : Int) (jsThresh : F64)
    (h : 0 ≤ sigSize) (hsmall : sigSize < 2 ^ 62) :
    ((optimiseScan ops sigSize jsThresh).optimumNumHashFuncs : Int) *
      ((optimiseScan ops sigSize jsThresh).optimumNumBands : Int) ≤ sigSize := by
  unfold optimiseScan
  apply foldl_range_invariant (fun st : optimiseState =>
    (st.optimumNumHashFuncs : Int) * (st.optimumNumBands : Int) ≤ sigSize)
  · simpa using h
  · intro st l h1 h2 hst
    have hl : (l : Int) ≤ sigSize := by
      have : (sigSize.toNat : Int) = sigSize := Int.toNat_of_nonneg h
      omega
    exact optimiseInner_exact ops sigSize jsThresh l hsmall hl _ 1 st (by simp; omega)
      (le_refl _) hst

/-- C6. For every signature length `L ≥ 1` and threshold `t` in `(0,1)`, and whatever the
float arithmetic computes, `optimise(L, t)` returns `rowsPerBand` (`numHashFuncs`) and
`numBands` with `rowsPerBand * numBands ≤ L`: the product as Go's `int` computes it is at
most `L`, and for `L < 2^62`, where no product of the scan overflows, so is the exact
product. -/
theorem C6_optimise_fits (ops : FloatOps) (L : Int) (t : F64) (hL : 1 ≤ L)
    (_ht : isThreshold t) :
    int64 (((optimise ops L t).1 : Int) * ((optimise ops L t).2.1 : Int)) ≤ L ∧
      (L < 2 ^ 62 → ((optimise ops L t).1 : Int) * ((optimise ops L t).2.1 : Int) ≤ L) :=
  ⟨optimiseScan_wrap ops L t (by omega),
    fun hsmall => optimiseScan_exact ops L t (by omega) hsmall⟩

/-! ## Lemmas: the pair `optimise` selects -/

theorem F64.gt_irrefl (a : F64) : F64.gt a a = false := by
  cases a <;> simp [F64.gt]

theorem F64.gt_trans (a b c : F64) (hab : F64.gt a b = true) (hbc : F64.gt b c = true) :
    F64.gt a c = true := by
  cases a <;> cases b <;> cases c <;> simp [F64.gt] at hab hbc ⊢
  omega

theorem F64.gt_total (a b : F64) (ha : a ≠ .nan) (hb : b ≠ .nan) (h : F64.gt a b = false) :
    F64.gt b a = true ∨ a = b := by
  cases a <;> cases b <;> simp [F64.gt] at h ha hb ⊢
  omega

theorem BestOf_step (ops : FloatOps) (jsThresh : F64) (L : Int) (l0 k0 : Nat)
    (hnan : ∀ l k : Nat, 1 ≤ l → 1 ≤ k → (l : Int) * (k : Int) ≤ L →
      currErr ops jsThresh l k ≠ .nan)
    (hl0 : 1 ≤ l0) (hk0 : 1 ≤ k0) (hfit : (l0 : Int) * (k0 : Int) ≤ L)
    (st : optimiseState) (h : BestOf ops jsThresh (Seen L l0 k0) st) :
    BestOf ops jsThresh (Seen L l0 (k0 + 1)) (optimiseStep ops jsThresh l0 k0 st) := by
  have hmaxnan : maxFloat64 ≠ .nan := by simp [maxFloat64]
  have hseen : ∀ l k, Seen L l0 (k0 + 1) l k ↔ Seen L l0 k0 l k ∨ (l = l0 ∧ k = k0) := by
    intro l k
    unfold Seen
    constructor
    · rintro ⟨h1, h2, h3, h4⟩
      by_cases hk : l = l0 ∧ k = k0
      · exact Or.inr hk
      · exact Or.inl ⟨h1, h2, h3, by omega⟩
    · rintro (⟨h1, h2, h3, h4⟩ | ⟨rfl, rfl⟩)
      · exact ⟨h1, h2, h3, by omega⟩
      · exact ⟨hl0, hk0, hfit, by omega⟩
  have he0 := hnan l0 k0 hl0 hk0 hfit
  have hstep : optimiseStep ops jsThresh l0 k0 st =
      if F64.gt st.minError (currErr ops jsThresh l0 k0) then
        { optimumNumHashFuncs := k0, optimumNumBands := l0,
          fp := ops.probFalsePositive l0 k0 jsThresh precision,
          fn := ops.probFalseNegative l0 k0 jsThresh precision,
          minError := currErr ops jsThresh l0 k0 }
      else st := rfl
  rw [hstep]
  by_cases hupd : F64.gt st.minError (currErr ops jsThresh l0 k0) = true
  · rw [if_pos hupd]
    right
    have hminnan : st.minError ≠ .nan := by
      rcases h with ⟨hm, _⟩ | ⟨hS, hm, _⟩
      · rw [hm]; exact hmaxnan
      · rw [hm]; exact hnan _ _ hS.1 hS.2.1 hS.2.2.1
    have hbelow : F64.gt maxFloat64 (currErr ops jsThresh l0 k0) = true := by
      rcases h with ⟨hm, _⟩ | ⟨_, _, _, _, hmax, _⟩
      · rw [← hm]; exact hupd
      · exact F64.gt_trans _ _ _ hmax hupd
    have hold : ∀ l k, Seen L l0 k0 l k →
        F64.gt st.minError (currErr ops jsThresh l k) = false := by
      intro l k hS
      rcases h with ⟨hm, _, _, hall⟩ | ⟨_, _, _, _, _, hall⟩
      · rw [hm]; exact hall l k hS
      · exact (hall l k hS).1
    refine ⟨(hseen _ _).mpr (Or.inr ⟨rfl, rfl⟩), rfl, rfl, rfl, hbelow, ?_⟩
    intro l k hS
    rcases (hseen l k).mp hS with hS' | ⟨rfl, rfl⟩
    · have hge := hold l k hS'
      have hlk := hnan l k hS'.1 hS'.2.1 hS'.2.2.1
      have hstrict : F64.gt (currErr ops jsThresh l k) (currErr ops jsThresh l0 k0) = true := by
        rcases F64.gt_total _ _ hminnan hlk hge with h1 | h1
        · exact F64.gt_trans _ _ _ h1 hupd
        · rw [← h1]; exact hupd
      refine ⟨?_, ?_⟩
      · by_contra hc
        have hc : F64.gt (currErr ops jsThresh l0 k0) (currErr ops jsThresh l k) = true := by
          simpa using hc
        have := F64.gt_trans _ _ _ hc hstrict
        simp [F64.gt_irrefl] at this
      · intro hcontra
        simp only at hcontra
        rw [hstrict] at hcontra
        simp at hcontra
    · exact ⟨F64.gt_irrefl _, fun _ => Or.inr ⟨rfl, le_refl _⟩⟩
  · have hupd' : F64.gt st.minError (currErr ops jsThresh l0 k0) = false := by
      simpa using hupd
    rw [if_neg hupd]
    rcases h with ⟨hm, hk, hl, hall⟩ | ⟨hS, hm, hfp, hfn, hmax, hall⟩
    · left
      refine ⟨hm, hk, hl, ?_⟩
      intro l k hS
      rcases (hseen l k).mp hS with hS' | ⟨rfl, rfl⟩
      · exact hall l k hS'
      · rw [← hm]; exact hupd'
    · right
      refine ⟨(hseen _ _).mpr (Or.inl hS), hm, hfp, hfn, hmax, ?_⟩
      intro l k hS'
      rcases (hseen l k).mp hS' with hS'' | ⟨rfl, rfl⟩
      · exact hall l k hS''
      · refine ⟨hupd', fun _ => ?_⟩
        have := hS.2.2.2
        omega

theorem Seen_close (L : Int) (l0 k0 : Nat) (hover : L < (l0 : Int) * (k0 : Int)) :
    Seen L l0 k0 = Seen L (l0 + 1) 1 := by
  funext l k
  apply propext
  unfold Seen
  constructor
  · rintro ⟨h1, h2, h3, h4⟩
    exact ⟨h1, h2, h3, by omega⟩
  · rintro ⟨h1, h2, h3, h4⟩
    refine ⟨h1, h2, h3, ?_⟩
    by_cases hl : l < l0
    · exact Or.inl hl
    · have hl' : l = l0 := by omega
      subst hl'
      refine Or.inr ⟨rfl, ?_⟩
      by_contra hk
      have hk' : (k0 : Int) ≤ (k : Int) := by omega
      have := Int.mul_le_mul_of_nonneg_left hk' (Int.ofNat_nonneg l)
      omega

theorem optimiseInner_best (ops : FloatOps) (jsThresh : F64) (L : Int) (hsmall : L < 2 ^ 62)
    (hnan : ∀ l k : Nat, 1 ≤ l → 1 ≤ k → (l : Int) * (k : Int) ≤ L →
      currErr ops jsThresh l k ≠ .nan)
    (l0 : Nat) (hl0 : 1 ≤ l0) (hl0L : (l0 : Int) ≤ L) :
    ∀ (m k0 : Nat) (st : optimiseState), 1 ≤ k0 → (k0 : Int) + (m : Int) = L + 1 →
      (l0 : Int) * ((k0 : Int) - 1) ≤ L →
      BestOf ops jsThresh (Seen L l0 k0) st →
      BestOf ops jsThresh (Seen L (l0 + 1) 1)
        (optimiseInner ops L jsThresh l0 (List.range' k0 m) st)
  | 0, k0, st, hk0, hend, _, h => by
    have hover : L < (l0 : Int) * (k0 : Int) := by
      have h1 : (1 : Int) ≤ (l0 : Int) := by omega
      have h2 : (0 : Int) ≤ (k0 : Int) := Int.ofNat_nonneg k0
      have := Int.mul_le_mul_of_nonneg_right h1 h2
      omega
    rw [← Seen_close L l0 k0 hover]
    exact h
  | m + 1, k0, st, hk0, hend, hprev, h => by
    rw [List.range'_succ, optimiseInner_cons]
    have hexp : (l0 : Int) * (k0 : Int) = (l0 : Int) * ((k0 : Int) - 1) + l0 := by ring
    have hnn : (0 : Int) ≤ (l0 : Int) * (k0 : Int) :=
      Int.mul_nonneg (Int.ofNat_nonneg l0) (Int.ofNat_nonneg k0)
    have hid : int64 ((l0 : Int) * (k0 : Int)) = (l0 : Int) * (k0 : Int) :=
      int64_eq _ hnn (by omega)
    rw [hid]
    split_ifs with hbreak
    · rw [← Seen_close L l0 k0 (by omega)]
      exact h
    · have hfit : (l0 : Int) * (k0 : Int) ≤ L := by omega
      apply optimiseInner_best ops jsThresh L hsmall hnan l0 hl0 hl0L m (k0 + 1)
      · omega
      · push_cast; omega
      · push_cast
        have : (l0 : Int) * ((k0 : Int) + 1 - 1) = (l0 : Int) * (k0 : Int) := by ring
        rw [this]; exact hfit
      · exact BestOf_step ops jsThresh L l0 k0 hnan hl0 hk0 hfit st h

theorem optimiseOuter_best (ops : FloatOps) (jsThresh : F64) (L : Int) (hsmall : L < 2 ^ 62)
    (hnan : ∀ l k : Nat, 1 ≤ l → 1 ≤ k → (l : Int) * (k : Int) ≤ L →
      currErr ops jsThresh l k ≠ .nan) (N : Nat) (hN : (N : Int) = L) :
    ∀ (m l0 : Nat) (st : optimiseState), 1 ≤ l0 → (l0 : Int) + (m : Int) = L + 1 →
      BestOf ops jsThresh (Seen L l0 1) st →
      BestOf ops jsThresh (Seen L (l0 + m) 1)
        ((List.range' l0 m).foldl
          (fun st l => optimiseInner ops L jsThresh l (List.range' 1 N) st) st)
  | 0, _, _, _, _, h => h
  | m + 1, l0, st, hl0, hend, h => by
    rw [List.range'_succ, List.foldl_cons]
    have hstep := optimiseInner_best ops jsThresh L hsmall hnan l0 hl0 (by omega) N 1 st
      (le_refl _) (by omega) (by simp; omega) h
    have := optimiseOuter_best ops jsThresh L hsmall hnan N hN m (l0 + 1) _ (by omega)
      (by push_cast; omega) hstep
    rw [show l0 + (m + 1) = l0 + 1 + m by omega]
    exact this

theorem optimiseScan_best (ops : FloatOps) (jsThresh : F64) (L : Int) (hL : 0 ≤ L)
    (hsmall : L < 2 ^ 62)
    (hnan : ∀ l k : Nat, 1 ≤ l → 1 ≤ k → (l : Int) * (k : Int) ≤ L →
      currErr ops jsThresh l k ≠ .nan) :
    BestOf ops jsThresh (Admissible L) (optimiseScan ops L jsThresh) := by
  have hN : (L.toNat : Int) = L := Int.toNat_of_nonneg hL
  have hinit : BestOf ops jsThresh (Seen L 1 1)
      { optimumNumHashFuncs := 0, optimumNumBands := 0, fp := .fin 0, fn := .fin 0,
        minError := maxFloat64 } := by
    left
    refine ⟨rfl, rfl, rfl, ?_⟩
    rintro l k ⟨h1, h2, _, h4⟩
    omega
  have := optimiseOuter_best ops jsThresh L hsmall hnan L.toNat hN L.toNat 1 _ (le_refl _)
    (by omega) hinit
  have hset : Seen L (1 + L.toNat) 1 = Admissible L := by
    funext l k
    apply propext
    unfold Seen Admissible
    constructor
    · rintro ⟨h1, h2, h3, _⟩
      exact ⟨h1, h2, h3⟩
    · rintro ⟨h1, h2, h3⟩
      refine ⟨h1, h2, h3, Or.inl ?_⟩
      have hk : (1 : Int) ≤ (k : Int) := by omega
      have := Int.mul_le_mul_of_nonneg_left hk (Int.ofNat_nonneg l)
      omega
  rw [hset] at this
  exact this

/-- C7. For `1 ≤ L` (below `2^62`, where the scan's products do not overflow) and a
threshold in `(0,1)`, provided the float computations give no NaN on the admissible pairs
and an error below `math.MaxFloat64` for the pair `(1,1)`, the pair (`b` bands, `r` rows)
that `optimise` returns is admissible (`b ≥ 1`, `r ≥ 1`, `b*r ≤ L`), `fp` and `fn` are its
two probabilities, no admissible pair has a smaller error `fn + fp`, and every admissible
pair whose error is not greater has more bands, or as many bands and at least as many
rows: it is the first minimum in scan order. -/
theorem C7_optimise_first_minimum (ops : FloatOps) (L : Int) (t : F64) (r b : Nat)
    (fp fn : F64) (hL : 1 ≤ L) (hsmall : L < 2 ^ 62) (_ht : isThreshold t)
    (hnan : ∀ l k : Nat, 1 ≤ l → 1 ≤ k → (l : Int) * (k : Int) ≤ L →
      currErr ops t l k ≠ .nan)
    (hone : F64.gt maxFloat64 (currErr ops t 1 1) = true)
    (hopt : optimise ops L t = (r, b, fp, fn)) :
    1 ≤ b ∧ 1 ≤ r ∧ (b : Int) * (r : Int) ≤ L ∧
      fp = ops.probFalsePositive b r t precision ∧
      fn = ops.probFalseNegative b r t precision ∧
      ∀ b' r' : Nat, 1 ≤ b' → 1 ≤ r' → (b' : Int) * (r' : Int) ≤ L →
        F64.gt (currErr ops t b r) (currErr ops t b' r') = false ∧
        (F64.gt (currErr ops t b' r') (currErr ops t b r) = false →
          b < b' ∨ (b = b' ∧ r ≤ r')) := by
  have hbest := optimiseScan_best ops t L (by omega) hsmall hnan
  simp only [optimise, Prod.mk.injEq] at hopt
  obtain ⟨hr, hb, hfp, hfn⟩ := hopt
  rcases hbest with ⟨_, _, _, hall⟩ | ⟨hS, hm, hfp', hfn', _, hall⟩
  · have := hall 1 1 ⟨le_refl _, le_refl _, by simpa using hL⟩
    rw [hone] at this
    simp at this
  · rw [hr, hb] at hS hm hfp' hfn' hall
    refine ⟨hS.1, hS.2.1, hS.2.2, ?_, ?_, ?_⟩
    · rw [← hfp]; exact hfp'
    · rw [← hfn]; exact hfn'
    · intro b' r' h1 h2 h3
      have := hall b' r' ⟨h1, h2, h3⟩
      rw [hm] at this
      exact this

/-! ## Lemmas: signatures of another length -/

theorem sliceSig_append (sig extra : List Nat) (lo hi : Nat) (hhi : hi ≤ sig.length) :
    sliceSig (sig ++ extra) lo hi = sliceSig sig lo hi := by
  unfold sliceSig
  by_cases hlo : lo ≤ hi
  · have h1 : hi ≤ (sig ++ extra).length := by simp; omega
    rw [if_pos ⟨hlo, h1⟩, if_pos ⟨hlo, hhi⟩]
    congr 1
    rw [List.drop_append_of_le_length (by omega), List.take_append_of_le_length]
    simp; omega
  · have h1 : ¬ (lo ≤ hi ∧ hi ≤ (sig ++ extra).length) := fun h => hlo h.1
    have h2 : ¬ (lo ≤ hi ∧ hi ≤ sig.length) := fun h => hlo h.1
    rw [if_neg h1, if_neg h2]

theorem hashedBand_append {K : Type} (self : LSHforest K) (sig extra : List Nat) (i : Nat)
    (hi : (i + 1) * self.numHashFuncs ≤ sig.length) :
    hashedBand self (sig ++ extra) i = hashedBand self sig i := by
  unfold hashedBand
  rw [sliceSig_append sig extra _ _ hi]

theorem hashSignature_append {K : Type} (self : LSHforest K) (sig extra : List Nat)
    (hlen : self.numHashFuncs * self.numBands ≤ sig.length) :
    hashSignature self (sig ++ extra) = hashSignature self sig := by
  unfold hashSignature
  apply mapM_congr
  intro i hi
  exact hashedBand_append self sig extra i (band_bound _ _ _ _ (List.mem_range.mp hi) hlen)

theorem hashSignature_short {K : Type} (self : LSHforest K) (sig : List Nat)
    (hlen : sig.length < self.numHashFuncs * self.numBands) : hashSignature self sig = none := by
  unfold hashSignature
  apply mapM_none
  have hb : 0 < self.numBands := by
    rcases Nat.eq_zero_or_pos self.numBands with h | h
    · rw [h] at hlen; simp at hlen
    · exact h
  refine ⟨self.numBands - 1, List.mem_range.mpr (by omega), ?_⟩
  have hsucc : self.numBands - 1 + 1 = self.numBands := by omega
  have : ¬ ((self.numBands - 1) * self.numHashFuncs ≤ (self.numBands - 1 + 1) * self.numHashFuncs ∧
      (self.numBands - 1 + 1) * self.numHashFuncs ≤ sig.length) := by
    rw [hsucc, Nat.mul_comm self.numBands]
    intro h
    omega
  simp only [hashedBand, sliceSig, if_neg this, Option.none_bind]

theorem runProbes_append {K : Type} (self : LSHforest K) (sig extra : List Nat)
    (hlen : self.numHashFuncs * self.numBands ≤ sig.length) :
    runProbes self (sig ++ extra) = runProbes self sig := by
  unfold runProbes
  rw [hashSignature_append self sig extra hlen]

/-! ## Lemmas: the geometry `optimise` returns is `(0, 0)` or positive -/

theorem optimiseInner_pos (ops : FloatOps) (sigSize : Int) (jsThresh : F64) (l : Nat)
    (hl : 1 ≤ l) :
    ∀ (ks : List Nat) (st : optimiseState), (∀ k ∈ ks, 1 ≤ k) →
      (st.optimumNumHashFuncs = 0 ∧ st.optimumNumBands = 0 ∨
        1 ≤ st.optimumNumHashFuncs ∧ 1 ≤ st.optimumNumBands) →
      ((optimiseInner ops sigSize jsThresh l ks st).optimumNumHashFuncs = 0 ∧
          (optimiseInner ops sigSize jsThresh l ks st).optimumNumBands = 0) ∨
        (1 ≤ (optimiseInner ops sigSize jsThresh l ks st).optimumNumHashFuncs ∧
          1 ≤ (optimiseInner ops sigSize jsThresh l ks st).optimumNumBands)
  | [], _, _, h => h
  | k :: ks, st, hks, h => by
    rw [optimiseInner_cons]
    split_ifs with hbreak
    · exact h
    · apply optimiseInner_pos ops sigSize jsThresh l hl ks _
        (fun k' hk' => hks k' (List.mem_cons_of_mem _ hk'))
      rcases optimiseStep_cases ops jsThresh l k st with hs | ⟨hk, hl'⟩
      · rw [hs]; exact h
      · rw [hk, hl']
        exact Or.inr ⟨hks k (List.mem_cons_self _ _), hl⟩

theorem optimiseScan_pos (ops : FloatOps) (sigSize : Int) (jsThresh : F64) :
    ((optimiseScan ops sigSize jsThresh).optimumNumHashFuncs = 0 ∧
        (optimiseScan ops sigSize jsThresh).optimumNumBands = 0) ∨
      (1 ≤ (optimiseScan ops sigSize jsThresh).optimumNumHashFuncs ∧
        1 ≤ (optimiseScan ops sigSize jsThresh).optimumNumBands) := by
  unfold optimiseScan
  apply foldl_range_invariant (fun st : optimiseState =>
    (st.optimumNumHashFuncs = 0 ∧ st.optimumNumBands = 0) ∨
      (1 ≤ st.optimumNumHashFuncs ∧ 1 ≤ st.optimumNumBands))
  · exact Or.inl ⟨rfl, rfl⟩
  · intro st l h1 _ hst
    exact optimiseInner_pos ops sigSize jsThresh l h1 _ st
      (fun k hk => (List.mem_range'_1.mp hk).1) hst

/-- The geometry of a forest built for signatures of length 16. -/
theorem NewLSHforest_sixteen {K : Type} (ops : FloatOps) (jsThresh : F64) :
    (NewLSHforest ops 16 jsThresh : LSHforest K).numHashFuncs *
        (NewLSHforest ops 16 jsThresh : LSHforest K).numBands ≤ 16 ∧
      (1 ≤ (NewLSHforest ops 16 jsThresh : LSHforest K).numBands →
        1 ≤ (NewLSHforest ops 16 jsThresh : LSHforest K).numHashFuncs) := by
  constructor
  · have := optimiseScan_exact ops 16 jsThresh (by norm_num) (by norm_num)
    simp only [NewLSHforest, optimise]
    exact_mod_cast this
  · intro hb
    simp only [NewLSHforest, optimise] at hb ⊢
    rcases optimiseScan_pos ops 16 jsThresh with h | h
    · omega
    · exact h.1

theorem bandKey_replicate (n i v : Nat) (hn : 1 ≤ n) (hi : (i + 1) * n ≤ 16) :
    (bandKey 4 n (List.replicate 16 v) i).head? = some (v % 256) := by
  have hslice : ((List.replicate 16 v).drop (i * n)).take n = List.replicate n v := by
    rw [List.drop_replicate, List.take_replicate]
    congr 1
    rw [Nat.succ_mul] at hi
    omega
  obtain ⟨m, rfl⟩ : ∃ m, n = m + 1 := ⟨n - 1, by omega⟩
  unfold bandKey
  rw [hslice, List.replicate_succ, List.flatMap_cons, putUint64_take4]
  simp [lowBytes4]

theorem hashedBand_replicate_ne {K : Type} (self : LSHforest K) (hc : Configured self)
    (hw : self.hashValueSize = 4) (hn : 1 ≤ self.numHashFuncs) (i : Nat)
    (hi : (i + 1) * self.numHashFuncs ≤ 16) :
    hashedBand self (List.replicate 16 2) i ≠ hashedBand self (List.replicate 16 1) i := by
  rw [hashedBand_eq self hc _ i (by simpa using hi),
    hashedBand_eq self hc _ i (by simpa using hi), hw]
  intro h
  have h1 := bandKey_replicate self.numHashFuncs i 1 hn hi
  have h2 := bandKey_replicate self.numHashFuncs i 2 hn hi
  rw [Option.some.inj h, h1] at h2
  simp at h2

/-! ## Lemmas: `Query` returns on tables of full width -/

theorem searchLoop_total (f : Nat → Option Bool) (n : Nat)
    (hf : ∀ x, x < n → ∃ b, f x = some b) :
    ∀ (fuel i j : Nat), j - i ≤ fuel → j ≤ n → ∃ r, searchLoop f fuel i j = some r := by
  intro fuel
  induction fuel with
  | zero =>
    intro i j hfuel hjn
    have : ¬ i < j := by omega
    exact ⟨i, by simp [searchLoop, this]⟩
  | succ fuel ih =>
    intro i j hfuel hjn
    by_cases hlt : i < j
    · obtain ⟨b, hb⟩ := hf ((i + j) / 2) (by omega)
      cases b with
      | false =>
        obtain ⟨r, hr⟩ := ih ((i + j) / 2 + 1) j (by omega) hjn
        exact ⟨r, by simp [searchLoop, hlt, hb, hr]⟩
      | true =>
        obtain ⟨r, hr⟩ := ih i ((i + j) / 2) (by omega) (by omega)
        exact ⟨r, by simp [searchLoop, hlt, hb, hr]⟩
    · exact ⟨i, by simp [searchLoop, hlt]⟩

theorem emitLoop_total (p : Nat) (q : List Nat) :
    ∀ (l : List band), (∀ e ∈ l, p ≤ e.HashedSignature.length) →
      ∃ keys, emitLoop p q l = some keys
  | [], _ => ⟨[], rfl⟩
  | b :: rest, h => by
    obtain ⟨keys, hk⟩ := emitLoop_total p q rest (fun e he => h e (List.mem_cons_of_mem _ he))
    have hb := h b (List.mem_cons_self _ _)
    by_cases hq : b.HashedSignature.take p = q
    · exact ⟨b.graphKeys ++ keys, by simp [emitLoop, strPrefix, hb, hq, hk]⟩
    · exact ⟨[], by simp [emitLoop, strPrefix, hb, hq]⟩

theorem probe_total (p : Nat) (q : List Nat) (table : hashTables)
    (h : ∀ e ∈ table, p ≤ e.HashedSignature.length) : ∃ keys, probe p table q = some keys := by
  have hf : ∀ x, x < table.length → ∃ b, searchTest p table q x = some b := by
    intro x hx
    have hg : table[x]? = some table[x] := List.getElem?_eq_getElem hx
    have hl := h table[x] (List.getElem_mem hx)
    exact ⟨!strLess (table[x].HashedSignature.take p) q,
      by simp [searchTest, strPrefix, hg, hl]⟩
  obtain ⟨r, hr⟩ := searchLoop_total _ table.length hf table.length 0 table.length
    (by omega) (le_refl _)
  unfold probe sortSearch
  rw [hr]
  simp only [Option.some_bind]
  cases hg : table.get? r with
  | none => exact ⟨[], rfl⟩
  | some b =>
    have hb := h b (List.get?_mem hg)
    obtain ⟨keys, hk⟩ := emitLoop_total p q (table.drop r)
      (fun e he => h e (List.mem_of_mem_drop he))
    by_cases hq : b.HashedSignature.take p = q
    · exact ⟨keys, by simp [strPrefix, hb, hq, hk]⟩
    · exact ⟨[], by simp [strPrefix, hb, hq]⟩

theorem runProbes_total {K : Type} (self : LSHforest K) (hc : Configured self)
    (hwidth : ∀ table ∈ self.hashTables, ∀ e ∈ table,
      self.hashValueSize * self.numHashFuncs ≤ e.HashedSignature.length)
    (sig : List Nat) (hlen : self.numHashFuncs * self.numBands ≤ sig.length) :
    ∃ sent, runProbes self sig = some sent := by
  unfold runProbes
  rw [hashSignature_eq self hc sig hlen]
  simp only [Option.some_bind]
  refine ⟨_, mapM_some _ (fun i => (probe (self.hashValueSize * self.numHashFuncs)
    (self.hashTables.getD i []) (bandKey self.hashValueSize self.numHashFuncs sig i)).getD [])
    _ ?_⟩
  intro i hi
  have hib : i < self.numBands := List.mem_range.mp hi
  have hit : i < self.hashTables.length := by rw [hc.2.2.2]; exact hib
  have hgt : self.hashTables.get? i = some self.hashTables[i] := by
    simp [List.get?_eq_getElem?, hit]
  obtain ⟨keys, hk⟩ := probe_total (self.hashValueSize * self.numHashFuncs)
    (bandKey self.hashValueSize self.numHashFuncs sig i) self.hashTables[i]
    (hwidth _ (List.getElem_mem hit))
  rw [hgt, range_map_get _ _ i hib]
  simp [List.getD_eq_getElem?_getD, hit, hk]

/-- C4. In every forest state and for every query signature, whatever the schedule of the
probes, the list `Query` returns holds no item key more than once, also when the key sits
in matching buckets of several bands or several times in one bucket. And `Query` does
return, for a signature of the configured length (or longer), on every forest as
`NewLSHforest` configures it whose indexed tables hold hashed signatures of full width. -/
theorem C4_Query_nodup {K : Type} (self : LSHforest K) (sig : List Nat) :
    (∀ result, QueryResult self sig result → result.Nodup) ∧
      (Configured self →
        (∀ table ∈ self.hashTables, ∀ e ∈ table,
          self.hashValueSize * self.numHashFuncs ≤ e.HashedSignature.length) →
        self.numHashFuncs * self.numBands ≤ sig.length →
        ∃ result, Query self sig = some result ∧ result.Nodup) := by
  constructor
  · intro result hres
    exact QueryResult_nodup self sig result hres
  · intro hc hwidth hlen
    obtain ⟨sent, hsent⟩ := runProbes_total self hc hwidth sig hlen
    exact ⟨consume [] sent.flatten, by rw [Query, hsent]; rfl, consume_nodup _ []⟩

/-! ## Theorems: `Query` after `Add` and `Index` -/

/-- C1. For every forest obtained from `NewLSHforest` by a sequence of `Add(key_j, sig_j)`
calls with signatures of length `numHashFuncs*numBands` followed by one `Index` call
(whatever order the maps are ranged over and whatever the sort leaves), and for every
query signature `s` of that length, `Query(s)` returns under every schedule, and the keys
it returns are exactly the `key_j` for which some band `i` has the hashed signature of
`sig_j`'s `i`-th slice equal to that of `s`'s `i`-th slice. -/
theorem C1_Query_union {K : Type} (ops : FloatOps) (sigSize : Int) (jsThresh : F64)
    (forest : LSHforest K) (hforest : forest = NewLSHforest ops sigSize jsThresh)
    (items : List (String × List Nat))
    (hitems : ∀ p ∈ items, p.2.length = forest.numHashFuncs * forest.numBands) :
    ∃ built, addAll forest items = some built ∧ (∃ indexed, Index built = some indexed) ∧
      ∀ indexed, IndexRel built indexed → ∀ s : List Nat,
        s.length = forest.numHashFuncs * forest.numBands →
        (∃ result, Query indexed s = some result) ∧
        ∀ result, QueryResult indexed s result → ∀ key, key ∈ result ↔
          ∃ p ∈ items, p.1 = key ∧ ∃ i, i < forest.numBands ∧
            hashedBand forest p.2 i = hashedBand forest s i := by
  obtain ⟨built, hall, hidx, hq⟩ := forest_query ops sigSize jsThresh forest hforest items
    (fun p hp => le_of_eq (hitems p hp).symm)
  exact ⟨built, hall, hidx, fun indexed hrel s hs => hq indexed hrel s (le_of_eq hs.symm)⟩

/-- C2. Two item keys `A` and `B` added to a forest from `NewLSHforest` (with at least one
band) with signatures whose hashed signatures are byte-identical in every band are both in
the result of `Query` of either signature after `Index`, under every schedule. In
particular, for signature length 16 and every geometry `optimise` can return with a band:
after `Add("A", [1]*16)`, `Add("B", [1]*16)` and `Index`, `Query([1]*16)` returns exactly
the keys `"A"` and `"B"`. -/
theorem C2_identical_signatures {K : Type} :
    (∀ (ops : FloatOps) (sigSize : Int) (jsThresh : F64) (forest : LSHforest K)
      (items : List (String × List Nat)) (A B : String) (sigA sigB : List Nat),
      forest = NewLSHforest ops sigSize jsThresh → 1 ≤ forest.numBands →
      (∀ p ∈ items, forest.numHashFuncs * forest.numBands ≤ p.2.length) →
      (A, sigA) ∈ items → (B, sigB) ∈ items →
      (∀ i, i < forest.numBands → hashedBand forest sigA i = hashedBand forest sigB i) →
      ∃ built, addAll forest items = some built ∧ (∃ indexed, Index built = some indexed) ∧
        ∀ indexed, IndexRel built indexed → ∀ s, s = sigA ∨ s = sigB →
          (∃ result, Query indexed s = some result) ∧
          ∀ result, QueryResult indexed s result → A ∈ result ∧ B ∈ result) ∧
    (∀ (ops : FloatOps) (jsThresh : F64) (forest : LSHforest K),
      forest = NewLSHforest ops 16 jsThresh → 1 ≤ forest.numBands →
      ∃ built, addAll forest [("A", List.replicate 16 1), ("B", List.replicate 16 1)] =
          some built ∧ (∃ indexed, Index built = some indexed) ∧
        ∀ indexed, IndexRel built indexed →
          (∃ result, Query indexed (List.replicate 16 1) = some result) ∧
          ∀ result, QueryResult indexed (List.replicate 16 1) result →
            ∀ key, key ∈ result ↔ key = "A" ∨ key = "B") := by
  constructor
  · intro ops sigSize jsThresh forest items A B sigA sigB hforest hbands hitems hA hB hsame
    obtain ⟨built, hall, hidx, hq⟩ :=
      forest_query ops sigSize jsThresh forest hforest items hitems
    refine ⟨built, hall, hidx, ?_⟩
    intro indexed hrel s hs
    have hlen : forest.numHashFuncs * forest.numBands ≤ s.length := by
      rcases hs with rfl | rfl
      · exact hitems _ hA
      · exact hitems _ hB
    refine ⟨(hq indexed hrel s hlen).1, ?_⟩
    intro result hres
    have hiff := (hq indexed hrel s hlen).2 result hres
    rcases hs with rfl | rfl
    · exact ⟨(hiff A).mpr ⟨_, hA, rfl, 0, hbands, rfl⟩,
        (hiff B).mpr ⟨_, hB, rfl, 0, hbands, (hsame 0 hbands).symm⟩⟩
    · exact ⟨(hiff A).mpr ⟨_, hA, rfl, 0, hbands, hsame 0 hbands⟩,
        (hiff B).mpr ⟨_, hB, rfl, 0, hbands, rfl⟩⟩
  · intro ops jsThresh forest hforest hbands
    have hgeo : forest.numHashFuncs * forest.numBands ≤ 16 := by
      rw [hforest]; exact (NewLSHforest_sixteen ops jsThresh).1
    obtain ⟨built, hall, hidx, hq⟩ := forest_query ops 16 jsThresh forest hforest
      [("A", List.replicate 16 1), ("B", List.replicate 16 1)] (by
        intro p hp
        simp only [List.mem_cons, List.mem_singleton, List.not_mem_nil, or_false] at hp
        rcases hp with rfl | rfl <;> simpa using hgeo)
    refine ⟨built, hall, hidx, ?_⟩
    intro indexed hrel
    have h := hq indexed hrel (List.replicate 16 1) (by simpa using hgeo)
    refine ⟨h.1, ?_⟩
    intro result hres key
    rw [h.2 result hres key]
    constructor
    · rintro ⟨p, hp, hk, _⟩
      simp only [List.mem_cons, List.mem_singleton, List.not_mem_nil, or_false] at hp
      rcases hp with rfl | rfl
      · exact Or.inl hk.symm
      · exact Or.inr hk.symm
    · rintro (rfl | rfl)
      · exact ⟨("A", List.replicate 16 1), by simp, rfl, 0, hbands, rfl⟩
      · exact ⟨("B", List.replicate 16 1), by simp, rfl, 0, hbands, rfl⟩

/-- C3. An item key all of whose `Add` calls used a signature whose hashed signature
differs from the query's in every band is absent from the result of `Query` after `Index`,
under every schedule. In particular, for signature length 16 and every geometry `optimise`
can return with a band: after `Add("A", [1]*16)`, `Add("B", [2]*16)` and `Index`,
`Query([1]*16)` returns the key `"A"` only and `Query([2]*16)` the key `"B"` only. -/
theorem C3_different_signatures {K : Type} :
    (∀ (ops : FloatOps) (sigSize : Int) (jsThresh : F64) (forest : LSHforest K)
      (items : List (String × List Nat)) (key : String) (s : List Nat),
      forest = NewLSHforest ops sigSize jsThresh →
      (∀ p ∈ items, forest.numHashFuncs * forest.numBands ≤ p.2.length) →
      forest.numHashFuncs * forest.numBands ≤ s.length →
      (∀ p ∈ items, p.1 = key → ∀ i, i < forest.numBands →
        hashedBand forest p.2 i ≠ hashedBand forest s i) →
      ∃ built, addAll forest items = some built ∧ (∃ indexed, Index built = some indexed) ∧
        ∀ indexed, IndexRel built indexed →
          (∃ result, Query indexed s = some result) ∧
          ∀ result, QueryResult indexed s result → key ∉ result) ∧
    (∀ (ops : FloatOps) (jsThresh : F64) (forest : LSHforest K),
      forest = NewLSHforest ops 16 jsThresh → 1 ≤ forest.numBands →
      ∃ built, addAll forest [("A", List.replicate 16 1), ("B", List.replicate 16 2)] =
          some built ∧ (∃ indexed, Index built = some indexed) ∧
        ∀ indexed, IndexRel built indexed →
          ((∃ result, Query indexed (List.replicate 16 1) = some result) ∧
            ∀ result, QueryResult indexed (List.replicate 16 1) result →
              ∀ key, key ∈ result ↔ key = "A") ∧
          ((∃ result, Query indexed (List.replicate 16 2) = some result) ∧
            ∀ result, QueryResult indexed (List.replicate 16 2) result →
              ∀ key, key ∈ result ↔ key = "B")) := by
  constructor
  · intro ops sigSize jsThresh forest items key s hforest hitems hlen hdiff
    obtain ⟨built, hall, hidx, hq⟩ :=
      forest_query ops sigSize jsThresh forest hforest items hitems
    refine ⟨built, hall, hidx, ?_⟩
    intro indexed hrel
    refine ⟨(hq indexed hrel s hlen).1, ?_⟩
    intro result hres hmem
    obtain ⟨p, hp, hk, i, hi, heq⟩ := ((hq indexed hrel s hlen).2 result hres key).mp hmem
    exact hdiff p hp hk i hi heq
  · intro ops jsThresh forest hforest hbands
    have hgeo : forest.numHashFuncs * forest.numBands ≤ 16 := by
      rw [hforest]; exact (NewLSHforest_sixteen ops jsThresh).1
    have hrows : 1 ≤ forest.numHashFuncs := by
      rw [hforest] at hbands ⊢
      exact (NewLSHforest_sixteen ops jsThresh).2 hbands
    have hc : Configured forest := by
      rw [hforest]; exact NewLSHforest_configured ops 16 jsThresh
    have hw : forest.hashValueSize = 4 := by rw [hforest]; rfl
    have hne : ∀ i, i < forest.numBands →
        hashedBand forest (List.replicate 16 2) i ≠ hashedBand forest (List.replicate 16 1) i :=
      fun i hi => hashedBand_replicate_ne forest hc hw hrows i (band_bound _ _ _ _ hi hgeo)
    obtain ⟨built, hall, hidx, hq⟩ := forest_query ops 16 jsThresh forest hforest
      [("A", List.replicate 16 1), ("B", List.replicate 16 2)] (by
        intro p hp
        simp only [List.mem_cons, List.mem_singleton, List.not_mem_nil, or_false] at hp
        rcases hp with rfl | rfl <;> simpa using hgeo)
    refine ⟨built, hall, hidx, ?_⟩
    intro indexed hrel
    have h1 := hq indexed hrel (List.replicate 16 1) (by simpa using hgeo)
    have h2 := hq indexed hrel (List.replicate 16 2) (by simpa using hgeo)
    refine ⟨⟨h1.1, ?_⟩, ⟨h2.1, ?_⟩⟩
    · intro result hres key
      rw [h1.2 result hres key]
      constructor
      · rintro ⟨p, hp, hk, i, hi, heq⟩
        simp only [List.mem_cons, List.mem_singleton, List.not_mem_nil, or_false] at hp
        rcases hp with rfl | rfl
        · exact hk.symm
        · exact absurd heq (hne i hi)
      · rintro rfl
        exact ⟨("A", List.replicate 16 1), by simp, rfl, 0, hbands, rfl⟩
    · intro result hres key
      rw [h2.2 result hres key]
      constructor
      · rintro ⟨p, hp, hk, i, hi, heq⟩
        simp only [List.mem_cons, List.mem_singleton, List.not_mem_nil, or_false] at hp
        rcases hp with rfl | rfl
        · exact absurd heq.symm (hne i hi)
        · exact hk.symm
      · rintro rfl
        exact ⟨("B", List.replicate 16 2), by simp, rfl, 0, hbands, rfl⟩

/-- C5, as amended. `Query` does not check the length of the signature and has no error
result: a signature longer than `numHashFuncs*numBands` is accepted and gives, under every
schedule, what its first `numHashFuncs*numBands` values give. On a shorter signature the
slice expression of some band is out of range in the hashing loop of the goroutine of
`runQuery`, which panics: that ends the process, but the deferred `close(queryResultChan)`
runs first, so `Query` can return to its caller before the process is gone, and what it
then returns is the empty result, never an item key. -/
theorem C5_Query_unchecked {K : Type} (self : LSHforest K) (sig extra : List Nat)
    (hlen : sig.length = self.numHashFuncs * self.numBands) :
    Query self (sig ++ extra) = Query self sig ∧
      (∀ result, QueryResult self (sig ++ extra) result ↔ QueryResult self sig result) ∧
      ∀ short : List Nat, short.length < self.numHashFuncs * self.numBands →
        hashSignature self short = none ∧ QueryPanics self short ∧
          QueryResult self short [] ∧
          ∀ result, QueryResult self short result → result = [] := by
  have hrun := runProbes_append self sig extra (le_of_eq hlen.symm)
  refine ⟨by unfold Query; rw [hrun], ?_, ?_⟩
  · intro result
    unfold QueryResult probesSent
    rw [hashSignature_append self sig extra (le_of_eq hlen.symm)]
  · intro short hshort
    have hnone := hashSignature_short self short hshort
    have hrun' : runProbes self short = none := by
      unfold runProbes
      rw [hnone]
      rfl
    exact ⟨hnone, hrun', (QueryResult_unhashed self short hnone []).mpr rfl,
      fun result hres => (QueryResult_unhashed self short hnone result).mp hres⟩

/-! ## Worked examples: the claims at concrete inputs -/

set_option maxRecDepth 20000

/-- C1 at the example forest with three items of four values each. -/
theorem C1_Query_union_witness :
    (∀ p ∈ [("A", [1, 1, 1, 1]), ("B", [1, 1, 2, 2]), ("C", [3, 3, 3, 3])],
      p.2.length = exampleForest.numHashFuncs * exampleForest.numBands) ∧
    ∃ built, addAll exampleForest
        [("A", [1, 1, 1, 1]), ("B", [1, 1, 2, 2]), ("C", [3, 3, 3, 3])] = some built ∧
      (∃ indexed, Index built = some indexed) ∧
      ∀ indexed, IndexRel built indexed → ∀ s : List Nat,
        s.length = exampleForest.numHashFuncs * exampleForest.numBands →
        (∃ result, Query indexed s = some result) ∧
        ∀ result, QueryResult indexed s result → ∀ key, key ∈ result ↔
          ∃ p ∈ [("A", [1, 1, 1, 1]), ("B", [1, 1, 2, 2]), ("C", [3, 3, 3, 3])],
            p.1 = key ∧ ∃ i, i < exampleForest.numBands ∧
              hashedBand exampleForest p.2 i = hashedBand exampleForest s i :=
  ⟨by decide, C1_Query_union exampleOps 16 F64.half exampleForest rfl _ (by decide)⟩

/-- C2 at the example forest: `"A"` and `"B"` added with signatures that differ as integers
but not in their hashed signatures, and `"A"` and `"B"` both added with `[1]*16`. -/
theorem C2_identical_signatures_witness :
    1 ≤ exampleForest.numBands ∧
    (∀ p ∈ [("A", [1, 1, 1, 1]), ("B", [2 ^ 32 + 1, 1, 1, 1])],
      exampleForest.numHashFuncs * exampleForest.numBands ≤ p.2.length) ∧
    (∀ i, i < exampleForest.numBands →
      hashedBand exampleForest [1, 1, 1, 1] i =
        hashedBand exampleForest [2 ^ 32 + 1, 1, 1, 1] i) ∧
    (∃ built, addAll exampleForest [("A", [1, 1, 1, 1]), ("B", [2 ^ 32 + 1, 1, 1, 1])] =
        some built ∧ (∃ indexed, Index built = some indexed) ∧
      ∀ indexed, IndexRel built indexed → ∀ s, s = [1, 1, 1, 1] ∨ s = [2 ^ 32 + 1, 1, 1, 1] →
        (∃ result, Query indexed s = some result) ∧
        ∀ result, QueryResult indexed s result → "A" ∈ result ∧ "B" ∈ result) ∧
    ∃ built, addAll exampleForest [("A", List.replicate 16 1), ("B", List.replicate 16 1)] =
        some built ∧ (∃ indexed, Index built = some indexed) ∧
      ∀ indexed, IndexRel built indexed →
        (∃ result, Query indexed (List.replicate 16 1) = some result) ∧
        ∀ result, QueryResult indexed (List.replicate 16 1) result →
          ∀ key, key ∈ result ↔ key = "A" ∨ key = "B" :=
  ⟨by decide, by decide, by decide,
    (C2_identical_signatures (K := Unit)).1 exampleOps 16 F64.half exampleForest
      [("A", [1, 1, 1, 1]), ("B", [2 ^ 32 + 1, 1, 1, 1])] "A" "B" [1, 1, 1, 1]
      [2 ^ 32 + 1, 1, 1, 1] rfl (by decide) (by decide) (by decide) (by decide) (by decide),
    (C2_identical_signatures (K := Unit)).2 exampleOps F64.half exampleForest rfl
      (by decide)⟩

/-- C3 at the example forest: `"B"`, added with `[2, 2, 2, 2]`, is not returned for
`[1, 1, 1, 1]`; and `"A"` added with `[1]*16`, `"B"` with `[2]*16`. -/
theorem C3_different_signatures_witness :
    1 ≤ exampleForest.numBands ∧
    (∀ p ∈ [("A", [1, 1, 1, 1]), ("B", [2, 2, 2, 2])], p.1 = "B" →
      ∀ i, i < exampleForest.numBands →
        hashedBand exampleForest p.2 i ≠ hashedBand exampleForest [1, 1, 1, 1] i) ∧
    (∃ built, addAll exampleForest [("A", [1, 1, 1, 1]), ("B", [2, 2, 2, 2])] = some built ∧
      (∃ indexed, Index built = some indexed) ∧
      ∀ indexed, IndexRel built indexed →
        (∃ result, Query indexed [1, 1, 1, 1] = some result) ∧
        ∀ result, QueryResult indexed [1, 1, 1, 1] result → "B" ∉ result) ∧
    ∃ built, addAll exampleForest [("A", List.replicate 16 1), ("B", List.replicate 16 2)] =
        some built ∧ (∃ indexed, Index built = some indexed) ∧
      ∀ indexed, IndexRel built indexed →
        ((∃ result, Query indexed (List.replicate 16 1) = some result) ∧
          ∀ result, QueryResult indexed (List.replicate 16 1) result →
            ∀ key, key ∈ result ↔ key = "A") ∧
        ((∃ result, Query indexed (List.replicate 16 2) = some result) ∧
          ∀ result, QueryResult indexed (List.replicate 16 2) result →
            ∀ key, key ∈ result ↔ key = "B") :=
  ⟨by decide, by decide,
    (C3_different_signatures (K := Unit)).1 exampleOps 16 F64.half exampleForest
      [("A", [1, 1, 1, 1]), ("B", [2, 2, 2, 2])] "B" [1, 1, 1, 1] rfl (by decide) (by decide)
      (by decide),
    (C3_different_signatures (K := Unit)).2 exampleOps F64.half exampleForest rfl
      (by decide)⟩

/-- C4 at the indexed example forest, where `"A"` sits twice in a bucket of each band. -/
theorem C4_Query_nodup_witness :
    QueryResult exampleIndexed [1, 1, 1, 1] ["A", "B"] ∧ ["A", "B"].Nodup ∧
      Configured exampleIndexed ∧
      ∃ result, Query exampleIndexed [1, 1, 1, 1] = some result ∧ result.Nodup :=
  ⟨QueryResult_of_Query exampleIndexed [1, 1, 1, 1] ["A", "B"] (by decide),
    (C4_Query_nodup exampleIndexed [1, 1, 1, 1]).1 ["A", "B"]
      (QueryResult_of_Query exampleIndexed [1, 1, 1, 1] ["A", "B"] (by decide)),
    ⟨by decide, rfl, by decide, by decide⟩,
    (C4_Query_nodup exampleIndexed [1, 1, 1, 1]).2 ⟨by decide, rfl, by decide, by decide⟩
      (by decide) (by decide)⟩

/-- C5 fails as stated: the indexed example forest is configured for signatures of four
values, and `Query` of a signature of sixteen values returns a result. -/
theorem C5_Query_accepts_longer :
    (List.replicate 16 1).length ≠ exampleIndexed.numHashFuncs * exampleIndexed.numBands ∧
      Query exampleIndexed (List.replicate 16 1) = some ["A", "B"] :=
  ⟨by decide, by decide⟩

/-- C5 as amended, at the indexed example forest, with the short signature `[1, 1, 1]`. -/
theorem C5_Query_unchecked_witness :
    [1, 1, 1, 1].length = exampleIndexed.numHashFuncs * exampleIndexed.numBands ∧
    (Query exampleIndexed ([1, 1, 1, 1] ++ [7, 8]) = Query exampleIndexed [1, 1, 1, 1] ∧
      (∀ result, QueryResult exampleIndexed ([1, 1, 1, 1] ++ [7, 8]) result ↔
        QueryResult exampleIndexed [1, 1, 1, 1] result) ∧
      ∀ short : List Nat,
        short.length < exampleIndexed.numHashFuncs * exampleIndexed.numBands →
        hashSignature exampleIndexed short = none ∧ QueryPanics exampleIndexed short ∧
          QueryResult exampleIndexed short [] ∧
          ∀ result, QueryResult exampleIndexed short result → result = []) ∧
    [1, 1, 1].length < exampleIndexed.numHashFuncs * exampleIndexed.numBands ∧
    hashedBand exampleIndexed [1, 1, 1] 0 = some [1, 0, 0, 0, 1, 0, 0, 0] ∧
    hashedBand exampleIndexed [1, 1, 1] 1 = none ∧
    (hashSignature exampleIndexed [1, 1, 1] = none ∧ QueryPanics exampleIndexed [1, 1, 1] ∧
      QueryResult exampleIndexed [1, 1, 1] [] ∧
      ∀ result, QueryResult exampleIndexed [1, 1, 1] result → result = []) :=
  ⟨by decide, C5_Query_unchecked exampleIndexed [1, 1, 1, 1] [7, 8] (by decide),
    by decide, by decide, by decide,
    (C5_Query_unchecked exampleIndexed [1, 1, 1, 1] [7, 8] (by decide)).2.2 [1, 1, 1]
      (by decide)⟩

/-- C6 at `optimise(16, 0.5)` under `exampleOps`. -/
theorem C6_optimise_fits_witness :
    (1 : Int) ≤ 16 ∧ isThreshold F64.half ∧
    (int64 (((optimise exampleOps 16 F64.half).1 : Int) *
        ((optimise exampleOps 16 F64.half).2.1 : Int)) ≤ 16 ∧
      ((16 : Int) < 2 ^ 62 → ((optimise exampleOps 16 F64.half).1 : Int) *
        ((optimise exampleOps 16 F64.half).2.1 : Int) ≤ 16)) :=
  ⟨by decide, ⟨by decide, by decide⟩,
    C6_optimise_fits exampleOps 16 F64.half (by decide) ⟨by decide, by decide⟩⟩

/-- C7 at `optimise(16, 0.5)` under `exampleOps`: of the tied pairs with two bands, the one
with two rows is returned. -/
theorem C7_optimise_first_minimum_witness :
    optimise exampleOps 16 F64.half = (2, 2, .fin 0, .fin 0) ∧
    (1 ≤ 2 ∧ 1 ≤ 2 ∧ ((2 : Nat) : Int) * ((2 : Nat) : Int) ≤ 16 ∧
      F64.fin 0 = exampleOps.probFalsePositive 2 2 F64.half precision ∧
      F64.fin 0 = exampleOps.probFalseNegative 2 2 F64.half precision ∧
      ∀ b' r' : Nat, 1 ≤ b' → 1 ≤ r' → (b' : Int) * (r' : Int) ≤ 16 →
        F64.gt (currErr exampleOps F64.half 2 2) (currErr exampleOps F64.half b' r') = false ∧
        (F64.gt (currErr exampleOps F64.half b' r') (currErr exampleOps F64.half 2 2) = false →
          2 < b' ∨ (2 = b' ∧ 2 ≤ r'))) :=
  ⟨by decide, C7_optimise_first_minimum exampleOps 16 F64.half 2 2 (.fin 0) (.fin 0)
    (by decide) (by decide) ⟨by decide, by decide⟩
    (by intro l k _ _ _; simp [currErr, exampleOps])
    (by decide) (by decide)⟩

/-- C8 at the slice `[1, 258]`. -/
theorem C8_encoder_bytes_witness :
    hashedSignatureFuncGen 4 [1, 258] = some [1, 0, 0, 0, 2, 1, 0, 0] ∧
    ∃ bytes, hashedSignatureFuncGen 4 [1, 258] = some bytes ∧
      bytes.length = 4 * [1, 258].length ∧
      bytes = [1, 258].flatMap (fun v => [v % 256, v / 256 % 256, v / 256 ^ 2 % 256,
        v / 256 ^ 3 % 256]) ∧
      ∀ (i j : Nat) (hi : i < [1, 258].length), j < 4 →
        bytes.get? (i * 4 + j) = some ([1, 258][i] / 256 ^ j % 256) :=
  ⟨by decide, C8_encoder_bytes [1, 258]⟩

/-- C10 at the example forest, the key `"A"` and the signature `[1, 1, 2, 2]`. -/
theorem C10_Add_buckets_witness :
    Configured exampleForest ∧
    [1, 1, 2, 2].length = exampleForest.numHashFuncs * exampleForest.numBands ∧
    ((Add exampleForest "A" [1, 1, 2, 2]).map (fun f => f.initialHashTables) =
        some [[([1, 0, 0, 0, 1, 0, 0, 0], ["A"])], [([2, 0, 0, 0, 2, 0, 0, 0], ["A"])]]) ∧
    ∀ n, 0 < n → ∃ after, addAll exampleForest (List.replicate n ("A", [1, 1, 2, 2])) =
        some after ∧
      ∀ i table, exampleForest.initialHashTables.get? i = some table →
        ∃ hashed table', hashedBand exampleForest [1, 1, 2, 2] i = some hashed ∧
          after.initialHashTables.get? i = some table' ∧
          mapGet table' hashed =
            some ((mapGet table hashed).getD [] ++ List.replicate n "A") :=
  ⟨⟨by decide, rfl, by decide, by decide⟩, by decide, by decide,
    (C10_Add_buckets exampleForest "A" [1, 1, 2, 2] ⟨by decide, rfl, by decide, by decide⟩
      (by decide)).2⟩

/-! ## Lemmas: reachable states -/

theorem mapSet_ne_nil (m : initialHashTable) (k : List Nat) (v : graphKeys) :
    mapSet m k v ≠ [] := by
  cases m with
  | nil => simp [mapSet]
  | cons e rest =>
    obtain ⟨k', v'⟩ := e
    by_cases h : k' = k <;> simp [mapSet, h]

theorem addToTable_ne_nil (table : initialHashTable) (hashed : List Nat) (key : String) :
    addToTable table hashed key ≠ [] := by
  unfold addToTable
  cases mapGet table hashed <;> exact mapSet_ne_nil _ _ _

theorem NewLSHforest_inv {K : Type} (ops : FloatOps) (sigSize : Int) (jsThresh : F64) :
    StateInv (NewLSHforest ops sigSize jsThresh : LSHforest K) := by
  have hmaps : ∀ table ∈ (NewLSHforest ops sigSize jsThresh : LSHforest K).initialHashTables,
      table = [] := by
    intro table h
    simp only [NewLSHforest] at h
    exact (List.mem_replicate.mp h).2
  have htabs : ∀ table ∈ (NewLSHforest ops sigSize jsThresh : LSHforest K).hashTables,
      table = [] := by
    intro table h
    simp only [NewLSHforest] at h
    exact (List.mem_replicate.mp h).2
  refine ⟨NewLSHforest_configured ops sigSize jsThresh, ?_, ?_, Or.inl hmaps, Or.inl htabs⟩
  · intro table h
    rw [hmaps table h]
    simp
  · intro table h
    rw [htabs table h]
    simp

theorem Add_inv {K : Type} (self after : LSHforest K) (key : String) (sig : List Nat)
    (hinv : StateInv self) (hlen : self.numHashFuncs * self.numBands ≤ sig.length)
    (hadd : Add self key sig = some after) :
    StateInv after ∧ after.hashTables = self.hashTables ∧
      after.numHashFuncs = self.numHashFuncs ∧ after.numBands = self.numBands ∧
      after.hashValueSize = self.hashValueSize ∧
      (1 ≤ self.numBands → ∀ table ∈ after.initialHashTables, table ≠ []) := by
  obtain ⟨hc, hmaps, htabs, _, hut⟩ := hinv
  obtain ⟨after', hadd', hca, hn, hb, hw, _, hht, _, hl, hget⟩ := Add_get self hc key sig hlen
  rw [hadd] at hadd'
  cases hadd'
  have hfrom : ∀ table' ∈ after.initialHashTables, ∃ i table,
      self.initialHashTables.get? i = some table ∧ i < self.numBands ∧
      table' = addToTable table (bandKey self.hashValueSize self.numHashFuncs sig i) key := by
    intro table' hmem
    obtain ⟨i, hi, hti⟩ := List.getElem_of_mem hmem
    have hil : i < self.initialHashTables.length := by rw [← hl]; exact hi
    have hgi : self.initialHashTables.get? i = some self.initialHashTables[i] := by
      simp [List.get?_eq_getElem?, hil]
    have h2 := (hget i _ hgi).2
    have h3 : after.initialHashTables.get? i = some table' := by
      simp [List.get?_eq_getElem?, hi, hti]
    rw [h3] at h2
    exact ⟨i, _, hgi, by rw [← hc.2.2.1]; exact hil, Option.some.inj h2⟩
  have hne : ∀ table ∈ after.initialHashTables, table ≠ [] := by
    intro table' hmem
    obtain ⟨i, table, _, _, rfl⟩ := hfrom table' hmem
    exact addToTable_ne_nil _ _ _
  refine ⟨⟨hca, ?_, ?_, Or.inr hne, ?_⟩, hht, hn, hb, hw, fun _ => hne⟩
  · intro table' hmem
    obtain ⟨i, table, hgi, hib, rfl⟩ := hfrom table' hmem
    have hold := hmaps table (List.get?_mem hgi)
    refine ⟨addToTable_nodup _ _ _ hold.1, ?_⟩
    intro e he
    rw [hn, hw]
    rcases addToTable_key_mem _ _ _ e he with h1 | h1
    · rw [h1]
      exact bandKey_length _ _ hc.1 sig i (band_bound _ _ _ _ hib hlen)
    · obtain ⟨e', he', hfst⟩ := List.mem_map.mp h1
      rw [← hfst]
      exact hold.2 e' he'
  · rw [hht, hn, hw]
    exact htabs
  · rw [hht]
    exact hut

theorem IndexLoop_tables {hs : List hashTables} {tables : List initialHashTable}
    {hs' : List hashTables} {tables' : List initialHashTable}
    (h : IndexLoop hs tables hs' tables') (hlen : hs.length = tables.length) :
    tables'.length = tables.length ∧ ∀ table ∈ tables', table = [] := by
  induction h with
  | nil tables =>
    have : tables = [] := List.length_eq_zero.mp (by simpa using hlen.symm)
    subst this
    exact ⟨rfl, by simp⟩
  | cons _ _ _ ih =>
    have := ih (by simpa using hlen)
    refine ⟨by simp [this.1], ?_⟩
    intro table hmem
    rcases List.mem_cons.mp hmem with h1 | h1
    · exact h1
    · exact this.2 table h1

theorem IndexRel_inv {K : Type} (self after : LSHforest K) (hinv : StateInv self)
    (hrel : IndexRel self after) :
    StateInv after ∧ after.numHashFuncs = self.numHashFuncs ∧
      after.numBands = self.numBands ∧ after.hashValueSize = self.hashValueSize ∧
      (∀ table ∈ after.initialHashTables, table = []) ∧
      after.hashTables.length = self.hashTables.length ∧
      ∀ i table', after.hashTables.get? i = some table' →
        ∃ old table, self.hashTables.get? i = some old ∧
          self.initialHashTables.get? i = some table ∧
          table'.Perm (old ++ table.map toBand) ∧ table'.Pairwise bandLe := by
  obtain ⟨hc, hmaps, htabs, hum, hut⟩ := hinv
  obtain ⟨hs, tables, hloop, rfl⟩ := hrel
  obtain ⟨hlen, hget⟩ := IndexLoop_get hloop
  obtain ⟨hlen', hempty⟩ := IndexLoop_tables hloop (by rw [hc.2.2.1, hc.2.2.2])
  have hfrom : ∀ table' ∈ hs, ∃ old table, old ∈ self.hashTables ∧
      table ∈ self.initialHashTables ∧ table'.Perm (old ++ table.map toBand) ∧
      table'.Pairwise bandLe := by
    intro table' hmem
    obtain ⟨i, hi, hti⟩ := List.getElem_of_mem hmem
    obtain ⟨old, table, h1, h2, h3, h4⟩ := hget i table' (by
      simp [List.get?_eq_getElem?, hi, hti])
    exact ⟨old, table, List.get?_mem h1, List.get?_mem h2, h3, h4⟩
  refine ⟨⟨⟨hc.1, hc.2.1, hlen'.trans hc.2.2.1, hlen.trans hc.2.2.2⟩, ?_, ?_, Or.inl hempty, ?_⟩,
    rfl, rfl, rfl, hempty, hlen, hget⟩
  · intro table hmem
    rw [hempty table hmem]
    simp
  · intro table' hmem
    obtain ⟨old, table, hold, htable, hperm, hsorted⟩ := hfrom table' hmem
    refine ⟨hsorted, ?_⟩
    intro e he
    rcases List.mem_append.mp (hperm.subset he) with h1 | h1
    · exact (htabs old hold).2 e h1
    · obtain ⟨entry, hentry, rfl⟩ := List.mem_map.mp h1
      exact (hmaps table htable).2 entry hentry
  · rcases hut with hall | hall
    · rcases hum with hm | hm
      · left
        intro table' hmem
        obtain ⟨old, table, hold, htable, hperm, _⟩ := hfrom table' hmem
        rw [hall old hold, hm table htable] at hperm
        exact List.Perm.eq_nil (by simpa using hperm)
      · right
        intro table' hmem hnil
        obtain ⟨old, table, hold, htable, hperm, _⟩ := hfrom table' hmem
        rw [hnil] at hperm
        have := List.Perm.nil_eq hperm
        have hnil' : table = [] := by
          have h2 : old ++ table.map toBand = [] := this.symm
          simpa using (List.append_eq_nil.mp h2).2
        exact hm table htable hnil'
    · right
      intro table' hmem hnil
      obtain ⟨old, table, hold, htable, hperm, _⟩ := hfrom table' hmem
      rw [hnil] at hperm
      have h2 : old ++ table.map toBand = [] := (List.Perm.nil_eq hperm).symm
      exact hall old hold (List.append_eq_nil.mp h2).1

theorem Reachable_inv {K : Type} (ops : FloatOps) (sigSize : Int) (jsThresh : F64)
    (self : LSHforest K) (h : Reachable ops sigSize jsThresh self) :
    StateInv self ∧
      self.numHashFuncs = (NewLSHforest ops sigSize jsThresh : LSHforest K).numHashFuncs ∧
      self.numBands = (NewLSHforest ops sigSize jsThresh : LSHforest K).numBands ∧
      self.hashValueSize = 4 := by
  induction h with
  | new => exact ⟨NewLSHforest_inv ops sigSize jsThresh, rfl, rfl, rfl⟩
  | add self after key sig _ hlen hadd ih =>
    obtain ⟨hinv, _, hn, hb, hw, _⟩ := Add_inv self after key sig ih.1 (le_of_eq hlen.symm) hadd
    exact ⟨hinv, hn.trans ih.2.1, hb.trans ih.2.2.1, hw.trans ih.2.2.2⟩
  | index self after _ hrel ih =>
    obtain ⟨hinv, hn, hb, hw, _⟩ := IndexRel_inv self after ih.1 hrel
    exact ⟨hinv, hn.trans ih.2.1, hb.trans ih.2.2.1, hw.trans ih.2.2.2⟩

/-! ## Lemmas: a valid configuration has a band -/

theorem optimiseInner_keeps (ops : FloatOps) (sigSize : Int) (jsThresh : F64) (l : Nat)
    (hl : 1 ≤ l) :
    ∀ (ks : List Nat) (st : optimiseState), (∀ k ∈ ks, 1 ≤ k) →
      1 ≤ st.optimumNumHashFuncs ∧ 1 ≤ st.optimumNumBands →
      1 ≤ (optimiseInner ops sigSize jsThresh l ks st).optimumNumHashFuncs ∧
        1 ≤ (optimiseInner ops sigSize jsThresh l ks st).optimumNumBands
  | [], _, _, h => h
  | k :: ks, st, hks, h => by
    rw [optimiseInner_cons]
    split_ifs with hbreak
    · exact h
    · apply optimiseInner_keeps ops sigSize jsThresh l hl ks _
        (fun k' hk' => hks k' (List.mem_cons_of_mem _ hk'))
      rcases optimiseStep_cases ops jsThresh l k st with hs | ⟨hk, hl'⟩
      · rw [hs]; exact h
      · rw [hk, hl']
        exact ⟨hks k (List.mem_cons_self _ _), hl⟩

theorem optimiseOuter_keeps (ops : FloatOps) (sigSize : Int) (jsThresh : F64)
    (ks : List Nat) (hks : ∀ k ∈ ks, 1 ≤ k) :
    ∀ (ls : List Nat) (st : optimiseState), (∀ l ∈ ls, 1 ≤ l) →
      1 ≤ st.optimumNumHashFuncs ∧ 1 ≤ st.optimumNumBands →
      1 ≤ (ls.foldl (fun st l => optimiseInner ops sigSize jsThresh l ks st)
          st).optimumNumHashFuncs ∧
        1 ≤ (ls.foldl (fun st l => optimiseInner ops sigSize jsThresh l ks st)
          st).optimumNumBands
  | [], _, _, h => h
  | l :: ls, st, hls, h =>
    optimiseOuter_keeps ops sigSize jsThresh ks hks ls _
      (fun l' hl' => hls l' (List.mem_cons_of_mem _ hl'))
      (optimiseInner_keeps ops sigSize jsThresh l (hls l (List.mem_cons_self _ _)) ks st hks h)

/-- For `sigSize ≥ 1`, when the error computed for one band of one row is below
`math.MaxFloat64`, `optimise` returns at least one band of at least one row. -/
theorem optimiseScan_has_band (ops : FloatOps) (sigSize : Int) (jsThresh : F64)
    (hL : 1 ≤ sigSize) (hone : F64.gt maxFloat64 (currErr ops jsThresh 1 1) = true) :
    1 ≤ (optimiseScan ops sigSize jsThresh).optimumNumHashFuncs ∧
      1 ≤ (optimiseScan ops sigSize jsThresh).optimumNumBands := by
  obtain ⟨m, hm⟩ : ∃ m, sigSize.toNat = m + 1 := ⟨sigSize.toNat - 1, by omega⟩
  have hfirst : int64 (((1 : Nat) : Int) * ((1 : Nat) : Int)) = 1 := by
    simp [int64]
  have hnb : ¬ int64 (((1 : Nat) : Int) * ((1 : Nat) : Int)) > sigSize := by
    rw [hfirst]; omega
  have hstep : ∀ st : optimiseState, st.minError = maxFloat64 →
      1 ≤ (optimiseStep ops jsThresh 1 1 st).optimumNumHashFuncs ∧
        1 ≤ (optimiseStep ops jsThresh 1 1 st).optimumNumBands := by
    intro st hst
    have : F64.gt st.minError (ops.add (ops.probFalseNegative 1 1 jsThresh precision)
        (ops.probFalsePositive 1 1 jsThresh precision)) = true := by rw [hst]; exact hone
    simp only [optimiseStep, this, if_true, le_refl, and_self]
  have hks : ∀ k ∈ List.range' 1 (m + 1), 1 ≤ k := fun k hk => (List.mem_range'_1.mp hk).1
  have hinner : ∀ st : optimiseState, st.minError = maxFloat64 →
      1 ≤ (optimiseInner ops sigSize jsThresh 1 (List.range' 1 (m + 1))
          st).optimumNumHashFuncs ∧
        1 ≤ (optimiseInner ops sigSize jsThresh 1 (List.range' 1 (m + 1))
          st).optimumNumBands := by
    intro st hst
    rw [List.range'_succ, optimiseInner_cons, if_neg hnb]
    exact optimiseInner_keeps ops sigSize jsThresh 1 (le_refl _) _ _
      (fun k hk => by have := (List.mem_range'_1.mp hk).1; omega) (hstep st hst)
  unfold optimiseScan
  rw [hm]
  generalize hks' : List.range' 1 (m + 1) = ks at hks hinner
  cases hls : ks with
  | nil => rw [hls] at hks'; simp [List.range'_succ] at hks'
  | cons l ls =>
    rw [List.foldl_cons]
    have hl1 : l = 1 := by
      rw [hls, List.range'_succ] at hks'
      exact (List.cons.inj hks').1.symm
    rw [← hls]
    apply optimiseOuter_keeps ops sigSize jsThresh ks hks ls
    · intro l' hl'
      exact hks l' (by rw [hls]; exact List.mem_cons_of_mem _ hl')
    · rw [hl1]
      exact hinner _ rfl

theorem NewLSHforest_has_band {K : Type} (ops : FloatOps) (sigSize : Int) (jsThresh : F64)
    (hL : 1 ≤ sigSize) (hone : F64.gt maxFloat64 (currErr ops jsThresh 1 1) = true) :
    1 ≤ (NewLSHforest ops sigSize jsThresh : LSHforest K).numBands :=
  (optimiseScan_has_band ops sigSize jsThresh hL hone).2

/-! ## Lemmas: `Dump` -/

/-- The run of `Dump` that `Dump` models is one of the runs `DumpRel` allows. -/
theorem Dump_sound {K : Type} (self : LSHforest K) (path : String) (fs : FileSystem K) :
    DumpRel self path fs (Dump self path fs) := by
  unfold Dump
  cases h0 : self.hashTables.get? 0 with
  | none => exact DumpRel.panic h0
  | some first =>
    simp only
    by_cases hlen : first.length ≠ 0
    · rw [if_pos hlen]
      exact DumpRel.refused first h0 hlen
    · rw [if_neg hlen]
      have hlen' : first.length = 0 := by simpa using hlen
      by_cases hcr : fs.creatable path = true
      · rw [if_pos hcr]
        exact DumpRel.written first self.initialHashTables self.KeyLookup h0 hlen' hcr
          (List.forall₂_same.mpr (fun _ _ => List.Perm.refl _)) (List.Perm.refl _)
      · rw [if_neg hcr]
        exact DumpRel.createFailed first h0 hlen' (by simpa using hcr)

/-- When the indexed table of band 0 has entries, `Dump` returns its error and leaves the
file system as it was, in every run. -/
theorem Dump_refused {K : Type} (self : LSHforest K) (first : hashTables)
    (h0 : self.hashTables.get? 0 = some first) (hne : first ≠ []) (path : String)
    (fs : FileSystem K) :
    Dump self path fs = some (some goError.afterIndexing, fs) ∧
      ∀ out, DumpRel self path fs out → out = some (some goError.afterIndexing, fs) := by
  have hlen : first.length ≠ 0 := fun h => hne (List.length_eq_zero.mp h)
  constructor
  · unfold Dump
    rw [h0]
    simp only
    rw [if_pos hlen]
  · intro out hout
    cases hout with
    | panic h => rw [h0] at h; cases h
    | refused _ _ _ => rfl
    | createFailed f h hl _ =>
      rw [h0] at h; cases h; exact absurd hl hlen
    | written f _ _ h hl _ _ _ =>
      rw [h0] at h; cases h; exact absurd hl hlen

/-- When the indexed table of band 0 is empty and the file can be created, `Dump` creates
the file and writes one value per band and the key lookup, in every run. -/
theorem Dump_written {K : Type} (self : LSHforest K)
    (h0 : self.hashTables.get? 0 = some []) (path : String) (fs : FileSystem K)
    (hcr : fs.creatable path = true) :
    Dump self path fs = some (none, fs.write path
        (self.initialHashTables.map gobValue.table ++ [gobValue.keyLookup self.KeyLookup])) ∧
      ∀ out, DumpRel self path fs out → ∃ after values, out = some (none, after) ∧
        after.files path = some values ∧ values.length = self.initialHashTables.length + 1 := by
  constructor
  · unfold Dump
    rw [h0]
    simp only [List.length_nil, ne_eq, not_true_eq_false, if_false, hcr, if_true]
  · intro out hout
    cases hout with
    | panic h => rw [h0] at h; cases h
    | refused f h hl =>
      rw [h0] at h; cases h; simp at hl
    | createFailed f _ _ hc => rw [hcr] at hc; cases hc
    | written f tables lookup _ _ _ hperm _ =>
      refine ⟨fs.write path (tables.map gobValue.table ++ [gobValue.keyLookup lookup]),
        tables.map gobValue.table ++ [gobValue.keyLookup lookup], rfl,
        by simp [FileSystem.write], ?_⟩
      simp [hperm.length_eq]

/-! ## Theorems: `Dump` and the indexed tables -/

theorem Built_first_table {K : Type} (built indexed : LSHforest K)
    (items : List (String × List Nat)) (hb : Built built items) (hbands : 1 ≤ built.numBands)
    (hrel : IndexRel built indexed) :
    ∃ first, indexed.hashTables.get? 0 = some first ∧ (first = [] ↔ items = []) := by
  obtain ⟨hc, hht, htab⟩ := hb
  obtain ⟨hs, tables, hloop, rfl⟩ := hrel
  obtain ⟨hlen, hget⟩ := IndexLoop_get hloop
  have h0 : 0 < hs.length := by rw [hlen, hc.2.2.2]; exact hbands
  have hg : hs.get? 0 = some hs[0] := by simp [List.get?_eq_getElem?, h0]
  obtain ⟨old, table, hold, htable, hperm, _⟩ := hget 0 _ hg
  have hnil : old = [] := hht old (List.get?_mem hold)
  subst hnil
  rw [List.nil_append] at hperm
  obtain ⟨_, _, hmap⟩ := htab 0 table htable
  refine ⟨hs[0], hg, ?_⟩
  constructor
  · intro hfirst
    rw [hfirst] at hperm
    have htnil : table = [] := by
      have := (List.Perm.nil_eq hperm).symm
      simpa using this
    by_contra hitems
    obtain ⟨p, rest, hp⟩ := List.exists_cons_of_ne_nil hitems
    have hmem : p.1 ∈ bucket built.hashValueSize built.numHashFuncs items 0
        (bandKey built.hashValueSize built.numHashFuncs p.2 0) :=
      (mem_bucket _ _ _ _ _ _).mpr ⟨p, by rw [hp]; exact List.mem_cons_self _ _, rfl, rfl⟩
    have hg' := hmap (bandKey built.hashValueSize built.numHashFuncs p.2 0)
    rw [htnil, if_neg (List.ne_nil_of_mem hmem)] at hg'
    simp [mapGet] at hg'
  · intro hitems
    subst hitems
    have htnil : table = [] := by
      cases table with
      | nil => rfl
      | cons e rest =>
        have hg' := hmap e.1
        simp [mapGet, bucket] at hg'
    rw [htnil] at hperm
    exact List.Perm.eq_nil (by simpa using hperm)

/-- C11, as amended. `Dump` returns its error, and leaves the file system untouched,
whenever the indexed table of band 0 has entries: in particular on every forest with a
band that is indexed after at least one `Add`. On a forest from `NewLSHforest` with a band
that is indexed with nothing added, the indexed tables are empty and `Dump` creates the
file (when `os.Create` succeeds) and writes to it, in every run. -/
theorem C11_Dump_after_Index {K : Type} :
    (∀ (self : LSHforest K) (first : hashTables) (path : String) (fs : FileSystem K),
      self.hashTables.get? 0 = some first → first ≠ [] →
      Dump self path fs = some (some goError.afterIndexing, fs) ∧
        ∀ out, DumpRel self path fs out → out = some (some goError.afterIndexing, fs)) ∧
    (∀ (built indexed : LSHforest K) (items : List (String × List Nat)) (path : String)
      (fs : FileSystem K),
      Built built items → items ≠ [] → 1 ≤ built.numBands → IndexRel built indexed →
      Dump indexed path fs = some (some goError.afterIndexing, fs) ∧
        ∀ out, DumpRel indexed path fs out → out = some (some goError.afterIndexing, fs)) ∧
    (∀ (ops : FloatOps) (sigSize : Int) (jsThresh : F64) (indexed : LSHforest K)
      (path : String) (fs : FileSystem K),
      1 ≤ (NewLSHforest ops sigSize jsThresh : LSHforest K).numBands →
      IndexRel (NewLSHforest ops sigSize jsThresh) indexed → fs.creatable path = true →
      ∀ out, DumpRel indexed path fs out → ∃ after values, out = some (none, after) ∧
        after.files path = some values ∧
        values.length = indexed.initialHashTables.length + 1) := by
  refine ⟨?_, ?_, ?_⟩
  · intro self first path fs h0 hne
    exact Dump_refused self first h0 hne path fs
  · intro built indexed items path fs hb hitems hbands hrel
    obtain ⟨first, h0, hiff⟩ := Built_first_table built indexed items hb hbands hrel
    exact Dump_refused indexed first h0 (fun h => hitems (hiff.mp h)) path fs
  · intro ops sigSize jsThresh indexed path fs hbands hrel hcr
    obtain ⟨first, h0, hiff⟩ := Built_first_table _ indexed []
      (NewLSHforest_built ops sigSize jsThresh) hbands hrel
    rw [hiff.mpr rfl] at h0
    exact (Dump_written indexed h0 path fs hcr).2

/-- C12. In every forest state reachable from `NewLSHforest(L, t)` with `L ≥ 1` and `t` in
`(0,1)` (and an error below `math.MaxFloat64` computed for one band of one row) by `Add`
calls with signatures of the configured length and `Index` calls: if the indexed table of
any band has entries, then so has that of band 0, and `Dump` returns its error and leaves
the file system untouched, in every run. -/
theorem C12_Dump_any_band {K : Type} (ops : FloatOps) (L : Int) (t : F64)
    (self : LSHforest K) (hL : 1 ≤ L) (_ht : isThreshold t)
    (hone : F64.gt maxFloat64 (currErr ops t 1 1) = true)
    (hreach : Reachable ops L t self)
    (hany : ∃ table ∈ self.hashTables, table ≠ []) (path : String) (fs : FileSystem K) :
    (∃ first, self.hashTables.get? 0 = some first ∧ first ≠ []) ∧
      Dump self path fs = some (some goError.afterIndexing, fs) ∧
      ∀ out, DumpRel self path fs out → out = some (some goError.afterIndexing, fs) := by
  obtain ⟨hinv, _, hb, _⟩ := Reachable_inv ops L t self hreach
  obtain ⟨hc, _, _, _, hut⟩ := hinv
  have hbands : 1 ≤ self.numBands := by
    rw [hb]; exact NewLSHforest_has_band ops L t hL hone
  have h0 : 0 < self.hashTables.length := by rw [hc.2.2.2]; exact hbands
  have hg : self.hashTables.get? 0 = some self.hashTables[0] := by
    simp [List.get?_eq_getElem?, h0]
  have hne : self.hashTables[0] ≠ [] := by
    rcases hut with hall | hall
    · obtain ⟨table, hmem, htne⟩ := hany
      exact absurd (hall table hmem) htne
    · exact hall _ (List.getElem_mem h0)
  exact ⟨⟨_, hg, hne⟩, Dump_refused self _ hg hne path fs⟩

/-! ## Lemmas: `Load` of a dumped file -/

theorem mapSet_absent (m : initialHashTable) (k : List Nat) (v : graphKeys)
    (h : k ∉ m.map Prod.fst) : mapSet m k v = m ++ [(k, v)] := by
  induction m with
  | nil => rfl
  | cons e rest ih =>
    obtain ⟨k', v'⟩ := e
    have hne : ¬ k' = k := fun e => h (by simp [e])
    have hrest : k ∉ rest.map Prod.fst := fun hm => h (by simp at hm ⊢; exact Or.inr hm)
    simp [mapSet, hne, ih hrest]

theorem decodeTable_append (entries : initialHashTable) :
    ∀ (table : initialHashTable), ((table ++ entries).map Prod.fst).Nodup →
      decodeTable table entries = table ++ entries := by
  induction entries with
  | nil => intro table _; simp [decodeTable]
  | cons e rest ih =>
    intro table hnd
    have habs : e.1 ∉ table.map Prod.fst := by
      intro hmem
      rw [List.map_append, List.map_cons] at hnd
      have := (List.nodup_append.mp hnd).2.2
      exact this hmem (List.mem_cons_self _ _) 
    have hstep : decodeTable table (e :: rest) = decodeTable (mapSet table e.1 e.2) rest := rfl
    rw [hstep, mapSet_absent _ _ _ habs, ih _ (by simpa using hnd)]
    simp

theorem lookupSet_absent {K : Type} (m : KeyLookupMap K) (k : String) (v : K)
    (h : k ∉ m.map Prod.fst) : lookupSet m k v = m ++ [(k, v)] := by
  induction m with
  | nil => rfl
  | cons e rest ih =>
    obtain ⟨k', v'⟩ := e
    have hne : ¬ k' = k := fun e => h (by simp [e])
    have hrest : k ∉ rest.map Prod.fst := fun hm => h (by simp at hm ⊢; exact Or.inr hm)
    simp [lookupSet, hne, ih hrest]

theorem decodeLookup_append {K : Type} (entries : KeyLookupMap K) :
    ∀ (lookup : KeyLookupMap K), ((lookup ++ entries).map Prod.fst).Nodup →
      decodeLookup lookup entries = lookup ++ entries := by
  induction entries with
  | nil => intro lookup _; simp [decodeLookup]
  | cons e rest ih =>
    intro lookup hnd
    have habs : e.1 ∉ lookup.map Prod.fst := by
      intro hmem
      rw [List.map_append, List.map_cons] at hnd
      have := (List.nodup_append.mp hnd).2.2
      exact this hmem (List.mem_cons_self _ _)
    have hstep : decodeLookup lookup (e :: rest) =
        decodeLookup (lookupSet lookup e.1 e.2) rest := rfl
    rw [hstep, lookupSet_absent _ _ _ habs, ih _ (by simpa using hnd)]
    simp

theorem lookup_mem_iff {K : Type} (m : KeyLookupMap K) (h : (m.map Prod.fst).Nodup)
    (k : String) (v : K) : (k, v) ∈ m ↔ lookupGet m k = some v := by
  induction m with
  | nil => simp [lookupGet]
  | cons e rest ih =>
    obtain ⟨k', v'⟩ := e
    rw [List.map_cons, List.nodup_cons] at h
    by_cases hk : k' = k
    · subst hk
      simp only [lookupGet, if_true, List.mem_cons, Prod.mk.injEq, true_and, Option.some.injEq]
      constructor
      · rintro (h1 | h1)
        · exact h1.symm
        · exact absurd (List.mem_map_of_mem Prod.fst h1) h.1
      · intro h1
        exact Or.inl h1.symm
    · have hk' : ¬ k = k' := fun e => hk e.symm
      simp only [lookupGet, hk, if_false, List.mem_cons, Prod.mk.injEq, hk', false_and,
        false_or]
      exact ih h.2

theorem option_ext {α : Type} (a b : Option α) (h : ∀ v, a = some v ↔ b = some v) : a = b := by
  cases a with
  | none =>
    cases b with
    | none => rfl
    | some y => exact absurd ((h y).mpr rfl) (by simp)
  | some x => exact ((h x).mp rfl).symm

theorem mapGet_perm (m m' : initialHashTable) (hp : m'.Perm m) (h : (m.map Prod.fst).Nodup)
    (k : List Nat) : mapGet m' k = mapGet m k := by
  have h' : (m'.map Prod.fst).Nodup := (hp.map Prod.fst).nodup_iff.mpr h
  apply option_ext
  intro v
  rw [← mem_iff_mapGet m' h', ← mem_iff_mapGet m h]
  exact hp.mem_iff

theorem lookupGet_perm {K : Type} (m m' : KeyLookupMap K) (hp : m'.Perm m)
    (h : (m.map Prod.fst).Nodup) (k : String) : lookupGet m' k = lookupGet m k := by
  have h' : (m'.map Prod.fst).Nodup := (hp.map Prod.fst).nodup_iff.mpr h
  apply option_ext
  intro v
  rw [← lookup_mem_iff m' h', ← lookup_mem_iff m h]
  exact hp.mem_iff

theorem loadLoop_fresh {K : Type} (rest : List (gobValue K)) :
    ∀ (tables : List initialHashTable), (∀ table ∈ tables, (table.map Prod.fst).Nodup) →
      loadLoop (List.replicate tables.length []) (tables.map gobValue.table ++ rest) =
        (none, tables, rest)
  | [], _ => rfl
  | table :: tables, h => by
    have ih := loadLoop_fresh rest tables (fun t ht => h t (List.mem_cons_of_mem _ ht))
    have hd : decodeTable [] table = table := by
      have := decodeTable_append table [] (by simpa using h table (List.mem_cons_self _ _))
      simpa using this
    have ih' : loadLoop (List.replicate tables.length [])
        ((List.map gobValue.table tables).append rest) = (none, tables, rest) := ih
    simp only [List.length_cons, List.replicate_succ, List.map_cons, List.cons_append, loadLoop,
      ih', hd]

theorem TableHolds_perm (w n : Nat) (items : List (String × List Nat)) (i : Nat)
    (table table' : initialHashTable) (hp : table'.Perm table)
    (h : TableHolds w n items i table) : TableHolds w n items i table' := by
  obtain ⟨hnd, hwidth, hget⟩ := h
  refine ⟨(hp.map Prod.fst).nodup_iff.mpr hnd, fun e he => hwidth e (hp.subset he), ?_⟩
  intro hashed
  rw [mapGet_perm table table' hp hnd hashed]
  exact hget hashed

theorem forall₂_get {α β : Type} (R : α → β → Prop) :
    ∀ (l : List α) (l' : List β), List.Forall₂ R l l' → ∀ i b, l'.get? i = some b →
      ∃ a, l.get? i = some a ∧ R a b
  | _, _, List.Forall₂.nil, i, b, h => by simp at h
  | _, _, List.Forall₂.cons hr hrest, 0, b, h => by
    simp only [List.get?_cons_zero, Option.some.injEq] at h
    subst h
    exact ⟨_, rfl, hr⟩
  | _, _, List.Forall₂.cons _ hrest, i + 1, b, h => by
    simpa using forall₂_get R _ _ hrest i b (by simpa using h)

/-- What `Load` makes of a file that `Dump` wrote from `source`, when it is read into a
forest of the same configuration whose maps and key lookup are empty. -/
theorem Load_dumped {K : Type} (source fresh : LSHforest K) (path : String)
    (fs fs' : FileSystem K)
    (hmaps : ∀ table ∈ source.initialHashTables, (table.map Prod.fst).Nodup)
    (hlookup : (source.KeyLookup.map Prod.fst).Nodup)
    (hfresh : fresh.initialHashTables = List.replicate source.initialHashTables.length [])
    (hfl : fresh.KeyLookup = [])
    (hdump : DumpRel source path fs (some (none, fs'))) :
    ∃ tables lookup, Load fresh path fs' =
        (none, { fresh with initialHashTables := tables, KeyLookup := lookup }) ∧
      List.Forall₂ (fun entries table => entries.Perm table) tables source.initialHashTables ∧
      lookup.Perm source.KeyLookup := by
  generalize hout : some ((none : Option goError), fs') = out at hdump
  cases hdump with
  | panic _ => cases hout
  | refused _ _ _ => cases hout
  | createFailed _ _ _ _ => cases hout
  | written first tables lookup _ _ _ hperm hlperm =>
    simp only [Option.some.injEq, Prod.mk.injEq, true_and] at hout
    subst hout
    refine ⟨tables, lookup, ?_, hperm, hlperm⟩
    have hnd : ∀ table ∈ tables, (table.map Prod.fst).Nodup := by
      intro table hmem
      obtain ⟨i, hi, hti⟩ := List.getElem_of_mem hmem
      have hi' : i < source.initialHashTables.length := by rw [← hperm.length_eq]; exact hi
      obtain ⟨a, ha, hpa⟩ := forall₂_get _ _ _ hperm i source.initialHashTables[i]
        (by simp [List.get?_eq_getElem?, hi'])
      have hat : a = table := by
        have h2 : tables.get? i = some table := by simp [List.get?_eq_getElem?, hi, hti]
        rw [h2] at ha
        exact (Option.some.inj ha).symm
      subst hat
      exact (hpa.map Prod.fst).nodup_iff.mpr (hmaps _ (List.getElem_mem hi'))
    have hlnd : (lookup.map Prod.fst).Nodup := (hlperm.map Prod.fst).nodup_iff.mpr hlookup
    have hloop := loadLoop_fresh [gobValue.keyLookup lookup] tables hnd
    have hdl : decodeLookup ([] : KeyLookupMap K) lookup = lookup := by
      have := decodeLookup_append lookup [] (by simpa using hlnd)
      simpa using this
    unfold Load
    simp only [FileSystem.write, if_true]
    rw [hfresh, ← hperm.length_eq, hloop]
    simp only [hfl, hdl]

theorem Built_setLookup {K : Type} (built : LSHforest K) (items : List (String × List Nat))
    (lookup : KeyLookupMap K) (h : Built built items) :
    Built { built with KeyLookup := lookup } items := h

/-- C13. Round trip: for a source forest built from `NewLSHforest` (with a band) by `Add`
calls with signatures of the configured length, never indexed, with any key lookup, `Dump`
to a path where the file can be created succeeds, and for every file it can write, `Load`
of that path into a fresh forest of the same configuration succeeds and yields a forest
whose buildable maps and key lookup hold what the source's hold; after `Index` on both,
`Query(s)` returns on both and returns the same set of keys, for every signature `s` of
the configured length, every run of `Index` and every schedule. -/
theorem C13_Dump_Load_round_trip {K : Type} (ops : FloatOps) (sigSize : Int) (jsThresh : F64)
    (items : List (String × List Nat)) (built source : LSHforest K) (lookup : KeyLookupMap K)
    (path : String) (fs : FileSystem K)
    (hbands : 1 ≤ (NewLSHforest ops sigSize jsThresh : LSHforest K).numBands)
    (hitems : ∀ p ∈ items, p.2.length =
      (NewLSHforest ops sigSize jsThresh : LSHforest K).numHashFuncs *
        (NewLSHforest ops sigSize jsThresh : LSHforest K).numBands)
    (hbuilt : addAll (NewLSHforest ops sigSize jsThresh) items = some built)
    (hsource : source = { built with KeyLookup := lookup })
    (hlookup : (lookup.map Prod.fst).Nodup) (hcr : fs.creatable path = true) :
    (∃ fs', Dump source path fs = some (none, fs')) ∧
      ∀ fs', DumpRel source path fs (some (none, fs')) →
        ∃ loaded, Load (NewLSHforest ops sigSize jsThresh) path fs' = (none, loaded) ∧
          loaded.initialHashTables.length = source.initialHashTables.length ∧
          (∀ i table, source.initialHashTables.get? i = some table →
            ∃ table', loaded.initialHashTables.get? i = some table' ∧
              ∀ k, mapGet table' k = mapGet table k) ∧
          (∀ k, lookupGet loaded.KeyLookup k = lookupGet source.KeyLookup k) ∧
          ∀ indexedS indexedL, IndexRel source indexedS → IndexRel loaded indexedL →
            ∀ s : List Nat, s.length = source.numHashFuncs * source.numBands →
              (∃ result, Query indexedS s = some result) ∧
              (∃ result, Query indexedL s = some result) ∧
              ∀ resultS resultL, QueryResult indexedS s resultS →
                QueryResult indexedL s resultL → ∀ key, key ∈ resultS ↔ key ∈ resultL := by
  obtain ⟨built', hall, hb, hn, hbn, hw⟩ := addAll_built items
    (NewLSHforest ops sigSize jsThresh : LSHforest K) []
    (NewLSHforest_built ops sigSize jsThresh) (fun p hp => le_of_eq (hitems p hp).symm)
  rw [hbuilt] at hall
  cases hall
  rw [List.nil_append] at hb
  have hbs : Built source items := by rw [hsource]; exact Built_setLookup built items lookup hb
  have hsn : source.numHashFuncs = built.numHashFuncs := by rw [hsource]
  have hsb : source.numBands = built.numBands := by rw [hsource]
  have hsw : source.hashValueSize = built.hashValueSize := by rw [hsource]
  obtain ⟨hc, hht, htab⟩ := hbs
  have h0 : source.hashTables.get? 0 = some [] := by
    have hl : 0 < source.hashTables.length := by rw [hc.2.2.2, hsb, hbn]; exact hbands
    have hg : source.hashTables.get? 0 = some source.hashTables[0] := by
      simp [List.get?_eq_getElem?, hl]
    rw [hg, hht _ (List.getElem_mem hl)]
  refine ⟨⟨_, (Dump_written source h0 path fs hcr).1⟩, ?_⟩
  intro fs' hdump
  have hmaps : ∀ table ∈ source.initialHashTables, (table.map Prod.fst).Nodup := by
    intro table hmem
    obtain ⟨i, hi, hti⟩ := List.getElem_of_mem hmem
    exact (htab i table (by simp [List.get?_eq_getElem?, hi, hti])).1
  have hfreshc := NewLSHforest_configured (K := K) ops sigSize jsThresh
  obtain ⟨tables, lookup', hload, hperm, hlperm⟩ := Load_dumped source
    (NewLSHforest ops sigSize jsThresh) path fs fs' hmaps
    (by rw [hsource]; exact hlookup)
    (by
      have : source.initialHashTables.length =
          (NewLSHforest ops sigSize jsThresh : LSHforest K).numBands := by
        rw [hc.2.2.1, hsb, hbn]
      rw [this]
      rfl)
    rfl hdump
  have hlen : tables.length = source.initialHashTables.length := hperm.length_eq
  have hbl : Built ({ (NewLSHforest ops sigSize jsThresh : LSHforest K) with
      initialHashTables := tables, KeyLookup := lookup' }) items := by
    refine ⟨⟨hfreshc.1, hfreshc.2.1, ?_, hfreshc.2.2.2⟩, ?_, ?_⟩
    · show tables.length = (NewLSHforest ops sigSize jsThresh : LSHforest K).numBands
      rw [hlen, hc.2.2.1, hsb, hbn]
    · intro h hh
      exact (NewLSHforest_built (K := K) ops sigSize jsThresh).2.1 h hh
    · intro i table' hi
      have hil : i < source.initialHashTables.length := by
        rw [← hlen]; exact (List.get?_eq_some.mp hi).1
      obtain ⟨a, ha, hpa⟩ := forall₂_get _ _ _ hperm i source.initialHashTables[i]
        (by simp [List.get?_eq_getElem?, hil])
      have hat : a = table' := by
        have h2 : tables.get? i = some table' := hi
        rw [h2] at ha
        exact (Option.some.inj ha).symm
      subst hat
      have hold := htab i source.initialHashTables[i] (by simp [List.get?_eq_getElem?, hil])
      rw [hsw, hsn, hw, hn] at hold
      exact TableHolds_perm _ _ _ _ _ _ hpa hold
  refine ⟨_, hload, hlen, ?_, ?_, ?_⟩
  · intro i table hi
    have hil : i < tables.length := by rw [hlen]; exact (List.get?_eq_some.mp hi).1
    obtain ⟨a, ha, hpa⟩ := forall₂_get _ _ _ hperm i table hi
    exact ⟨a, ha, fun k => mapGet_perm table a hpa
      (hmaps table (List.get?_mem hi)) k⟩
  · intro k
    exact lookupGet_perm _ _ hlperm (by rw [hsource]; exact hlookup) k
  · intro indexedS indexedL hrelS hrelL s hs
    obtain ⟨hxS, hnS, hbS, hwS, _⟩ := IndexRel_indexed source indexedS items
      ⟨hc, hht, htab⟩ hrelS
    obtain ⟨hxL, hnL, hbL, hwL, _⟩ := IndexRel_indexed _ indexedL items hbl hrelL
    have hqS := Query_indexed indexedS items hxS s (by rw [hnS, hbS]; exact le_of_eq hs.symm)
    have hqL := Query_indexed indexedL items hxL s (by
      rw [hnL, hbL]
      show (NewLSHforest ops sigSize jsThresh : LSHforest K).numHashFuncs *
        (NewLSHforest ops sigSize jsThresh : LSHforest K).numBands ≤ s.length
      rw [← hn, ← hbn, ← hsn, ← hsb]
      exact le_of_eq hs.symm)
    refine ⟨hqS.1, hqL.1, ?_⟩
    intro resultS resultL hrS hrL key
    rw [hqS.2 resultS hrS key, hqL.2 resultL hrL key, hnS, hbS, hwS, hnL, hbL, hwL]
    show _ ↔ ∃ p ∈ items, p.1 = key ∧ ∃ i,
      i < (NewLSHforest ops sigSize jsThresh : LSHforest K).numBands ∧
      bandKey (NewLSHforest ops sigSize jsThresh : LSHforest K).hashValueSize
        (NewLSHforest ops sigSize jsThresh : LSHforest K).numHashFuncs p.2 i =
      bandKey (NewLSHforest ops sigSize jsThresh : LSHforest K).hashValueSize
        (NewLSHforest ops sigSize jsThresh : LSHforest K).numHashFuncs s i
    rw [hsn, hsb, hsw, hn, hbn, hw]

/-! ## Theorems: `Add` after `Index`, empty tables, degenerate forests -/

/-- C14. For every forest state as `NewLSHforest` configures it (indexed or not), every
item key and every signature of the configured length, `Add` returns, and for every query
signature `s` the results `Query(s)` can return afterwards are those it could return
before: an insert after indexing has no effect on queries. -/
theorem C14_Add_after_Index {K : Type} (self : LSHforest K) (key : String) (sig : List Nat)
    (hc : Configured self) (hlen : sig.length = self.numHashFuncs * self.numBands) :
    ∃ after, Add self key sig = some after ∧ after.hashTables = self.hashTables ∧
      ∀ s : List Nat, Query after s = Query self s ∧
        ∀ result, QueryResult after s result ↔ QueryResult self s result := by
  refine ⟨_, Add_eq self hc key sig (le_of_eq hlen.symm), rfl, ?_⟩
  intro s
  exact ⟨rfl, fun result => Iff.rfl⟩

theorem probe_nil (p : Nat) (q : List Nat) : probe p [] q = some [] := rfl

theorem Interleaving_nil {α : Type} {ls : List (List α)} {out : List α}
    (h : Interleaving ls out) (hempty : ∀ l ∈ ls, l = []) : out = [] := by
  cases h with
  | closed _ _ => rfl
  | receive _ i x rest out hget _ =>
    have := hempty _ (List.get?_mem hget)
    cases this

theorem runProbes_empty {K : Type} (self : LSHforest K) (hc : Configured self)
    (hempty : ∀ table ∈ self.hashTables, table = []) (sig : List Nat)
    (hlen : self.numHashFuncs * self.numBands ≤ sig.length) :
    runProbes self sig = some ((List.range self.numBands).map fun _ => []) := by
  unfold runProbes
  rw [hashSignature_eq self hc sig hlen]
  simp only [Option.some_bind]
  apply mapM_some
  intro i hi
  have hib : i < self.numBands := List.mem_range.mp hi
  have hit : i < self.hashTables.length := by rw [hc.2.2.2]; exact hib
  have hgt : self.hashTables.get? i = some [] := by
    have : self.hashTables.get? i = some self.hashTables[i] := by
      simp [List.get?_eq_getElem?, hit]
    rw [this, hempty _ (List.getElem_mem hit)]
  rw [hgt, range_map_get _ _ i hib]
  rfl

/-- C15. On a configured forest whose indexed tables all have zero entries, `Query`
returns the empty result for every signature of the configured length, under every
schedule, and the probe of an empty table returns without any out-of-range access. The
indexed tables are empty in a forest indexed with nothing added and in a forest to which
items were added but which was never indexed. -/
theorem C15_Query_empty_tables {K : Type} :
    (∀ (self : LSHforest K) (s : List Nat), Configured self →
      (∀ table ∈ self.hashTables, table = []) →
      s.length = self.numHashFuncs * self.numBands →
      Query self s = some [] ∧ ∀ result, QueryResult self s result → result = []) ∧
    (∀ (prefixSize : Nat) (queryChunk : List Nat), probe prefixSize [] queryChunk = some []) ∧
    (∀ (ops : FloatOps) (sigSize : Int) (jsThresh : F64) (indexed : LSHforest K),
      IndexRel (NewLSHforest ops sigSize jsThresh) indexed →
      Configured indexed ∧ ∀ table ∈ indexed.hashTables, table = []) ∧
    (∀ (built : LSHforest K) (items : List (String × List Nat)), Built built items →
      Configured built ∧ ∀ table ∈ built.hashTables, table = []) := by
  refine ⟨?_, probe_nil, ?_, ?_⟩
  · intro self s hc hempty hlen
    have hrun := runProbes_empty self hc hempty s (le_of_eq hlen.symm)
    have hall : ∀ l ∈ (List.range self.numBands).map (fun _ => ([] : List String)), l = [] := by
      intro l hl
      obtain ⟨_, _, rfl⟩ := List.mem_map.mp hl
      rfl
    constructor
    · have hflat : ((List.range self.numBands).map fun _ => ([] : List String)).flatten = [] := by
        rw [List.flatten_eq_nil_iff]
        exact hall
      rw [Query, hrun, Option.map_some', hflat]
      rfl
    · intro result hresult
      obtain ⟨stream, hint, hres⟩ := (QueryResult_iff self s _ hrun result).mp hresult
      rw [hres, Interleaving_nil hint hall]
      rfl
  · intro ops sigSize jsThresh indexed hrel
    obtain ⟨hinv, _, _, _, _, _, hget⟩ :=
      IndexRel_inv _ indexed (NewLSHforest_inv ops sigSize jsThresh) hrel
    refine ⟨hinv.1, ?_⟩
    intro table' hmem
    obtain ⟨i, hi, hti⟩ := List.getElem_of_mem hmem
    obtain ⟨old, table, hold, htable, hperm, _⟩ := hget i table' (by
      simp [List.get?_eq_getElem?, hi, hti])
    have h1 : old = [] := (NewLSHforest_built (K := K) ops sigSize jsThresh).2.1 old
      (List.get?_mem hold)
    have h2 : table = [] := by
      have := List.get?_mem htable
      simp only [NewLSHforest] at this
      exact (List.mem_replicate.mp this).2
    rw [h1, h2] at hperm
    exact List.Perm.eq_nil (by simpa using hperm)
  · intro built items hb
    exact ⟨hb.1, hb.2.1⟩

theorem optimiseScan_degenerate (ops : FloatOps) (sigSize : Int) (jsThresh : F64)
    (h : sigSize < 1) :
    optimiseScan ops sigSize jsThresh =
      { optimumNumHashFuncs := 0, optimumNumBands := 0, fp := .fin 0, fn := .fin 0,
        minError := maxFloat64 } := by
  have h0 : sigSize.toNat = 0 := by omega
  unfold optimiseScan
  rw [h0]
  rfl

/-- C16, as amended. For every `sigSize < 1`, `optimise` reports no error: it returns the
geometry `(0, 0)` with both probabilities `0.0`, and `NewLSHforest` returns a forest
without bands. On that forest `Add` accepts every signature and changes nothing, `Query`
returns the empty result for every signature, and `Dump` panics at `self.hashTables[0]`. -/
theorem C16_degenerate_forest {K : Type} (ops : FloatOps) (sigSize : Int) (jsThresh : F64)
    (h : sigSize < 1) :
    optimise ops sigSize jsThresh = (0, 0, .fin 0, .fin 0) ∧
      (NewLSHforest ops sigSize jsThresh : LSHforest K).numBands = 0 ∧
      (NewLSHforest ops sigSize jsThresh : LSHforest K).numHashFuncs = 0 ∧
      (NewLSHforest ops sigSize jsThresh : LSHforest K).initialHashTables = [] ∧
      (NewLSHforest ops sigSize jsThresh : LSHforest K).hashTables = [] ∧
      (∀ (key : String) (sig : List Nat),
        Add (NewLSHforest ops sigSize jsThresh : LSHforest K) key sig =
          some (NewLSHforest ops sigSize jsThresh)) ∧
      (∀ s : List Nat, Query (NewLSHforest ops sigSize jsThresh : LSHforest K) s = some [] ∧
        ∀ result, QueryResult (NewLSHforest ops sigSize jsThresh : LSHforest K) s result →
          result = []) ∧
      ∀ (path : String) (fs : FileSystem K),
        Dump (NewLSHforest ops sigSize jsThresh : LSHforest K) path fs = none := by
  have hscan := optimiseScan_degenerate ops sigSize jsThresh h
  have hopt : optimise ops sigSize jsThresh = (0, 0, .fin 0, .fin 0) := by
    simp only [optimise, hscan]
  have hb : (NewLSHforest ops sigSize jsThresh : LSHforest K).numBands = 0 := by
    simp only [NewLSHforest, hopt]
  have hn : (NewLSHforest ops sigSize jsThresh : LSHforest K).numHashFuncs = 0 := by
    simp only [NewLSHforest, hopt]
  have hm : (NewLSHforest ops sigSize jsThresh : LSHforest K).initialHashTables = [] := by
    simp only [NewLSHforest, hopt, List.replicate_zero]
  have ht : (NewLSHforest ops sigSize jsThresh : LSHforest K).hashTables = [] := by
    simp only [NewLSHforest, hopt, List.replicate_zero]
  have hc := NewLSHforest_configured (K := K) ops sigSize jsThresh
  refine ⟨hopt, hb, hn, hm, ht, ?_, ?_, ?_⟩
  · intro key sig
    rw [Add_eq _ hc key sig (by rw [hb]; simp), hm]
    simp only [List.zipWith_nil_left]
    congr 1
    rw [← hm]
  · intro s
    have hrun : runProbes (NewLSHforest ops sigSize jsThresh : LSHforest K) s = some [] := by
      have := runProbes_empty (NewLSHforest ops sigSize jsThresh : LSHforest K) hc
        (by rw [ht]; simp) s (by rw [hb]; simp)
      rw [hb] at this
      exact this
    constructor
    · rw [Query, hrun]
      rfl
    · intro result hresult
      obtain ⟨stream, hint, hres⟩ := (QueryResult_iff _ s _ hrun result).mp hresult
      rw [hres, Interleaving_nil hint (by simp)]
      rfl
  · intro path fs
    unfold Dump
    rw [ht]
    rfl

/-! ## Theorems: the indexed tables -/

theorem strict_of_sorted_nodup (table : hashTables) (hs : table.Pairwise bandLe)
    (hnd : (table.map fun b => b.HashedSignature).Nodup) : table.Pairwise bandLt := by
  have hne : table.Pairwise (fun a b => a.HashedSignature ≠ b.HashedSignature) := by
    rw [List.Nodup, List.pairwise_map] at hnd
    exact hnd
  refine (hs.and hne).imp ?_
  rintro a b ⟨hle, hab⟩
  unfold bandLt
  by_contra hlt
  have hlt' : strLess a.HashedSignature b.HashedSignature = false := by simpa using hlt
  exact hab (strLess_connex _ _ hlt' hle)

/-- What one run of the loop of `Index` leaves for a band whose indexed table was empty and
whose map has distinct keys. -/
theorem IndexLoop_fresh {hs : List hashTables} {tables : List initialHashTable}
    {hs' : List hashTables} {tables' : List initialHashTable}
    (h : IndexLoop hs tables hs' tables') (hempty : ∀ t ∈ hs, t = [])
    (hnd : ∀ table ∈ tables, (table.map Prod.fst).Nodup) :
    ∀ i table', hs'.get? i = some table' →
      ∃ table, tables.get? i = some table ∧ table'.Perm (table.map toBand) ∧
        table'.Pairwise bandLt := by
  intro i table' hi
  obtain ⟨old, table, hold, htable, hperm, hsorted⟩ := (IndexLoop_get h).2 i table' hi
  rw [hempty old (List.get?_mem hold), List.nil_append] at hperm
  refine ⟨table, htable, hperm, strict_of_sorted_nodup table' hsorted ?_⟩
  have hkeys : (table'.map fun b => b.HashedSignature).Perm (table.map Prod.fst) := by
    have := hperm.map (fun b => b.HashedSignature)
    simpa [List.map_map, Function.comp_def, toBand] using this
  exact hkeys.nodup_iff.mpr (hnd table (List.get?_mem htable))

/-- C18. For every forest whose indexed tables are empty (one per map, the maps having
distinct keys), `Index` returns, and after any run of it each band's indexed table holds
exactly the (hashed signature, bucket) pairs of that band's map before the call, each
once and with its bucket unchanged, in strictly ascending byte-wise lexicographic order of
the hashed signatures, and every map is empty. -/
theorem C18_Index_moves_sorted {K : Type} (self : LSHforest K)
    (hlen : self.hashTables.length = self.initialHashTables.length)
    (hempty : ∀ t ∈ self.hashTables, t = [])
    (hnd : ∀ table ∈ self.initialHashTables, (table.map Prod.fst).Nodup) :
    (∃ after, Index self = some after) ∧
      ∀ after, IndexRel self after →
        after.hashTables.length = self.hashTables.length ∧
        after.initialHashTables.length = self.initialHashTables.length ∧
        (∀ table ∈ after.initialHashTables, table = []) ∧
        ∀ i table, self.initialHashTables.get? i = some table →
          ∃ table', after.hashTables.get? i = some table' ∧
            table'.Perm (table.map toBand) ∧ table'.Pairwise bandLt := by
  constructor
  · obtain ⟨done, hd⟩ := indexLoop_some self.hashTables self.initialHashTables (le_of_eq hlen)
    exact ⟨_, by rw [Index, hd]; rfl⟩
  · rintro after ⟨hs, tables, hloop, rfl⟩
    obtain ⟨hl, _⟩ := IndexLoop_get hloop
    obtain ⟨hl', hcleared⟩ := IndexLoop_tables hloop hlen
    refine ⟨hl, hl', hcleared, ?_⟩
    intro i table hi
    have hil : i < hs.length := by
      rw [hl, hlen]; exact (List.get?_eq_some.mp hi).1
    have hg : hs.get? i = some hs[i] := by simp [List.get?_eq_getElem?, hil]
    obtain ⟨table0, h0, hperm, hstrict⟩ := IndexLoop_fresh hloop hempty hnd i _ hg
    rw [hi] at h0
    cases h0
    exact ⟨_, hg, hperm, hstrict⟩

/-- C19, as amended. In every forest state reachable from `NewLSHforest` by `Add` calls
with signatures of the configured length and `Index` calls, every band's indexed table is
ordered by hashed signature (no entry is smaller than an earlier one). The order is
strict, with no two entries sharing a hashed signature, after an `Index` call made while
the indexed tables were empty, and `Add` calls leave the indexed tables as they are. -/
theorem C19_indexed_ordered {K : Type} (ops : FloatOps) (sigSize : Int) (jsThresh : F64)
    (self : LSHforest K) (hreach : Reachable ops sigSize jsThresh self) :
    (∀ table ∈ self.hashTables, table.Pairwise bandLe) ∧
      (∀ after, (∀ t ∈ self.hashTables, t = []) → IndexRel self after →
        ∀ table ∈ after.hashTables, table.Pairwise bandLt ∧
          (table.map fun b => b.HashedSignature).Nodup) ∧
      ∀ after key sig, Add self key sig = some after → after.hashTables = self.hashTables := by
  obtain ⟨hinv, _, _, _⟩ := Reachable_inv ops sigSize jsThresh self hreach
  refine ⟨fun table hmem => (hinv.2.2.1 table hmem).1, ?_, ?_⟩
  · rintro after hempty ⟨hs, tables, hloop, rfl⟩ table' hmem
    obtain ⟨i, hi, hti⟩ := List.getElem_of_mem hmem
    obtain ⟨table, htable, hperm, hstrict⟩ := IndexLoop_fresh hloop hempty
      (fun t ht => (hinv.2.1 t ht).1) i table' (by simp [List.get?_eq_getElem?, hi, hti])
    refine ⟨hstrict, ?_⟩
    have hkeys : (table'.map fun b => b.HashedSignature).Perm (table.map Prod.fst) := by
      have := hperm.map (fun b => b.HashedSignature)
      simpa [List.map_map, Function.comp_def, toBand] using this
    exact hkeys.nodup_iff.mpr (hinv.2.1 table (List.get?_mem htable)).1
  · intro after key sig hadd
    unfold Add at hadd
    cases hh : hashSignature self sig with
    | none => rw [hh] at hadd; cases hadd
    | some hashed =>
      rw [hh] at hadd
      simp only [Option.some_bind] at hadd
      cases hl : addLoop key self.initialHashTables hashed with
      | none => rw [hl] at hadd; cases hadd
      | some tables =>
        rw [hl] at hadd
        cases hadd
        rfl

/-- C20. In every forest state reachable from `NewLSHforest` by `Add` calls with
signatures of the configured length and `Index` calls, every hashed signature stored in a
map or in an indexed table has length exactly `hashValueSize*numHashFuncs`, so in a probe
the slice `HashedSignature[:prefixSize]` is in range and is the whole hashed signature:
the probe compares full hashed signatures for equality. -/
theorem C20_full_width {K : Type} (ops : FloatOps) (sigSize : Int) (jsThresh : F64)
    (self : LSHforest K) (hreach : Reachable ops sigSize jsThresh self) :
    (∀ table ∈ self.initialHashTables, ∀ e ∈ table,
      e.1.length = self.hashValueSize * self.numHashFuncs) ∧
      (∀ table ∈ self.hashTables, ∀ b ∈ table,
        b.HashedSignature.length = self.hashValueSize * self.numHashFuncs ∧
        strPrefix b.HashedSignature (self.hashValueSize * self.numHashFuncs) =
          some b.HashedSignature) ∧
      ∀ (s : List Nat), s.length = self.numHashFuncs * self.numBands →
        ∃ sent, runProbes self s = some sent := by
  obtain ⟨hinv, _, _, _⟩ := Reachable_inv ops sigSize jsThresh self hreach
  refine ⟨fun table hmem => (hinv.2.1 table hmem).2, ?_, ?_⟩
  · intro table hmem b hb
    have hl := (hinv.2.2.1 table hmem).2 b hb
    refine ⟨hl, ?_⟩
    rw [← hl]
    exact strPrefix_length _
  · intro s hs
    exact runProbes_total self hinv.1
      (fun table hmem e he => le_of_eq ((hinv.2.2.1 table hmem).2 e he).symm) s
      (le_of_eq hs.symm)

/-! ## Lemmas: the runs of the goroutines of `runQuery` -/

theorem running_set_some : ∀ (ps : List (Option (List String))) (i : Nat) (k k' : List String),
    ps.get? i = some (some k) → running (ps.set i (some k')) = running ps
  | [], i, _, _, h => by simp at h
  | p :: ps, 0, k, k', h => by
    simp only [List.get?_cons_zero, Option.some.injEq] at h
    subst h
    simp [running]
  | p :: ps, i + 1, k, k', h => by
    have ih := running_set_some ps i k k' (by simpa using h)
    cases p <;> simp [running, ih]

theorem running_set_none : ∀ (ps : List (Option (List String))) (i : Nat) (k : List String),
    ps.get? i = some (some k) → running (ps.set i none) + 1 = running ps
  | [], i, _, h => by simp at h
  | p :: ps, 0, k, h => by
    simp only [List.get?_cons_zero, Option.some.injEq] at h
    subst h
    simp [running]
  | p :: ps, i + 1, k, h => by
    have ih := running_set_none ps i k (by simpa using h)
    cases p with
    | none => simpa [running] using ih
    | some _ =>
      simp only [List.set_cons_succ, running]
      omega

theorem running_eq_zero : ∀ (ps : List (Option (List String))), running ps = 0 →
    ∀ p ∈ ps, p = none
  | [], _, p, hp => by simp at hp
  | none :: ps, h, p, hp => by
    rcases List.mem_cons.mp hp with h1 | h1
    · exact h1
    · exact running_eq_zero ps (by simpa [running] using h) p h1
  | some _ :: ps, h, _, _ => by simp [running] at h

theorem running_map_some (sent : List (List String)) : running (sent.map some) = sent.length := by
  induction sent with
  | nil => rfl
  | cons l ls ih => simp [running, ih]

theorem remaining_set_some (ps : List (Option (List String))) (i : Nat) (k : List String) :
    remaining (ps.set i (some k)) = (remaining ps).set i k := by
  unfold remaining
  rw [List.map_set]
  rfl

theorem set_same {α : Type} : ∀ (l : List α) (i : Nat) (a : α), l.get? i = some a →
    l.set i a = l
  | [], _, _, h => by simp at h
  | b :: l, 0, a, h => by
    simp only [List.get?_cons_zero, Option.some.injEq] at h
    subst h
    rfl
  | b :: l, i + 1, a, h => by
    simp only [List.set_cons_succ, set_same l i a (by simpa using h)]

theorem remaining_get (ps : List (Option (List String))) (i : Nat) (k : List String)
    (h : ps.get? i = some (some k)) : (remaining ps).get? i = some k := by
  unfold remaining
  simp only [List.get?_eq_getElem?] at h ⊢
  simp [List.getElem?_map, h]

theorem remaining_set_none (ps : List (Option (List String))) (i : Nat)
    (h : ps.get? i = some (some [])) : remaining (ps.set i none) = remaining ps := by
  have h1 : remaining (ps.set i none) = (remaining ps).set i [] := by
    unfold remaining
    rw [List.map_set]
    rfl
  rw [h1]
  exact set_same _ _ _ (remaining_get ps i [] h)

theorem remaining_of_none (ps : List (Option (List String))) (h : ∀ p ∈ ps, p = none) :
    ∀ l ∈ remaining ps, l = [] := by
  intro l hl
  obtain ⟨p, hp, rfl⟩ := List.mem_map.mp hl
  rw [h p hp]
  rfl

theorem consume_snoc (x : String) : ∀ (a seens : List String),
    consume seens (a ++ [x]) = consume seens a ++ (if x ∈ seens ∨ x ∈ a then [] else [x])
  | [], seens => by
    by_cases h : x ∈ seens <;> simp [consume, h]
  | y :: a, seens => by
    by_cases hy : y ∈ seens
    · have ih := consume_snoc x a seens
      have hcond : (x ∈ seens ∨ x ∈ y :: a) ↔ (x ∈ seens ∨ x ∈ a) := by
        constructor
        · rintro (h | h)
          · exact Or.inl h
          · rcases List.mem_cons.mp h with h1 | h1
            · subst h1; exact Or.inl hy
            · exact Or.inr h1
        · rintro (h | h)
          · exact Or.inl h
          · exact Or.inr (List.mem_cons_of_mem _ h)
      simp only [List.cons_append, consume, hy, if_true, List.append_eq, ih, hcond]
    · have ih := consume_snoc x a (y :: seens)
      have hcond : (x ∈ y :: seens ∨ x ∈ a) ↔ (x ∈ seens ∨ x ∈ y :: a) := by
        simp only [List.mem_cons]
        tauto
      simp only [List.cons_append, consume, hy, if_false, List.append_eq, ih, hcond]

theorem queryInv_init (sent : List (List String)) : queryInv sent (queryState.init sent) := by
  refine ⟨rfl, (running_map_some sent).symm, ?_, ?_, ?_, [], ?_, ?_⟩
  · intro h; cases h
  · intro h; cases h
  · intro h; cases h
  · intro out hout
    have : remaining (queryState.init sent).probes = sent := by
      simp [remaining, queryState.init, Function.comp_def]
    rw [this] at hout
    simpa using hout
  · exact ⟨rfl, fun k => Iff.rfl⟩

theorem get_of_all_none (ps : List (Option (List String))) (i : Nat) (k : List String)
    (hall : ∀ p ∈ ps, p = none) (h : ps.get? i = some (some k)) : False := by
  have := hall _ (List.get?_mem h)
  cases this

theorem running_pos (ps : List (Option (List String))) (i : Nat) (k : List String)
    (h : ps.get? i = some (some k)) : 0 < running ps := by
  rcases Nat.eq_zero_or_pos (running ps) with h0 | h0
  · exact absurd h (fun h' => get_of_all_none ps i k (running_eq_zero ps h0) h')
  · exact h0

theorem queryInv_step (sent : List (List String)) (st st' : queryState)
    (hinv : queryInv sent st) (hstep : queryStep st st') : queryInv sent st' := by
  obtain ⟨hpan, hwg, hcl, hex, hret, recv, hint, hok⟩ := hinv
  cases hstep with
  | send i x rest _ hget hopen hcons =>
    have hok' : st.result = consume [] recv ∧ ∀ k, k ∈ st.seens ↔ k ∈ recv := by
      unfold consumerOk at hok
      rw [hcons] at hok
      exact hok
    have hnotret : st.returned = true → False := by
      intro h
      have := hret h
      rw [hcons] at this
      cases this
    have hinter : ∀ out, Interleaving (remaining (st.probes.set i (some rest))) out →
        Interleaving sent ((recv ++ [x]) ++ out) := by
      intro out hout
      rw [remaining_set_some] at hout
      have := hint (x :: out)
        (Interleaving.receive _ i x rest out (remaining_get _ _ _ hget) hout)
      simpa using this
    by_cases hx : x ∈ st.seens
    · simp only [hx, if_true]
      refine ⟨hpan, ?_, ?_, ?_, ?_, recv ++ [x], hinter, ?_⟩
      · exact hwg.trans (running_set_some _ _ _ _ hget).symm
      · intro h; rw [hopen] at h; cases h
      · intro h; cases h
      · intro h; exact (hnotret h).elim
      · have hxr : x ∈ recv := (hok'.2 x).mp hx
        show _ ∧ _
        refine ⟨?_, ?_⟩
        · show st.result = consume [] (recv ++ [x])
          rw [consume_snoc, hok'.1]
          simp [hxr]
        · intro k
          show k ∈ st.seens ↔ k ∈ recv ++ [x]
          rw [hok'.2 k, List.mem_append, List.mem_singleton]
          constructor
          · exact Or.inl
          · rintro (h | h)
            · exact h
            · rw [h]; exact hxr
    · simp only [hx, if_false]
      refine ⟨hpan, ?_, ?_, ?_, ?_, recv ++ [x], hinter, ?_⟩
      · exact hwg.trans (running_set_some _ _ _ _ hget).symm
      · intro h; rw [hopen] at h; cases h
      · intro h; cases h
      · intro h; exact (hnotret h).elim
      · exact ⟨recv, rfl, fun h => hx ((hok'.2 x).mpr h), hok'.1, hok'.2⟩
  | sendClosed i x rest _ hget hclosed =>
    exact (get_of_all_none _ i _ (hcl hclosed) hget).elim
  | abandon i x rest _ hget hreturned =>
    exact (get_of_all_none _ i _ (hcl (hex (hret hreturned))) hget).elim
  | done i _ hget hpos =>
    refine ⟨hpan, ?_, ?_, hex, hret, recv, ?_, hok⟩
    · have := running_set_none _ i _ hget
      show st.wg - 1 = running (st.probes.set i none)
      omega
    · intro h
      exact (get_of_all_none _ i _ (hcl h) hget).elim
    · intro out hout
      rw [remaining_set_none _ _ hget] at hout
      exact hint out hout
  | doneNegative i _ hget hzero =>
    have := running_pos _ i _ hget
    omega
  | close _ hzero _ =>
    refine ⟨hpan, hwg, ?_, fun _ => rfl, hret, recv, hint, hok⟩
    intro _
    exact running_eq_zero _ (by rw [← hwg]; exact hzero)
  | forward x _ hcons =>
    have hok' : ∃ recv', recv = recv' ++ [x] ∧ x ∉ recv' ∧ st.result = consume [] recv' ∧
        ∀ k, k ∈ st.seens ↔ k ∈ recv' := by
      unfold consumerOk at hok
      rw [hcons] at hok
      exact hok
    obtain ⟨recv', hrecv, hxn, hres, hseen⟩ := hok'
    refine ⟨hpan, hwg, hcl, ?_, ?_, recv, hint, ?_⟩
    · intro h; cases h
    · intro h
      have := hret h
      rw [hcons] at this
      cases this
    · show _ ∧ _
      refine ⟨?_, ?_⟩
      · show st.result ++ [x] = consume [] recv
        rw [hrecv, consume_snoc, hres]
        simp [hxn]
      · intro k
        show k ∈ x :: st.seens ↔ k ∈ recv
        rw [hrecv, List.mem_cons, List.mem_append, List.mem_singleton, hseen k]
        tauto
  | exit _ hcons hclosed =>
    have hok' : st.result = consume [] recv ∧ ∀ k, k ∈ st.seens ↔ k ∈ recv := by
      unfold consumerOk at hok
      rw [hcons] at hok
      exact hok
    exact ⟨hpan, hwg, hcl, fun _ => hclosed, fun _ => rfl, recv, hint, hok'⟩
  | ret _ hcons _ =>
    exact ⟨hpan, hwg, hcl, hex, fun _ => hcons, recv, hint, hok⟩

theorem queryInv_reach (sent : List (List String)) (st : queryState)
    (h : queryReach sent st) : queryInv sent st := by
  unfold queryReach at h
  induction h with
  | refl => exact queryInv_init sent
  | tail _ hstep ih => exact queryInv_step sent _ _ ih hstep

/-- What a call of `Query` returns is what the consumer makes of an order of receiving all
the keys the probes send. -/
theorem queryInv_returned (sent : List (List String)) (st : queryState)
    (hinv : queryInv sent st) (hreturned : st.returned = true) :
    ∃ stream, Interleaving sent stream ∧ st.result = consume [] stream := by
  obtain ⟨_, _, hcl, hex, hret, recv, hint, hok⟩ := hinv
  have hcons := hret hreturned
  have hnone := hcl (hex hcons)
  have h1 := hint [] (Interleaving.closed _ (remaining_of_none _ hnone))
  rw [List.append_nil] at h1
  refine ⟨recv, h1, ?_⟩
  unfold consumerOk at hok
  rw [hcons] at hok
  exact hok.1

theorem keysLeft_set_some : ∀ (ps : List (Option (List String))) (i : Nat) (x : String)
    (rest : List String), ps.get? i = some (some (x :: rest)) →
    keysLeft (ps.set i (some rest)) + 1 = keysLeft ps
  | [], i, _, _, h => by simp at h
  | p :: ps, 0, x, rest, h => by
    simp only [List.get?_cons_zero, Option.some.injEq] at h
    subst h
    simp [keysLeft]
    omega
  | p :: ps, i + 1, x, rest, h => by
    have ih := keysLeft_set_some ps i x rest (by simpa using h)
    simp only [List.set_cons_succ, keysLeft]
    omega

theorem keysLeft_set_none : ∀ (ps : List (Option (List String))) (i : Nat),
    ps.get? i = some (some []) → keysLeft (ps.set i none) = keysLeft ps
  | [], i, h => by simp at h
  | p :: ps, 0, h => by
    simp only [List.get?_cons_zero, Option.some.injEq] at h
    subst h
    simp [keysLeft]
  | p :: ps, i + 1, h => by
    have ih := keysLeft_set_none ps i (by simpa using h)
    simp only [List.set_cons_succ, keysLeft, ih]

theorem running_of_none : ∀ (ps : List (Option (List String))), (∀ p ∈ ps, p = none) →
    running ps = 0
  | [], _ => rfl
  | p :: ps, h => by
    have hp := h p (List.mem_cons_self _ _)
    subst hp
    simpa [running] using running_of_none ps (fun q hq => h q (List.mem_cons_of_mem _ hq))

theorem probes_cases : ∀ (ps : List (Option (List String))),
    (∃ i x rest, ps.get? i = some (some (x :: rest))) ∨
      (∃ i, ps.get? i = some (some [])) ∨ (∀ p ∈ ps, p = none)
  | [] => Or.inr (Or.inr (by simp))
  | none :: ps => by
    rcases probes_cases ps with ⟨i, x, rest, h⟩ | ⟨i, h⟩ | h
    · exact Or.inl ⟨i + 1, x, rest, by simpa using h⟩
    · exact Or.inr (Or.inl ⟨i + 1, by simpa using h⟩)
    · refine Or.inr (Or.inr ?_)
      intro p hp
      rcases List.mem_cons.mp hp with h1 | h1
      · exact h1
      · exact h p h1
  | some [] :: ps => Or.inr (Or.inl ⟨0, rfl⟩)
  | some (x :: rest) :: ps => Or.inl ⟨0, x, rest, rfl⟩

/-- No deadlock: while `Query` has not returned, some goroutine can take a step. -/
theorem queryInv_progress (sent : List (List String)) (st : queryState)
    (hinv : queryInv sent st) (hnot : st.returned = false) : ∃ st', queryStep st st' := by
  obtain ⟨hpan, hwg, _, _, _, _⟩ := hinv
  cases hc : st.consumer with
  | exited => exact ⟨_, queryStep.ret st hpan hc hnot⟩
  | forwarding x => exact ⟨_, queryStep.forward st x hpan hc⟩
  | receiving =>
    cases hcl : st.keyChanClosed with
    | true => exact ⟨_, queryStep.exit st hpan hc hcl⟩
    | false =>
      rcases probes_cases st.probes with ⟨i, x, rest, h⟩ | ⟨i, h⟩ | h
      · exact ⟨_, queryStep.send st i x rest hpan h hcl hc⟩
      · exact ⟨_, queryStep.done st i hpan h (by rw [hwg]; exact running_pos _ i _ h)⟩
      · exact ⟨_, queryStep.close st hpan (by rw [hwg]; exact running_of_none _ h) hcl⟩

/-- Every step brings the call of `Query` nearer to its return. -/
theorem queryStep_decreases (sent : List (List String)) (st st' : queryState)
    (hinv : queryInv sent st) (hstep : queryStep st st') :
    queryMeasure st' < queryMeasure st := by
  obtain ⟨hpan, hwg, hcl, hex, hret, _⟩ := hinv
  cases hstep with
  | send i x rest _ hget hopen hcons =>
    have h1 := keysLeft_set_some _ i x rest hget
    have h2 := running_set_some st.probes i (x :: rest) rest hget
    have h3 : consumerWeight (if x ∈ st.seens then consumerState.receiving
        else consumerState.forwarding x) ≤ 2 := by
      split_ifs <;> simp [consumerWeight]
    have h4 : consumerWeight st.consumer = 1 := by rw [hcons]; rfl
    unfold queryMeasure
    simp only [h2, h4]
    omega
  | sendClosed i x rest _ hget hclosed =>
    exact (get_of_all_none _ i _ (hcl hclosed) hget).elim
  | abandon i x rest _ hget hreturned =>
    exact (get_of_all_none _ i _ (hcl (hex (hret hreturned))) hget).elim
  | done i _ hget hpos =>
    have h1 := keysLeft_set_none _ i hget
    have h2 := running_set_none st.probes i [] hget
    unfold queryMeasure
    simp only [h1]
    omega
  | doneNegative i _ hget hzero =>
    have := running_pos _ i _ hget
    omega
  | close _ hzero hopen =>
    unfold queryMeasure
    simp only [hopen]
    simp
  | forward x _ hcons =>
    have h4 : consumerWeight st.consumer = 2 := by rw [hcons]; rfl
    unfold queryMeasure
    simp only [h4]
    simp only [consumerWeight]
    omega
  | exit _ hcons hclosed =>
    have h4 : consumerWeight st.consumer = 1 := by rw [hcons]; rfl
    unfold queryMeasure
    simp only [h4]
    simp only [consumerWeight]
    omega
  | ret _ hcons hnot =>
    unfold queryMeasure
    simp only [hnot]
    simp

/-- Every call of `Query` can run on to its return. -/
theorem queryReach_returns (sent : List (List String)) :
    ∀ (n : Nat) (st : queryState), queryMeasure st ≤ n → queryReach sent st →
      ∃ st', queryReach sent st' ∧ st'.returned = true := by
  intro n
  induction n with
  | zero =>
    intro st hm hreach
    cases hr : st.returned with
    | true => exact ⟨st, hreach, hr⟩
    | false =>
      have : 1 ≤ queryMeasure st := by
        unfold queryMeasure
        simp only [hr]
        simp
      omega
  | succ n ih =>
    intro st hm hreach
    cases hr : st.returned with
    | true => exact ⟨st, hreach, hr⟩
    | false =>
      have hinv := queryInv_reach sent st hreach
      obtain ⟨st', hstep⟩ := queryInv_progress sent st hinv hr
      have hdec := queryStep_decreases sent st st' hinv hstep
      exact ih st' (by omega) (Relation.ReflTransGen.tail hreach hstep)

/-- No call of `Query` runs for ever. -/
theorem queryStep_terminates (sent : List (List String)) (f : Nat → queryState)
    (h0 : f 0 = queryState.init sent) (hsteps : ∀ n, queryStep (f n) (f (n + 1))) : False := by
  have hreach : ∀ n, queryReach sent (f n) := by
    intro n
    induction n with
    | zero => rw [h0]; exact Relation.ReflTransGen.refl
    | succ n ih => exact Relation.ReflTransGen.tail ih (hsteps n)
  have hbound : ∀ n, queryMeasure (f n) + n ≤ queryMeasure (f 0) := by
    intro n
    induction n with
    | zero => simp
    | succ n ih =>
      have := queryStep_decreases sent _ _ (queryInv_reach sent _ (hreach n)) (hsteps n)
      omega
  have := hbound (queryMeasure (f 0) + 1)
  omega

/-! ## Theorems: the schedules of `runQuery` -/

/-- On a configured forest whose indexed tables are ordered and of full width, each probe
sends the keys of the bands that match its chunk. -/
theorem runProbes_sorted {K : Type} (self : LSHforest K) (hc : Configured self)
    (htab : ∀ table ∈ self.hashTables, table.Pairwise bandLe ∧
      ∀ e ∈ table, e.HashedSignature.length = self.hashValueSize * self.numHashFuncs)
    (sig : List Nat) (hlen : self.numHashFuncs * self.numBands ≤ sig.length) :
    runProbes self sig = some ((List.range self.numBands).map fun i =>
      matching (self.hashTables.getD i [])
        (bandKey self.hashValueSize self.numHashFuncs sig i)) := by
  unfold runProbes
  rw [hashSignature_eq self hc sig hlen]
  simp only [Option.some_bind]
  apply mapM_some
  intro i hi
  have hib : i < self.numBands := List.mem_range.mp hi
  have hit : i < self.hashTables.length := by rw [hc.2.2.2]; exact hib
  have hgt : self.hashTables.get? i = some self.hashTables[i] := by
    simp [List.get?_eq_getElem?, hit]
  obtain ⟨hsorted, hwidth⟩ := htab _ (List.getElem_mem hit)
  rw [hgt, range_map_get _ _ i hib]
  simp only [Option.some_bind]
  rw [probe_eq _ _ _ hsorted hwidth]
  simp [List.getD_eq_getElem?_getD, hit]

theorem QueryRun_result {K : Type} (self : LSHforest K) (sig : List Nat)
    (result : List String) (h : QueryRun self sig result) : QueryResult self sig result := by
  obtain ⟨sent, st, hsent, hreach, hret, hres⟩ := h
  obtain ⟨stream, hint, hcons⟩ := queryInv_returned sent st (queryInv_reach sent st hreach) hret
  exact (QueryResult_iff self sig sent hsent result).mpr ⟨stream, hint, by rw [← hres, hcons]⟩

/-- C17. For a forest state reachable from `NewLSHforest` by `Add` and `Index` calls and a
signature of the configured length, in every interleaving of the probe goroutines, the
goroutine that waits on `wg` and closes `keyChan`, the consumer and `Query`: no goroutine
panics and `keyChan` is closed only after every probe has finished; the goroutines never
deadlock and never run for ever, so `Query` returns; and what it returns holds each key of
each band's matching entries exactly once. Two schedules differ only in the order of the
result. -/
theorem C17_runQuery_schedules {K : Type} (ops : FloatOps) (sigSize : Int) (jsThresh : F64)
    (self : LSHforest K) (s : List Nat) (hreach : Reachable ops sigSize jsThresh self)
    (hs : s.length = self.numHashFuncs * self.numBands) :
    ∃ sent, runProbes self s = some sent ∧
      sent = (List.range self.numBands).map (fun i =>
        matching (self.hashTables.getD i [])
          (bandKey self.hashValueSize self.numHashFuncs s i)) ∧
      (∀ st, queryReach sent st →
        st.panicked = false ∧ (st.keyChanClosed = true → ∀ p ∈ st.probes, p = none)) ∧
      (∀ st, queryReach sent st → st.returned = false → ∃ st', queryStep st st') ∧
      (∀ f : Nat → queryState, f 0 = queryState.init sent →
        ¬ ∀ n, queryStep (f n) (f (n + 1))) ∧
      (∃ result, QueryRun self s result) ∧
      (∀ result, QueryRun self s result →
        result.Nodup ∧ ∀ key, key ∈ result ↔ ∃ l ∈ sent, key ∈ l) ∧
      ∀ result result', QueryRun self s result → QueryRun self s result' →
        result.Perm result' := by
  obtain ⟨hinv, _, _, _⟩ := Reachable_inv ops sigSize jsThresh self hreach
  have hsent := runProbes_sorted self hinv.1 hinv.2.2.1 s (le_of_eq hs.symm)
  have hfacts : ∀ result, QueryRun self s result →
      result.Nodup ∧ ∀ key, key ∈ result ↔ ∃ l ∈ (List.range self.numBands).map (fun i =>
        matching (self.hashTables.getD i [])
          (bandKey self.hashValueSize self.numHashFuncs s i)), key ∈ l := by
    intro result hrun
    have hres := QueryRun_result self s result hrun
    exact ⟨QueryResult_nodup self s result hres,
      fun key => QueryResult_mem self s _ hsent result hres key⟩
  refine ⟨_, hsent, rfl, ?_, ?_, ?_, ?_, hfacts, ?_⟩
  · intro st hst
    have := queryInv_reach _ st hst
    exact ⟨this.1, this.2.2.1⟩
  · intro st hst hnot
    exact queryInv_progress _ st (queryInv_reach _ st hst) hnot
  · intro f h0 hsteps
    exact queryStep_terminates _ f h0 hsteps
  · obtain ⟨st, hst, hret⟩ := queryReach_returns _ _ (queryState.init _) (le_refl _)
      Relation.ReflTransGen.refl
    exact ⟨st.result, _, st, hsent, hst, hret, rfl⟩
  · intro result result' h1 h2
    obtain ⟨hn1, hm1⟩ := hfacts result h1
    obtain ⟨hn2, hm2⟩ := hfacts result' h2
    exact (List.perm_ext_iff_of_nodup hn1 hn2).mpr (fun key => (hm1 key).trans (hm2 key).symm)

/-! ## Lemmas: reachable states built by `addAll` and `Index` -/

theorem some_getD {α : Type} (o : Option α) (d : α) (h : o.isSome = true) :
    o = some (o.getD d) := by
  cases o with
  | none => cases h
  | some a => rfl

theorem addAll_reachable {K : Type} (ops : FloatOps) (sigSize : Int) (jsThresh : F64)
    (items : List (String × List Nat)) :
    ∀ self : LSHforest K, Reachable ops sigSize jsThresh self →
      (∀ p ∈ items, p.2.length = self.numHashFuncs * self.numBands) →
      ∃ after, addAll self items = some after ∧ Reachable ops sigSize jsThresh after := by
  induction items with
  | nil =>
    intro self h _
    exact ⟨self, rfl, h⟩
  | cons p rest ih =>
    intro self h hlen
    obtain ⟨key, sig⟩ := p
    have hl : sig.length = self.numHashFuncs * self.numBands :=
      hlen (key, sig) (List.mem_cons_self _ _)
    obtain ⟨hinv, _⟩ := Reachable_inv ops sigSize jsThresh self h
    obtain ⟨next, hadd, _, hn, hb, _⟩ := Add_get self hinv.1 key sig (le_of_eq hl.symm)
    obtain ⟨after, hall, hr⟩ := ih next (Reachable.add self next key sig h hl hadd) (by
      intro q hq
      rw [hn, hb]
      exact hlen q (List.mem_cons_of_mem _ hq))
    refine ⟨after, ?_, hr⟩
    simp only [addAll, hadd, Option.some_bind]
    exact hall

theorem addAll_getD_reachable {K : Type} (ops : FloatOps) (sigSize : Int) (jsThresh : F64)
    (items : List (String × List Nat)) (self : LSHforest K)
    (h : Reachable ops sigSize jsThresh self)
    (hlen : ∀ p ∈ items, p.2.length = self.numHashFuncs * self.numBands) :
    Reachable ops sigSize jsThresh ((addAll self items).getD self) := by
  obtain ⟨built, hall, hr⟩ := addAll_reachable ops sigSize jsThresh items self h hlen
  rw [hall, Option.getD_some]
  exact hr

theorem indexed_reachable {K : Type} (ops : FloatOps) (sigSize : Int) (jsThresh : F64)
    (items : List (String × List Nat)) (self : LSHforest K)
    (h : Reachable ops sigSize jsThresh self)
    (hlen : ∀ p ∈ items, p.2.length = self.numHashFuncs * self.numBands) :
    Reachable ops sigSize jsThresh (((addAll self items).bind Index).getD self) := by
  obtain ⟨built, hall, hr⟩ := addAll_reachable ops sigSize jsThresh items self h hlen
  obtain ⟨hinv, _⟩ := Reachable_inv ops sigSize jsThresh built hr
  obtain ⟨after, hi⟩ := Index_some built hinv.1
  rw [hall, Option.some_bind, hi, Option.getD_some]
  exact Reachable.index built after hr (Index_sound built after hi)

/-! ## The later claims at concrete inputs -/

theorem exampleIndexed_reachable : Reachable exampleOps 16 F64.half exampleIndexed :=
  indexed_reachable exampleOps 16 F64.half _ exampleForest Reachable.new (by decide)

theorem exampleReindexed_reachable : Reachable exampleOps 16 F64.half exampleReindexed :=
  indexed_reachable exampleOps 16 F64.half _ exampleIndexed exampleIndexed_reachable
    (by decide)

/-- C11 refuted: the example forest is indexed with nothing added, and `Dump` then returns
a nil error and leaves a file of three gob values (two maps and `KeyLookup`) at a path
where there was no file. -/
theorem C11_Dump_after_empty_Index :
    (Index exampleForest).isSome = true ∧
    (exampleFS.files "forest.gob").isNone = true ∧
    ((Index exampleForest).bind fun indexed => Dump indexed "forest.gob" exampleFS).map
      (fun out => (out.1, (out.2.files "forest.gob").map List.length)) =
        some (none, some 3) := by
  decide

/-- C11, as amended, at the indexed example forest (refused) and at the example forest
indexed with nothing added (written). -/
theorem C11_Dump_after_Index_witness :
    exampleIndexed.hashTables.get? 0 = some [⟨[1, 0, 0, 0, 1, 0, 0, 0], ["A", "A", "B"]⟩] ∧
    (Dump exampleIndexed "forest.gob" exampleFS =
        some (some goError.afterIndexing, exampleFS) ∧
      ∀ out, DumpRel exampleIndexed "forest.gob" exampleFS out →
        out = some (some goError.afterIndexing, exampleFS)) ∧
    1 ≤ exampleForest.numBands ∧ IndexRel exampleForest exampleEmptyIndexed ∧
    exampleFS.creatable "forest.gob" = true ∧
    ∀ out, DumpRel exampleEmptyIndexed "forest.gob" exampleFS out →
      ∃ after values, out = some (none, after) ∧
        after.files "forest.gob" = some values ∧
        values.length = exampleEmptyIndexed.initialHashTables.length + 1 :=
  ⟨by decide,
    (C11_Dump_after_Index (K := Unit)).1 exampleIndexed
      [⟨[1, 0, 0, 0, 1, 0, 0, 0], ["A", "A", "B"]⟩] "forest.gob" exampleFS
      (by decide) (by decide),
    by decide, Index_sound _ _ (some_getD _ _ (by decide)), rfl,
    (C11_Dump_after_Index (K := Unit)).2.2 exampleOps 16 F64.half exampleEmptyIndexed
      "forest.gob" exampleFS (by decide)
      (Index_sound _ _ (some_getD _ _ (by decide))) rfl⟩

/-- C12 at the indexed example forest. -/
theorem C12_Dump_any_band_witness :
    (1 : Int) ≤ 16 ∧ isThreshold F64.half ∧
    F64.gt maxFloat64 (currErr exampleOps F64.half 1 1) = true ∧
    Reachable exampleOps 16 F64.half exampleIndexed ∧
    (∃ table ∈ exampleIndexed.hashTables, table ≠ []) ∧
    ((∃ first, exampleIndexed.hashTables.get? 0 = some first ∧ first ≠ []) ∧
      Dump exampleIndexed "forest.gob" exampleFS =
        some (some goError.afterIndexing, exampleFS) ∧
      ∀ out, DumpRel exampleIndexed "forest.gob" exampleFS out →
        out = some (some goError.afterIndexing, exampleFS)) :=
  ⟨by decide, ⟨by decide, by decide⟩, by decide, exampleIndexed_reachable, by decide,
    C12_Dump_any_band exampleOps 16 F64.half exampleIndexed (by decide)
      ⟨by decide, by decide⟩ (by decide) exampleIndexed_reachable (by decide)
      "forest.gob" exampleFS⟩

/-- C13 at the example forest with two items added and one entry in `KeyLookup`. -/
theorem C13_Dump_Load_round_trip_witness :
    1 ≤ exampleForest.numBands ∧
    (∀ p ∈ [("A", [1, 1, 1, 1]), ("B", [1, 1, 2, 2])],
      p.2.length = exampleForest.numHashFuncs * exampleForest.numBands) ∧
    addAll exampleForest [("A", [1, 1, 1, 1]), ("B", [1, 1, 2, 2])] = some exampleBuilt ∧
    ([("A", ())].map Prod.fst).Nodup ∧ exampleFS.creatable "forest.gob" = true ∧
    ((∃ fs', Dump { exampleBuilt with KeyLookup := [("A", ())] } "forest.gob" exampleFS =
        some (none, fs')) ∧
      ∀ fs', DumpRel { exampleBuilt with KeyLookup := [("A", ())] } "forest.gob" exampleFS
          (some (none, fs')) →
        ∃ loaded, Load exampleForest "forest.gob" fs' = (none, loaded) ∧
          loaded.initialHashTables.length = exampleBuilt.initialHashTables.length ∧
          (∀ i table, exampleBuilt.initialHashTables.get? i = some table →
            ∃ table', loaded.initialHashTables.get? i = some table' ∧
              ∀ k, mapGet table' k = mapGet table k) ∧
          (∀ k, lookupGet loaded.KeyLookup k = lookupGet [("A", ())] k) ∧
          ∀ indexedS indexedL,
            IndexRel { exampleBuilt with KeyLookup := [("A", ())] } indexedS →
            IndexRel loaded indexedL →
            ∀ s : List Nat, s.length = exampleBuilt.numHashFuncs * exampleBuilt.numBands →
              (∃ result, Query indexedS s = some result) ∧
              (∃ result, Query indexedL s = some result) ∧
              ∀ resultS resultL, QueryResult indexedS s resultS →
                QueryResult indexedL s resultL → ∀ key, key ∈ resultS ↔ key ∈ resultL) :=
  ⟨by decide, by decide, some_getD _ _ (by decide), by decide, rfl,
    C13_Dump_Load_round_trip exampleOps 16 F64.half
      [("A", [1, 1, 1, 1]), ("B", [1, 1, 2, 2])] exampleBuilt
      { exampleBuilt with KeyLookup := [("A", ())] } [("A", ())] "forest.gob" exampleFS
      (by decide) (by decide) (some_getD _ _ (by decide)) rfl (by decide) rfl⟩

/-- C14 at the indexed example forest and a further `Add("C", [1,1,1,1])`. -/
theorem C14_Add_after_Index_witness :
    Configured exampleIndexed ∧
    [1, 1, 1, 1].length = exampleIndexed.numHashFuncs * exampleIndexed.numBands ∧
    ∃ after, Add exampleIndexed "C" [1, 1, 1, 1] = some after ∧
      after.hashTables = exampleIndexed.hashTables ∧
      ∀ s : List Nat, Query after s = Query exampleIndexed s ∧
        ∀ result, QueryResult after s result ↔ QueryResult exampleIndexed s result :=
  ⟨⟨by decide, rfl, by decide, by decide⟩, by decide,
    C14_Add_after_Index exampleIndexed "C" [1, 1, 1, 1]
      ⟨by decide, rfl, by decide, by decide⟩ (by decide)⟩

/-- C15 at the example forest with two items added and never indexed. -/
theorem C15_Query_empty_tables_witness :
    Configured exampleBuilt ∧ (∀ table ∈ exampleBuilt.hashTables, table = []) ∧
    [1, 1, 1, 1].length = exampleBuilt.numHashFuncs * exampleBuilt.numBands ∧
    Query exampleBuilt [1, 1, 1, 1] = some [] ∧
    ∀ result, QueryResult exampleBuilt [1, 1, 1, 1] result → result = [] :=
  ⟨⟨by decide, rfl, by decide, by decide⟩, by decide, by decide,
    (C15_Query_empty_tables (K := Unit)).1 exampleBuilt [1, 1, 1, 1]
      ⟨by decide, rfl, by decide, by decide⟩ (by decide) (by decide)⟩

/-- C16 refuted: for the signature length `0`, `optimise` returns the geometry `(0, 0)` and
no error, and the forest `NewLSHforest` returns accepts an `Add` and answers a `Query`. -/
theorem C16_no_configuration_error :
    optimise exampleOps 0 F64.half = (0, 0, .fin 0, .fin 0) ∧
    (Add (NewLSHforest exampleOps 0 F64.half : LSHforest Unit) "A" [1, 2]).isSome = true ∧
    Query (NewLSHforest exampleOps 0 F64.half : LSHforest Unit) [1, 2] = some [] := by
  decide

/-- C16, as amended, at the signature length `-3`. -/
theorem C16_degenerate_forest_witness :
    (-3 : Int) < 1 ∧
    (optimise exampleOps (-3) F64.half = (0, 0, .fin 0, .fin 0) ∧
      (NewLSHforest exampleOps (-3) F64.half : LSHforest Unit).numBands = 0 ∧
      (NewLSHforest exampleOps (-3) F64.half : LSHforest Unit).numHashFuncs = 0 ∧
      (NewLSHforest exampleOps (-3) F64.half : LSHforest Unit).initialHashTables = [] ∧
      (NewLSHforest exampleOps (-3) F64.half : LSHforest Unit).hashTables = [] ∧
      (∀ (key : String) (sig : List Nat),
        Add (NewLSHforest exampleOps (-3) F64.half : LSHforest Unit) key sig =
          some (NewLSHforest exampleOps (-3) F64.half)) ∧
      (∀ s : List Nat,
        Query (NewLSHforest exampleOps (-3) F64.half : LSHforest Unit) s = some [] ∧
        ∀ result,
          QueryResult (NewLSHforest exampleOps (-3) F64.half : LSHforest Unit) s result →
            result = []) ∧
      ∀ (path : String) (fs : FileSystem Unit),
        Dump (NewLSHforest exampleOps (-3) F64.half : LSHforest Unit) path fs = none) :=
  ⟨by decide, C16_degenerate_forest exampleOps (-3) F64.half (by decide)⟩

/-- C17 at the indexed example forest and the query `[1, 1, 1, 1]`: the probe of band 0
sends `A, A, B` and that of band 1 sends `A, A`. -/
theorem C17_runQuery_schedules_witness :
    Reachable exampleOps 16 F64.half exampleIndexed ∧
    [1, 1, 1, 1].length = exampleIndexed.numHashFuncs * exampleIndexed.numBands ∧
    runProbes exampleIndexed [1, 1, 1, 1] = some [["A", "A", "B"], ["A", "A"]] ∧
    ∃ sent, runProbes exampleIndexed [1, 1, 1, 1] = some sent ∧
      sent = (List.range exampleIndexed.numBands).map (fun i =>
        matching (exampleIndexed.hashTables.getD i [])
          (bandKey exampleIndexed.hashValueSize exampleIndexed.numHashFuncs
            [1, 1, 1, 1] i)) ∧
      (∀ st, queryReach sent st →
        st.panicked = false ∧ (st.keyChanClosed = true → ∀ p ∈ st.probes, p = none)) ∧
      (∀ st, queryReach sent st → st.returned = false → ∃ st', queryStep st st') ∧
      (∀ f : Nat → queryState, f 0 = queryState.init sent →
        ¬ ∀ n, queryStep (f n) (f (n + 1))) ∧
      (∃ result, QueryRun exampleIndexed [1, 1, 1, 1] result) ∧
      (∀ result, QueryRun exampleIndexed [1, 1, 1, 1] result →
        result.Nodup ∧ ∀ key, key ∈ result ↔ ∃ l ∈ sent, key ∈ l) ∧
      ∀ result result', QueryRun exampleIndexed [1, 1, 1, 1] result →
        QueryRun exampleIndexed [1, 1, 1, 1] result' → result.Perm result' :=
  ⟨exampleIndexed_reachable, by decide, by decide,
    C17_runQuery_schedules exampleOps 16 F64.half exampleIndexed [1, 1, 1, 1]
      exampleIndexed_reachable (by decide)⟩

/-- C18 at the example forest with two items added and never indexed. -/
theorem C18_Index_moves_sorted_witness :
    exampleBuilt.hashTables.length = exampleBuilt.initialHashTables.length ∧
    (∀ t ∈ exampleBuilt.hashTables, t = []) ∧
    (∀ table ∈ exampleBuilt.initialHashTables, (table.map Prod.fst).Nodup) ∧
    ((Index exampleBuilt).map (fun f => f.hashTables) =
      some [[⟨[1, 0, 0, 0, 1, 0, 0, 0], ["A", "B"]⟩],
        [⟨[1, 0, 0, 0, 1, 0, 0, 0], ["A"]⟩, ⟨[2, 0, 0, 0, 2, 0, 0, 0], ["B"]⟩]]) ∧
    ((∃ after, Index exampleBuilt = some after) ∧
      ∀ after, IndexRel exampleBuilt after →
        after.hashTables.length = exampleBuilt.hashTables.length ∧
        after.initialHashTables.length = exampleBuilt.initialHashTables.length ∧
        (∀ table ∈ after.initialHashTables, table = []) ∧
        ∀ i table, exampleBuilt.initialHashTables.get? i = some table →
          ∃ table', after.hashTables.get? i = some table' ∧
            table'.Perm (table.map toBand) ∧ table'.Pairwise bandLt) :=
  ⟨by decide, by decide, by decide, by decide,
    C18_Index_moves_sorted exampleBuilt (by decide) (by decide) (by decide)⟩

/-- C19 refuted: after `Add`, `Index`, an `Add` with a signature already indexed and a
second `Index`, the indexed table of each band holds the hashed signature
`[1,0,0,0,1,0,0,0]` in two entries. -/
theorem C19_duplicate_after_second_Index :
    Reachable exampleOps 16 F64.half exampleReindexed ∧
    exampleReindexed.hashTables.map (fun table => table.map fun b => b.HashedSignature) =
      [[[1, 0, 0, 0, 1, 0, 0, 0], [1, 0, 0, 0, 1, 0, 0, 0]],
        [[1, 0, 0, 0, 1, 0, 0, 0], [1, 0, 0, 0, 1, 0, 0, 0], [2, 0, 0, 0, 2, 0, 0, 0]]] ∧
    ¬ ∀ table ∈ exampleReindexed.hashTables,
      (table.map fun b => b.HashedSignature).Nodup :=
  ⟨exampleReindexed_reachable, by decide, by decide⟩

/-- C19, as amended, at the indexed example forest. -/
theorem C19_indexed_ordered_witness :
    Reachable exampleOps 16 F64.half exampleIndexed ∧
    ((∀ table ∈ exampleIndexed.hashTables, table.Pairwise bandLe) ∧
      (∀ after, (∀ t ∈ exampleIndexed.hashTables, t = []) → IndexRel exampleIndexed after →
        ∀ table ∈ after.hashTables, table.Pairwise bandLt ∧
          (table.map fun b => b.HashedSignature).Nodup) ∧
      ∀ after key sig, Add exampleIndexed key sig = some after →
        after.hashTables = exampleIndexed.hashTables) :=
  ⟨exampleIndexed_reachable,
    C19_indexed_ordered exampleOps 16 F64.half exampleIndexed exampleIndexed_reachable⟩

/-- C20 at the indexed example forest. -/
theorem C20_full_width_witness :
    Reachable exampleOps 16 F64.half exampleIndexed ∧
    ((∀ table ∈ exampleIndexed.initialHashTables, ∀ e ∈ table,
      e.1.length = exampleIndexed.hashValueSize * exampleIndexed.numHashFuncs) ∧
      (∀ table ∈ exampleIndexed.hashTables, ∀ b ∈ table,
        b.HashedSignature.length =
          exampleIndexed.hashValueSize * exampleIndexed.numHashFuncs ∧
        strPrefix b.HashedSignature
            (exampleIndexed.hashValueSize * exampleIndexed.numHashFuncs) =
          some b.HashedSignature) ∧
      ∀ (s : List Nat), s.length = exampleIndexed.numHashFuncs * exampleIndexed.numBands →
        ∃ sent, runProbes exampleIndexed s = some sent) :=
  ⟨exampleIndexed_reachable,
    C20_full_width exampleOps 16 F64.half exampleIndexed exampleIndexed_reachable⟩

end lshForest
